import Mathlib

/-!
# A verification development for `threadpool/main.c`

The program is a fixed pool of worker threads that take jobs from a shared
linked-list queue guarded by one recursive mutex and one condition variable.

The development has two layers.

* The queue layer: the globals `head`, `tail`, `num_jobs`, `finished` and the
  heap of `job` nodes, with `add_job` and `get_job` as functions on that state.
* The pool layer: a step function that runs one C statement of one thread
  (`main` or a `process_jobs` worker), with the mutex, the condition variable
  and the output made explicit. The statements of `add_job` and `get_job` in the
  pool layer compose to the functions of the queue layer
  (`add_job_statements`, `get_job_statements`).

Conventions of the embedding.

* C `int` values are integers; an increment of `num_jobs` past `INT_MAX` and a
  dereference of a pointer that is `NULL` or not allocated are reported as a
  `Fault` instead of a result.
* `malloc` is a choice of the environment: `NULL`, or an address that holds no
  node. The contents of a new node are written before they are read.
* The mutex is recursive: a lock by its owner adds one level. A lock by another
  thread cannot be taken as a step until the mutex is free.
* `pthread_cond_wait` releases the mutex and blocks in one step; a blocked
  worker is unblocked by `pthread_cond_signal` (one worker, chosen by the
  environment), by `pthread_cond_broadcast` (all of them) or by a spurious
  wakeup, and then has to lock the mutex again.
* The constants `NUM_HANDLER_THREADS` (10) and the number of jobs (30) are the
  fields `W` and `K` of a `Config`.
-/

namespace Threadpool

/-! ## Data model -/

/-- A pointer to a `job` node: `none` is `NULL`, `some a` is the address `a`. -/
abbrev Ptr := Option Nat

/-- The node type `struct Job { int num; struct Job* link; }`. -/
structure job where
  num : Int
  link : Ptr
deriving DecidableEq, Repr

/-- The heap of `job` nodes: the node stored at each allocated address. -/
abbrev Heap := Nat → Option job

/-- Largest value of a C `int` (32 bits). -/
def INT_MAX : Int := 2147483647

/-- Ways an operation can leave defined behaviour. -/
inductive Fault where
  /-- A dereference of `NULL`. -/
  | nullDeref
  /-- A dereference of an address that holds no allocated node. -/
  | wildDeref
  /-- A signed increment past `INT_MAX`. -/
  | intOverflow
deriving DecidableEq, Repr

/-- The shared state: the heap and the globals `head`, `tail`, `num_jobs`
and `finished`. -/
structure Shared where
  mem : Heap
  head : Ptr
  tail : Ptr
  num_jobs : Int
  finished : Int

/-- The state at program start: `head = NULL`, `tail = NULL`, `num_jobs = 0`,
`finished = 0`, and no node allocated. -/
def Shared.init : Shared :=
  { mem := fun _ => none, head := none, tail := none, num_jobs := 0, finished := 0 }

/-- Store node `j` at address `a`. -/
def Heap.store (mem : Heap) (a : Nat) (j : job) : Heap :=
  fun b => if b = a then some j else mem b

/-- Release the node at address `a`. -/
def Heap.free (mem : Heap) (a : Nat) : Heap :=
  fun b => if b = a then none else mem b

/-! ## Queue operations -/

/-- The function `add_job(request_num, mutex, cond_var)` on the shared state.
The argument `new_job` is the pointer returned by `malloc`; the mutex and the
signal do not change the shared state of a single caller. -/
def add_job (request_num : Int) (new_job : Ptr) (s : Shared) : Except Fault Shared :=
  match new_job with
  | none => .error .nullDeref                      -- new_job->num = request_num
  | some a =>
    -- new_job->num = request_num; new_job->link = NULL;
    let mem := s.mem.store a { num := request_num, link := none }
    if s.num_jobs = 0 then
      -- head = new_job; tail = new_job; num_jobs++
      .ok { s with mem := mem, head := some a, tail := some a, num_jobs := s.num_jobs + 1 }
    else
      match s.tail with
      | none => .error .nullDeref                  -- tail->link = new_job
      | some t =>
        match mem t with
        | none => .error .wildDeref
        | some jt =>
          if INT_MAX < s.num_jobs + 1 then .error .intOverflow   -- num_jobs++
          else
            -- tail->link = new_job; tail = new_job; num_jobs++
            .ok { s with mem := mem.store t { jt with link := some a },
                         tail := some a, num_jobs := s.num_jobs + 1 }

/-- The function `get_job(mutex)` on the shared state: the returned pointer and
the new state. -/
def get_job (s : Shared) : Except Fault (Ptr × Shared) :=
  if s.num_jobs > 0 then
    -- new_job = head; head = new_job->link;
    match s.head with
    | none => .error .nullDeref
    | some a =>
      match s.mem a with
      | none => .error .wildDeref
      | some j =>
        -- if (head == NULL) tail = NULL; num_jobs--;
        .ok (some a, { s with head := j.link,
                              tail := if j.link = none then none else s.tail,
                              num_jobs := s.num_jobs - 1 })
  else
    -- new_job = NULL
    .ok (none, s)

/-! ## The chain of nodes from `head` -/

/-- The addresses met when following `link` from `p` down to `NULL` are
exactly the list given, in order. -/
def chain (mem : Heap) : Ptr → List Nat → Prop
  | p, [] => p = none
  | p, a :: l => p = some a ∧
      match mem a with
      | some j => chain mem j.link l
      | none => False

instance chain.decide (mem : Heap) : (p : Ptr) → (l : List Nat) → Decidable (chain mem p l)
  | p, [] => inferInstanceAs (Decidable (p = none))
  | p, a :: l =>
    match h : mem a with
    | some j =>
      have : Decidable (chain mem j.link l) := chain.decide mem j.link l
      decidable_of_iff (p = some a ∧ chain mem j.link l) (by simp [chain, h])
    | none => isFalse (by simp [chain, h])

/-- The `num` fields of the nodes at the given addresses (0 for an address
that holds no node). -/
def nums (mem : Heap) (l : List Nat) : List Int :=
  l.map fun a => match mem a with
    | some j => j.num
    | none => 0

/-- The value read by `p->num`: none when `p` is `NULL` or not allocated. -/
def num_of (mem : Heap) (p : Ptr) : Option Int :=
  match p with
  | none => none
  | some a => (mem a).map job.num

/-- The representation invariant of the queue with respect to the list `l` of
node addresses: `l` is the chain from `head`, `tail` is its last node (`NULL`
when `l` is empty) and `num_jobs` is its length. -/
def Rep (s : Shared) (l : List Nat) : Prop :=
  chain s.mem s.head l ∧ s.tail = l.getLast? ∧ s.num_jobs = l.length

/-- A queue state is well formed when it represents some list of nodes. -/
def WF (s : Shared) : Prop := ∃ l, Rep s l

/-- States reached from the initial state by calls of `add_job` and `get_job`
that return. `malloc` hands `add_job` an address that holds no node. -/
inductive Reach : Shared → Prop where
  | init : Reach Shared.init
  | add {s s' : Shared} (x : Int) (a : Nat) :
      Reach s → s.mem a = none → add_job x (some a) s = .ok s' → Reach s'
  | get {s s' : Shared} (r : Ptr) :
      Reach s → get_job s = .ok (r, s') → Reach s'

/-- Run `add_job` for each pair of a job id and the address `malloc` gave. -/
def add_jobs : List (Int × Nat) → Shared → Except Fault Shared
  | [], s => .ok s
  | (x, a) :: rest, s =>
    match add_job x (some a) s with
    | .ok s' => add_jobs rest s'
    | .error e => .error e

/-- Run `get_job` `n` times, collecting the returned pointers in order. -/
def get_jobs : Nat → Shared → Except Fault (List Ptr × Shared)
  | 0, s => .ok ([], s)
  | n + 1, s =>
    match get_job s with
    | .ok (r, s') =>
      match get_jobs n s' with
      | .ok (rs, s'') => .ok (r :: rs, s'')
      | .error e => .error e
    | .error e => .error e

/-- An example state: the queue after `add_job(7)` with node address 0. -/
def ex_one : Shared :=
  { mem := Heap.store (fun _ => none) 0 { num := 7, link := none },
    head := some 0, tail := some 0, num_jobs := 1, finished := 0 }

/-- An example state: the queue after `add_job(7)` and then `add_job(9)`, with
node addresses 0 and 1. -/
def ex_two : Shared :=
  { mem := (ex_one.mem.store 1 { num := 9, link := none }).store 0 { num := 7, link := some 1 },
    head := some 0, tail := some 1, num_jobs := 2, finished := 0 }

/-! ## The pool: threads, mutex, condition variable -/

/-- The constants of the program: the number of worker threads
(`NUM_HANDLER_THREADS`) and the number of jobs the loop of `main` adds. -/
structure Config where
  W : Nat
  K : Nat
deriving DecidableEq, Repr

/-- The constants as written in the source: 10 workers, 30 jobs. -/
def Config.source : Config := { W := 10, K := 30 }

/-- A thread: `main`, or the worker created with `thr_id[n] = n`. -/
inductive Tid where
  | main
  | worker (n : Nat)
deriving DecidableEq, Repr

/-- The recursive mutex `request_mutex`: its owner and how many times the
owner has locked it. -/
structure Mutex where
  owner : Option Tid
  depth : Nat
deriving DecidableEq, Repr

/-- The call `pthread_mutex_lock` by thread `t` on a recursive mutex: `none`
when the caller has to block. -/
def pthread_mutex_lock (m : Mutex) (t : Tid) : Option Mutex :=
  match m.owner with
  | none => some { owner := some t, depth := 1 }
  | some o => if o = t then some { owner := some t, depth := m.depth + 1 } else none

/-- The call `pthread_mutex_unlock` by thread `t`: one level is released; a
call by a thread that is not the owner fails and changes nothing. -/
def pthread_mutex_unlock (m : Mutex) (t : Tid) : Mutex :=
  match m.owner with
  | none => m
  | some o =>
    if o = t then
      if m.depth ≤ 1 then { owner := none, depth := 0 }
      else { owner := some t, depth := m.depth - 1 }
    else m

/-- Program points of `main`, with `add_job` inlined at its call. The comment
gives the source line that the point is about to run. -/
inductive MPc where
  | create      -- 53-56: test i < NUM_HANDLER_THREADS, pthread_create
  | loop        -- 57: test i < 30, call add_job(i)
  | aMalloc     -- 98: new_job = malloc(sizeof(job))
  | aNum        -- 99: new_job->num = request_num
  | aLink       -- 100: new_job->link = NULL
  | aLock       -- 105: pthread_mutex_lock(mutex)
  | aTest       -- 110: if (num_jobs == 0)
  | aHead       -- 111: head = new_job
  | aTail       -- 113: tail = new_job
  | aLinkTail   -- 115: tail->link = new_job
  | aTail2      -- 116: tail = new_job
  | aInc        -- 118: num_jobs++
  | aUnlock     -- 119: pthread_mutex_unlock(mutex)
  | aSignal     -- 120: pthread_cond_signal(cond_var)
  | rand        -- 61-65: optional nanosleep, then i++
  | mLock       -- 71: pthread_mutex_lock(&request_mutex)
  | setFinished -- 72: finished = 1
  | broadcast   -- 73: pthread_cond_broadcast(&got_request)
  | mUnlock     -- 74: pthread_mutex_unlock(&request_mutex)
  | join        -- 80-84: test i < NUM_HANDLER_THREADS, pthread_join
  | print       -- 85: printf("Program exiting")
  | done        -- 86: returned
deriving DecidableEq, Repr

/-- Program points of a worker running `process_jobs`, with `get_job` inlined
at its call. -/
inductive WPc where
  | notCreated  -- before pthread_create
  | lock0       -- 173: pthread_mutex_lock(&request_mutex)
  | test        -- 175: if (num_jobs > 0)
  | gLock       -- 133: pthread_mutex_lock(mutex)
  | gTest       -- 134: if (num_jobs > 0)
  | gTake       -- 135: new_job = head
  | gAdvance    -- 136: head = new_job->link
  | gHeadNull   -- 137: if (head == NULL)
  | gTailNull   -- 138: tail = NULL
  | gDec        -- 140: num_jobs--
  | gNull       -- 142: new_job = NULL
  | gUnlock     -- 144: pthread_mutex_unlock(mutex)
  | gReturn     -- 145, 176: return new_job; new_job = get_job(...)
  | chk         -- 177: if (new_job)
  | unlock      -- 178: pthread_mutex_unlock(&request_mutex)
  | work        -- 179: thread_work(new_job, thread_id)
  | free        -- 180: free(new_job)
  | relock      -- 181: pthread_mutex_lock(&request_mutex)
  | fin         -- 184: if (finished)
  | unlockExit  -- 185: pthread_mutex_unlock(&request_mutex)
  | printExit   -- 186: printf("thread '%d' exiting\n", thread_id)
  | exit        -- 188: pthread_exit(NULL)
  | wait        -- 190: pthread_cond_wait: release the mutex and block
  | waiting     -- blocked inside pthread_cond_wait
  | woken       -- unblocked inside pthread_cond_wait: lock the mutex again
  | exited      -- terminated
deriving DecidableEq, Repr

/-- The locals of `main`: its program point, the counter `i`, and `new_job` of
the `add_job` call in progress. -/
structure MainState where
  pc : MPc
  i : Nat
  new_job : Ptr
deriving DecidableEq, Repr

/-- The locals of a worker: its program point, `new_job` of `process_jobs` and
`new_job` of the `get_job` call in progress. -/
structure WorkerState where
  pc : WPc
  new_job : Ptr
  g_new_job : Ptr
deriving DecidableEq, Repr

/-- A line of output. -/
inductive Event where
  /-- The line "Thread 'thread_id' handled job 'num'". -/
  | handled (thread_id : Nat) (num : Int)
  /-- The line "thread 'thread_id' exiting". -/
  | exiting (thread_id : Nat)
  /-- The line "Program exiting". -/
  | programExiting
deriving DecidableEq, Repr

/-- The state of the whole program. -/
structure State where
  sh : Shared
  mutex : Mutex
  main : MainState
  workers : Nat → WorkerState
  out : List Event
  fault : Option Fault

/-- The state when `main` starts. -/
def State.init : State :=
  { sh := Shared.init,
    mutex := { owner := none, depth := 0 },
    main := { pc := .create, i := 0, new_job := none },
    workers := fun _ => { pc := .notCreated, new_job := none, g_new_job := none },
    out := [],
    fault := none }

/-- Replace the state of worker `n`. -/
def State.setWorker (s : State) (n : Nat) (w : WorkerState) : State :=
  { s with workers := fun m => if m = n then w else s.workers m }

/-- The process stops on a fault. -/
def State.crash (s : State) (f : Fault) : State := { s with fault := some f }

/-- The call `thread_work(new_job, thread_id)`: the line printed when `new_job`
is not `NULL`, or the fault of reading `new_job->num`. -/
def thread_work (mem : Heap) (new_job : Ptr) (thread_id : Nat) : Except Fault (List Event) :=
  match new_job with
  | none => .ok []
  | some a =>
    match mem a with
    | some j => .ok [Event.handled thread_id j.num]
    | none => .error .wildDeref

/-- One statement of `main`. The choice `c` is the answer of `malloc` at line
98 (`none` for `NULL`) and the worker unblocked by `pthread_cond_signal` at
line 120 (`none` when no worker is blocked); it is not used elsewhere. The
result is `none` when the statement cannot run in this state. -/
def stepMain (cfg : Config) (s : State) (c : Option Nat) : Option State :=
  let M := s.main
  match M.pc with
  | .create =>
    if M.i < cfg.W then
      some { s.setWorker M.i { s.workers M.i with pc := .lock0 } with
             main := { M with i := M.i + 1 } }
    else some { s with main := { M with pc := .loop, i := 0 } }
  | .loop =>
    if M.i < cfg.K then some { s with main := { M with pc := .aMalloc } }
    else some { s with main := { M with pc := .mLock } }
  | .aMalloc =>
    match c with
    | none => some { s with main := { M with pc := .aNum, new_job := none } }
    | some a =>
      match s.sh.mem a with
      | some _ => none
      | none =>
        some { s with sh := { s.sh with mem := s.sh.mem.store a { num := 0, link := none } },
                      main := { M with pc := .aNum, new_job := some a } }
  | .aNum =>
    match M.new_job with
    | none => some (s.crash .nullDeref)
    | some a =>
      match s.sh.mem a with
      | none => some (s.crash .wildDeref)
      | some j =>
        some { s with sh := { s.sh with mem := s.sh.mem.store a { j with num := (M.i : Int) } },
                      main := { M with pc := .aLink } }
  | .aLink =>
    match M.new_job with
    | none => some (s.crash .nullDeref)
    | some a =>
      match s.sh.mem a with
      | none => some (s.crash .wildDeref)
      | some j =>
        some { s with sh := { s.sh with mem := s.sh.mem.store a { j with link := none } },
                      main := { M with pc := .aLock } }
  | .aLock =>
    match pthread_mutex_lock s.mutex .main with
    | none => none
    | some m => some { s with mutex := m, main := { M with pc := .aTest } }
  | .aTest =>
    if s.sh.num_jobs = 0 then some { s with main := { M with pc := .aHead } }
    else some { s with main := { M with pc := .aLinkTail } }
  | .aHead =>
    some { s with sh := { s.sh with head := M.new_job }, main := { M with pc := .aTail } }
  | .aTail =>
    some { s with sh := { s.sh with tail := M.new_job }, main := { M with pc := .aInc } }
  | .aLinkTail =>
    match s.sh.tail with
    | none => some (s.crash .nullDeref)
    | some t =>
      match s.sh.mem t with
      | none => some (s.crash .wildDeref)
      | some jt =>
        some { s with sh := { s.sh with mem := s.sh.mem.store t { jt with link := M.new_job } },
                      main := { M with pc := .aTail2 } }
  | .aTail2 =>
    some { s with sh := { s.sh with tail := M.new_job }, main := { M with pc := .aInc } }
  | .aInc =>
    if INT_MAX < s.sh.num_jobs + 1 then some (s.crash .intOverflow)
    else some { s with sh := { s.sh with num_jobs := s.sh.num_jobs + 1 },
                       main := { M with pc := .aUnlock } }
  | .aUnlock =>
    some { s with mutex := pthread_mutex_unlock s.mutex .main, main := { M with pc := .aSignal } }
  | .aSignal =>
    match c with
    | some n =>
      if (s.workers n).pc = .waiting then
        some { s.setWorker n { s.workers n with pc := .woken } with main := { M with pc := .rand } }
      else none
    | none =>
      if ∀ n < cfg.W, (s.workers n).pc ≠ .waiting then
        some { s with main := { M with pc := .rand } }
      else none
  | .rand => some { s with main := { M with pc := .loop, i := M.i + 1 } }
  | .mLock =>
    match pthread_mutex_lock s.mutex .main with
    | none => none
    | some m => some { s with mutex := m, main := { M with pc := .setFinished } }
  | .setFinished =>
    some { s with sh := { s.sh with finished := 1 }, main := { M with pc := .broadcast } }
  | .broadcast =>
    some { s with
      workers := fun n =>
        if (s.workers n).pc = .waiting then { s.workers n with pc := .woken } else s.workers n,
      main := { M with pc := .mUnlock } }
  | .mUnlock =>
    some { s with mutex := pthread_mutex_unlock s.mutex .main,
                  main := { M with pc := .join, i := 0 } }
  | .join =>
    if M.i < cfg.W then
      if (s.workers M.i).pc = .exited then some { s with main := { M with i := M.i + 1 } }
      else none
    else some { s with main := { M with pc := .print } }
  | .print => some { s with out := s.out ++ [Event.programExiting], main := { M with pc := .done } }
  | .done => none

/-- One statement of worker `n`. The result is `none` when the worker cannot
run in this state: not created, blocked on the mutex or in the wait, or
terminated. -/
def stepWorker (s : State) (n : Nat) : Option State :=
  let w := s.workers n
  let t := Tid.worker n
  match w.pc with
  | .notCreated => none
  | .lock0 =>
    match pthread_mutex_lock s.mutex t with
    | none => none
    | some m => some { s.setWorker n { w with pc := .test } with mutex := m }
  | .test =>
    if s.sh.num_jobs > 0 then some (s.setWorker n { w with pc := .gLock })
    else some (s.setWorker n { w with pc := .fin })
  | .gLock =>
    match pthread_mutex_lock s.mutex t with
    | none => none
    | some m => some { s.setWorker n { w with pc := .gTest } with mutex := m }
  | .gTest =>
    if s.sh.num_jobs > 0 then some (s.setWorker n { w with pc := .gTake })
    else some (s.setWorker n { w with pc := .gNull })
  | .gTake => some (s.setWorker n { w with pc := .gAdvance, g_new_job := s.sh.head })
  | .gAdvance =>
    match w.g_new_job with
    | none => some (s.crash .nullDeref)
    | some a =>
      match s.sh.mem a with
      | none => some (s.crash .wildDeref)
      | some j =>
        some { s.setWorker n { w with pc := .gHeadNull } with sh := { s.sh with head := j.link } }
  | .gHeadNull =>
    if s.sh.head = none then some (s.setWorker n { w with pc := .gTailNull })
    else some (s.setWorker n { w with pc := .gDec })
  | .gTailNull =>
    some { s.setWorker n { w with pc := .gDec } with sh := { s.sh with tail := none } }
  | .gDec =>
    some { s.setWorker n { w with pc := .gUnlock } with
           sh := { s.sh with num_jobs := s.sh.num_jobs - 1 } }
  | .gNull => some (s.setWorker n { w with pc := .gUnlock, g_new_job := none })
  | .gUnlock =>
    some { s.setWorker n { w with pc := .gReturn } with mutex := pthread_mutex_unlock s.mutex t }
  | .gReturn => some (s.setWorker n { w with pc := .chk, new_job := w.g_new_job })
  | .chk =>
    if w.new_job ≠ none then some (s.setWorker n { w with pc := .unlock })
    else some (s.setWorker n { w with pc := .test })
  | .unlock =>
    some { s.setWorker n { w with pc := .work } with mutex := pthread_mutex_unlock s.mutex t }
  | .work =>
    match thread_work s.sh.mem w.new_job n with
    | .error f => some (s.crash f)
    | .ok lines => some { s.setWorker n { w with pc := .free } with out := s.out ++ lines }
  | .free =>
    match w.new_job with
    | none => some (s.setWorker n { w with pc := .relock })
    | some a =>
      match s.sh.mem a with
      | none => some (s.crash .wildDeref)
      | some _ =>
        some { s.setWorker n { w with pc := .relock } with
               sh := { s.sh with mem := s.sh.mem.free a } }
  | .relock =>
    match pthread_mutex_lock s.mutex t with
    | none => none
    | some m => some { s.setWorker n { w with pc := .test } with mutex := m }
  | .fin =>
    if s.sh.finished ≠ 0 then some (s.setWorker n { w with pc := .unlockExit })
    else some (s.setWorker n { w with pc := .wait })
  | .unlockExit =>
    some { s.setWorker n { w with pc := .printExit } with
           mutex := pthread_mutex_unlock s.mutex t }
  | .printExit =>
    some { s.setWorker n { w with pc := .exit } with out := s.out ++ [Event.exiting n] }
  | .exit => some (s.setWorker n { w with pc := .exited })
  | .wait =>
    some { s.setWorker n { w with pc := .waiting } with mutex := pthread_mutex_unlock s.mutex t }
  | .waiting => none
  | .woken =>
    match pthread_mutex_lock s.mutex t with
    | none => none
    | some m => some { s.setWorker n { w with pc := .test } with mutex := m }
  | .exited => none

/-- What the scheduler and the environment choose at a step. -/
inductive Action where
  /-- The thread `main` runs its next statement, with the choice `c`. -/
  | main (c : Option Nat)
  /-- Worker `n` runs its next statement. -/
  | worker (n : Nat)
  /-- Worker `n`, blocked in `pthread_cond_wait`, is unblocked with no signal
  (a spurious wakeup). -/
  | spurious (n : Nat)
deriving DecidableEq, Repr

/-- One step of the program; `none` when the action cannot happen. A process
that has faulted takes no step. -/
def step (cfg : Config) (s : State) (a : Action) : Option State :=
  match s.fault with
  | some _ => none
  | none =>
    match a with
    | .main c => stepMain cfg s c
    | .worker n => stepWorker s n
    | .spurious n =>
      if (s.workers n).pc = .waiting then
        some (s.setWorker n { s.workers n with pc := .woken })
      else none

/-- Run a list of actions in order; `none` when one of them cannot happen. -/
def run (cfg : Config) : List Action → State → Option State
  | [], s => some s
  | a :: rest, s =>
    match step cfg s a with
    | some s' => run cfg rest s'
    | none => none

/-- The states the program can be in. -/
inductive Reachable (cfg : Config) : State → Prop where
  | init : Reachable cfg State.init
  | step {s s' : State} (a : Action) : Reachable cfg s → step cfg s a = some s' → Reachable cfg s'

/-! ## Invariants of the pool -/

/-- How many times a worker holds the mutex at each program point. -/
def WPc.depth : WPc → Nat
  | .test | .gLock | .gReturn | .chk | .unlock | .fin | .unlockExit | .wait => 1
  | .gTest | .gTake | .gAdvance | .gHeadNull | .gTailNull | .gDec | .gNull | .gUnlock => 2
  | _ => 0

/-- How many times `main` holds the mutex at each program point. -/
def MPc.depth : MPc → Nat
  | .aTest | .aHead | .aTail | .aLinkTail | .aTail2 | .aInc | .aUnlock => 1
  | .setFinished | .broadcast | .mUnlock => 1
  | _ => 0

/-- How many times thread `t` holds the mutex, read off its program point. -/
def State.depthOf (s : State) : Tid → Nat
  | .main => s.main.pc.depth
  | .worker n => (s.workers n).pc.depth

/-- The mutex agrees with the program points: its owner holds it as many
times as its program point says, and every other thread not at all. -/
def LockInv (s : State) : Prop :=
  (∀ t, s.mutex.owner = some t → s.depthOf t = s.mutex.depth ∧ 0 < s.mutex.depth) ∧
  (∀ t, s.mutex.owner ≠ some t → s.depthOf t = 0) ∧
  (s.mutex.owner = none → s.mutex.depth = 0)

/-- Program points of `main` at which `finished` has been set. -/
def MPc.afterFinished : MPc → Bool
  | .broadcast | .mUnlock | .join | .print | .done => true
  | _ => false

/-- Program points of `main` inside one round of the production loop: the
call `add_job(i)` and the pause after it. -/
def MPc.inAdd : MPc → Bool
  | .aMalloc | .aNum | .aLink | .aLock | .aTest | .aHead | .aTail | .aLinkTail | .aTail2
  | .aInc | .aUnlock | .aSignal | .rand => true
  | _ => false

/-- Program points of `main` after its broadcast. -/
def MPc.afterBroadcast : MPc → Bool
  | .mUnlock | .join | .print | .done => true
  | _ => false

/-- Program points of a worker on the exit branch of `process_jobs`. -/
def WPc.exiting : WPc → Bool
  | .unlockExit | .printExit | .exit | .exited => true
  | _ => false

/-- Facts on program points and counters: which workers exist, the value of
`finished`, the range of `i`, the workers already joined, and that a worker
about to wait has seen `finished == 0`. -/
structure CtlInv (cfg : Config) (s : State) : Prop where
  created : ∀ n, (s.workers n).pc ≠ .notCreated ↔
    n < (if s.main.pc = .create then s.main.i else cfg.W)
  create_le : s.main.pc = .create → s.main.i ≤ cfg.W
  finished_eq : s.sh.finished = if s.main.pc.afterFinished then 1 else 0
  add_lt : s.main.pc.inAdd = true → s.main.i < cfg.K
  loop_le : s.main.pc = .loop → s.main.i ≤ cfg.K
  join_le : s.main.pc = .join → s.main.i ≤ cfg.W
  joined : s.main.pc = .join → ∀ n < s.main.i, (s.workers n).pc = .exited
  all_joined : s.main.pc = .print ∨ s.main.pc = .done → ∀ n < cfg.W, (s.workers n).pc = .exited
  wait_unfinished : ∀ n, (s.workers n).pc = .wait → s.sh.finished = 0
  waiting_pending : ∀ n, (s.workers n).pc = .waiting → s.main.pc.afterBroadcast = false

/-- The node a worker has taken off the queue and not yet freed. -/
def WorkerState.held (w : WorkerState) : Ptr :=
  match w.pc with
  | .gHeadNull | .gTailNull | .gDec | .gUnlock | .gReturn => w.g_new_job
  | .chk | .unlock | .work | .free => w.new_job
  | _ => none

/-- The node a worker has taken off the queue and not yet passed to
`thread_work`. -/
def WorkerState.pending (w : WorkerState) : Ptr :=
  match w.pc with
  | .gHeadNull | .gTailNull | .gDec | .gUnlock | .gReturn => w.g_new_job
  | .chk | .unlock | .work => w.new_job
  | _ => none

/-- Program points at which a worker holds a node. -/
def WPc.holds : WPc → Bool
  | .gHeadNull | .gTailNull | .gDec | .gUnlock | .gReturn => true
  | .chk | .unlock | .work | .free => true
  | _ => false

/-- The node `add_job` has allocated and not yet linked into the queue. -/
def MainState.fresh (M : MainState) : Ptr :=
  match M.pc with
  | .aNum | .aLink | .aLock | .aTest | .aHead | .aLinkTail => M.new_job
  | _ => none

/-- Program points of `add_job` at which the new node is initialised and not
yet linked. -/
def MPc.hasFresh : MPc → Bool
  | .aLink | .aLock | .aTest | .aHead | .aLinkTail => true
  | _ => false

/-- What is known of the contents of the node `add_job` has allocated. -/
def MainState.freshOK (M : MainState) (mem : Heap) (a : Nat) : Prop :=
  match M.pc with
  | .aNum => ∃ j, mem a = some j
  | .aLink => ∃ j, mem a = some j ∧ j.num = (M.i : Int)
  | _ => mem a = some { num := (M.i : Int), link := none }

/-- How many `add_job` calls of `main` have linked their node. -/
def MainState.enqueued (cfg : Config) (M : MainState) : Nat :=
  match M.pc with
  | .create => 0
  | .loop | .aMalloc | .aNum | .aLink | .aLock | .aTest | .aHead | .aLinkTail => M.i
  | .aTail | .aTail2 | .aInc | .aUnlock | .aSignal | .rand => M.i + 1
  | _ => cfg.K

/-- The job ids `0, ..., n-1` as a multiset. -/
def enqueuedIds (n : Nat) : Multiset Int :=
  Multiset.ofList ((List.range n).map Int.ofNat)

/-- The id of the job at `p`, as a multiset of at most one element. -/
def numsOf (mem : Heap) (p : Ptr) : Multiset Int :=
  match num_of mem p with
  | some x => {x}
  | none => 0

/-- The job ids in the lines "handled job" of the output. -/
def handledNums (out : List Event) : Multiset Int :=
  Multiset.ofList (out.filterMap fun e => match e with
    | .handled _ x => some x
    | _ => none)

/-- The ids of the jobs that workers have taken and not yet executed. -/
def pendingNums (cfg : Config) (s : State) : Multiset Int :=
  ∑ n in Finset.range cfg.W, numsOf s.sh.mem (s.workers n).pending

/-- The queue is at rest: `tail` is the last node and `num_jobs` the length. -/
def canonical (sh : Shared) (l : List Nat) : Prop :=
  sh.tail = l.getLast? ∧ sh.num_jobs = l.length

/-- What holds of the queue while `main` owns the mutex, by program point. -/
def windowMain (s : State) (l : List Nat) : Prop :=
  match s.main.pc with
  | .aHead => canonical s.sh l ∧ s.sh.num_jobs = 0
  | .aLinkTail => canonical s.sh l ∧ s.sh.num_jobs ≠ 0
  | .aTail => s.sh.num_jobs = 0 ∧ l.length = 1 ∧ l.getLast? = s.main.new_job
  | .aTail2 => s.sh.num_jobs + 1 = l.length ∧ l.getLast? = s.main.new_job
  | .aInc => s.sh.num_jobs + 1 = l.length ∧ s.sh.tail = l.getLast?
  | _ => canonical s.sh l

/-- What holds of the queue while a worker owns the mutex, by program point. -/
def windowWorker (sh : Shared) (w : WorkerState) (l : List Nat) : Prop :=
  match w.pc with
  | .gLock | .gTest | .gTake => canonical sh l ∧ 0 < sh.num_jobs
  | .gAdvance => canonical sh l ∧ 0 < sh.num_jobs ∧ w.g_new_job = sh.head
  | .gHeadNull => sh.num_jobs = l.length + 1 ∧ (l ≠ [] → sh.tail = l.getLast?)
  | .gTailNull => sh.num_jobs = l.length + 1 ∧ l = []
  | .gDec => sh.num_jobs = l.length + 1 ∧ sh.tail = l.getLast?
  | .gNull => False
  | .fin | .unlockExit | .wait => canonical sh l ∧ sh.num_jobs = 0
  | _ => canonical sh l

/-- What holds of the queue in a state, according to the owner of the mutex. -/
def window (s : State) (l : List Nat) : Prop :=
  match s.mutex.owner with
  | none => canonical s.sh l
  | some .main => windowMain s l
  | some (.worker n) => windowWorker s.sh (s.workers n) l

/-- The invariant of the queue in the pool, with respect to the list `l` of
the nodes linked from `head`: the shape of the chain, the nodes owned by the
threads, and the account of the job ids. -/
structure QInv (cfg : Config) (s : State) (l : List Nat) : Prop where
  chain_ok : chain s.sh.mem s.sh.head l
  window_ok : window s l
  held_alloc : ∀ n a, (s.workers n).held = some a → (∃ j, s.sh.mem a = some j) ∧ a ∉ l
  held_inj : ∀ n m a, (s.workers n).held = some a → (s.workers m).held = some a → n = m
  holds_some : ∀ n, (s.workers n).pc.holds = true → (s.workers n).held ≠ none
  fresh_node : ∀ a, s.main.fresh = some a →
    a ∉ l ∧ (∀ n, (s.workers n).held ≠ some a) ∧ s.main.freshOK s.sh.mem a
  fresh_some : s.main.pc.hasFresh = true → s.main.new_job ≠ none
  exit_done : ∀ n, (s.workers n).pc.exiting = true → s.sh.num_jobs = 0 ∧ s.sh.finished = 1
  account : (nums s.sh.mem l : Multiset Int) + pendingNums cfg s + handledNums s.out =
    enqueuedIds (s.main.enqueued cfg)

/-- The invariant of the pool: the mutex invariant, the control facts, and the
queue invariant for some list of nodes. -/
structure Inv (cfg : Config) (s : State) : Prop where
  lock : LockInv s
  ctl : CtlInv cfg s
  queue : ∃ l, QInv cfg s l

/-! ## A measure of the work left -/

/-- An upper bound on the statements a worker runs from a program point to its
next blocking point or to its exit, not counting a job it has yet to take. -/
def WPc.rank : WPc → Nat
  | .exited | .waiting => 0
  | .exit | .wait | .gAdvance => 1
  | .printExit | .gTake => 2
  | .unlockExit | .gTest => 3
  | .fin | .gLock => 4
  | .test => 5
  | .lock0 | .woken | .relock => 6
  | .free | .notCreated => 7
  | .work => 8
  | .unlock => 9
  | .chk => 10
  | .gReturn => 11
  | .gUnlock => 12
  | .gDec | .gNull => 13
  | .gTailNull => 14
  | .gHeadNull => 15

/-- The number of statements `main` has left to run. -/
def MainState.rank (cfg : Config) (M : MainState) : Nat :=
  match M.pc with
  | .create => (cfg.W - M.i) + 12 * cfg.K + cfg.W + 8
  | .loop => 12 * (cfg.K - M.i) + cfg.W + 7
  | .aMalloc => 12 * (cfg.K - M.i - 1) + cfg.W + 18
  | .aNum => 12 * (cfg.K - M.i - 1) + cfg.W + 17
  | .aLink => 12 * (cfg.K - M.i - 1) + cfg.W + 16
  | .aLock => 12 * (cfg.K - M.i - 1) + cfg.W + 15
  | .aTest => 12 * (cfg.K - M.i - 1) + cfg.W + 14
  | .aHead | .aLinkTail => 12 * (cfg.K - M.i - 1) + cfg.W + 13
  | .aTail | .aTail2 => 12 * (cfg.K - M.i - 1) + cfg.W + 12
  | .aInc => 12 * (cfg.K - M.i - 1) + cfg.W + 11
  | .aUnlock => 12 * (cfg.K - M.i - 1) + cfg.W + 10
  | .aSignal => 12 * (cfg.K - M.i - 1) + cfg.W + 9
  | .rand => 12 * (cfg.K - M.i - 1) + cfg.W + 8
  | .mLock => cfg.W + 6
  | .setFinished => cfg.W + 5
  | .broadcast => cfg.W + 4
  | .mUnlock => cfg.W + 3
  | .join => (cfg.W - M.i) + 2
  | .print => 1
  | .done => 0

/-- The sum of the ranks of the workers. -/
def workerRank (cfg : Config) (s : State) : Nat :=
  ∑ n in Finset.range cfg.W, (s.workers n).pc.rank

/-- A measure of the work left in a state whose queue holds the nodes `l`:
0 after a fault; otherwise it weighs the statements `main` has left, the ranks
of the workers, and the jobs not yet taken off the queue. Every statement
lowers it; a wakeup raises the rank of the woken worker by 6. -/
def measure (cfg : Config) (s : State) (l : List Nat) : Nat :=
  match s.fault with
  | some _ => 0
  | none =>
    1 + (6 * cfg.W + 1) * s.main.rank cfg + workerRank cfg s +
      15 * ((cfg.K - s.main.enqueued cfg) + l.length)

/-- The measure of the initial state. -/
def measure0 (cfg : Config) : Nat :=
  1 + (6 * cfg.W + 1) * (2 * cfg.W + 12 * cfg.K + 8) + 7 * cfg.W + 15 * cfg.K

/-- The action is a spurious wakeup. -/
def Action.isSpurious : Action → Bool
  | .spurious _ => true
  | _ => false

/-- The number of statements run in a list of actions. -/
def statements (acts : List Action) : Nat :=
  (acts.filter fun a => !a.isSpurious).length

/-- The number of spurious wakeups in a list of actions. -/
def wakeups (acts : List Action) : Nat :=
  (acts.filter fun a => a.isSpurious).length

/-- `malloc` has returned `NULL` and line 99 is about to dereference it. -/
def allocFailed (s : State) : Prop :=
  s.main.pc = .aNum ∧ s.main.new_job = none

/-- A small pool for examples: two workers, two jobs. -/
def ex_cfg : Config := { W := 2, K := 2 }

/-- A complete schedule of the small pool: both workers start and block in the
wait before `main` adds the jobs at the addresses 0; worker 0 is signalled
twice and handles both jobs; after the broadcast both workers exit and `main`
joins them. -/
def ex_schedule : List Action :=
  [.main none, .worker 0, .worker 0, .worker 0, .worker 0, .main none,
   .worker 1, .worker 1, .worker 1, .worker 1] ++
  [.main none, .main none, .main (some 0)] ++ List.replicate 8 (.main none) ++ [.main (some 0)] ++
  List.replicate 19 (.worker 0) ++
  [.main none, .main none, .main (some 0)] ++ List.replicate 8 (.main none) ++ [.main (some 0)] ++
  List.replicate 19 (.worker 0) ++
  List.replicate 6 (.main none) ++ List.replicate 6 (.worker 0) ++ List.replicate 6 (.worker 1) ++
  List.replicate 4 (.main none)

/-- The state of the small pool after the first 10 steps of the schedule:
both workers are blocked in the wait. -/
def ex_waiting : State := (run ex_cfg (ex_schedule.take 10) State.init).getD State.init

/-- The state of the small pool at the end of the schedule. -/
def ex_done : State := (run ex_cfg ex_schedule State.init).getD State.init

/-! ## Hold counts and access points -/

/-- The hold count of thread `t`: how many times `t` has locked the mutex
without unlocking it, as recorded in the mutex. -/
def holdCount (s : State) (t : Tid) : Nat :=
  if s.mutex.owner = some t then s.mutex.depth else 0

/-- The thread that runs a statement in an action; a spurious wakeup is not a
statement of a thread. -/
def Action.thread : Action → Option Tid
  | .main _ => some .main
  | .worker n => some (.worker n)
  | .spurious _ => none

/-- Program points of `main` whose statement reads or writes `head`, `tail`,
`num_jobs` or `finished`: lines 110, 111, 113, 115, 116, 118 and 72. -/
def MPc.accessesShared : MPc → Bool
  | .aTest | .aHead | .aTail | .aLinkTail | .aTail2 | .aInc | .setFinished => true
  | _ => false

/-- Program points of a worker whose statement reads or writes `head`, `tail`,
`num_jobs` or `finished`: lines 175, 134, 135, 136, 137, 138, 140 and 184. -/
def WPc.accessesShared : WPc → Bool
  | .test | .gTest | .gTake | .gAdvance | .gHeadNull | .gTailNull | .gDec | .fin => true
  | _ => false

/-- The next statement of thread `t` reads or writes `head`, `tail`, `num_jobs`
or `finished`. -/
def State.accessesShared (s : State) : Tid → Bool
  | .main => s.main.pc.accessesShared
  | .worker n => (s.workers n).pc.accessesShared

/-- Program points of a worker inside `get_job`, after its lock (line 133) and
up to its unlock (line 144). -/
def WPc.inGetJob : WPc → Bool
  | .gTest | .gTake | .gAdvance | .gHeadNull | .gTailNull | .gDec | .gNull | .gUnlock => true
  | _ => false

/-- The state of the small pool after the first `k` steps of its schedule. -/
def ex_at (k : Nat) : State := (run ex_cfg (ex_schedule.take k) State.init).getD State.init

/-- A schedule of the program with the constants of the source: `main` creates
the 10 workers and runs `add_job(0)` up to its unlock, with the node at address
0; then worker 0 locks the mutex (line 173), finds `num_jobs > 0` (line 175)
and calls `get_job`, which locks the mutex again (line 133). -/
def nested_schedule : List Action :=
  List.replicate 12 (.main none) ++ [.main (some 0)] ++ List.replicate 8 (.main none) ++
  List.replicate 3 (.worker 0)

/-- The state at the end of `nested_schedule`. -/
def nested_state : State := (run Config.source nested_schedule State.init).getD State.init

/-! ## Sequences of calls and the abstract queue -/

/-- A call of one of the two queue operations. For `add_job` the address `a`
is the answer of `malloc`. -/
inductive Call where
  | add_job (request_num : Int) (a : Nat)
  | get_job
deriving DecidableEq, Repr

/-- Why a sequence of calls does not run to its end: `malloc` cannot answer
with the address given (it holds a node), or a call leaves defined behaviour. -/
inductive Stuck where
  | notFresh
  | fault (f : Fault)
deriving DecidableEq, Repr

/-- Run a sequence of `add_job` and `get_job` calls in order. The result lists,
for each `get_job` call, the `num` read through the returned pointer (`none`
when the pointer is `NULL`). -/
def calls : List Call → Shared → Except Stuck (List (Option Int) × Shared)
  | [], s => .ok ([], s)
  | .add_job x a :: rest, s =>
    match s.mem a with
    | some _ => .error .notFresh
    | none =>
      match add_job x (some a) s with
      | .ok s' => calls rest s'
      | .error f => .error (.fault f)
  | .get_job :: rest, s =>
    match get_job s with
    | .ok (r, s') =>
      match calls rest s' with
      | .ok (rs, s'') => .ok (num_of s'.mem r :: rs, s'')
      | .error e => .error e
    | .error f => .error (.fault f)

/-- The abstract queue, a list of job ids, under the same sequence of calls:
`add_job(x)` appends `x`; `get_job` removes and returns the first element, or
returns none on the empty list. -/
def absCalls : List Call → List Int → List (Option Int) × List Int
  | [], q => ([], q)
  | .add_job x _ :: rest, q => absCalls rest (q ++ [x])
  | .get_job :: rest, [] => (none :: (absCalls rest []).1, (absCalls rest []).2)
  | .get_job :: rest, y :: q => (some y :: (absCalls rest q).1, (absCalls rest q).2)

/-- The ids enqueued by a sequence of calls, in order. -/
def enqueuedOf : List Call → List Int
  | [] => []
  | .add_job x _ :: rest => x :: enqueuedOf rest
  | .get_job :: rest => enqueuedOf rest

/-- The ids returned by the `get_job` calls that did not return `NULL`. -/
def dequeuedOf (rs : List (Option Int)) : List Int := rs.filterMap id

/-- An example of a mixed sequence of calls. -/
def ex_calls : List Call :=
  [.add_job 5 0, .get_job, .get_job, .add_job 7 1, .add_job 9 2, .get_job, .add_job 11 3,
   .get_job]

/-! ## The lines of the output -/

/-- Program points of a worker that has printed its line "exiting". -/
def WPc.gone : WPc → Bool
  | .exit | .exited => true
  | _ => false

/-- The worker ids in the lines "exiting" of the output, in order. -/
def exitingIds (out : List Event) : List Nat :=
  out.filterMap fun e => match e with
    | .exiting n => some n
    | _ => none

/-- What the output holds besides the lines of the jobs: one line "exiting"
for each worker that has run line 186 and none for the others; the line
"Program exiting" only once `main` has returned, and then once, as the last
line. -/
structure OutInv (s : State) : Prop where
  exiting_count : ∀ n, (exitingIds s.out).count n = if (s.workers n).pc.gone then 1 else 0
  program_not : s.main.pc ≠ .done → Event.programExiting ∉ s.out
  program_last : s.main.pc = .done →
    ∃ o, s.out = o ++ [Event.programExiting] ∧ Event.programExiting ∉ o

/-- The statements of `main` for `add_job(i)` with the node at address `i`,
when no worker is blocked in the wait, and the `i++` after it. -/
def src_add (i : Nat) : List Action :=
  [.main none, .main (some i)] ++ List.replicate 10 (.main none)

/-- A complete schedule of the program with the constants of the source:
`main` creates the 10 workers, enqueues the jobs 0 to 29, sets `finished` and
broadcasts; then worker 0 takes and handles the 30 jobs and exits; then the
workers 1 to 9 run and exit; then `main` joins them and prints its line. -/
def src_schedule : List Action :=
  List.replicate 11 (.main none) ++ (List.range 30).flatMap src_add ++
  List.replicate 5 (.main none) ++
  List.replicate 427 (.worker 0) ++
  (List.range 9).flatMap (fun n => List.replicate 6 (.worker (n + 1))) ++
  List.replicate 12 (.main none)

/-- The state at the end of `src_schedule`. -/
def src_done : State := (run Config.source src_schedule State.init).getD State.init

/-! ## The pool with one worker and no job -/

/-- The constants of the scenario with one worker and no job. -/
def solo_cfg : Config := { W := 1, K := 0 }

/-- Program points of a worker that has not found `num_jobs > 0` at line 175:
those outside the branch of lines 176 to 181. -/
def WPc.idle : WPc → Bool
  | .notCreated | .lock0 | .test | .fin | .unlockExit | .printExit | .exit | .wait | .waiting
  | .woken | .exited => true
  | _ => false

/-- Program points of a worker in the branch of `pthread_cond_wait` (line
190): about to call it, blocked in it, or woken and locking the mutex again. -/
def WPc.inWait : WPc → Bool
  | .wait | .waiting | .woken => true
  | _ => false

/-- What holds of a pool that is given no job: the queue is empty, no worker
is in the branch of lines 176 to 181, and no line "handled job" is printed. -/
def NoJobInv (s : State) : Prop :=
  s.sh.num_jobs = 0 ∧ s.sh.head = none ∧ (∀ n, (s.workers n).pc.idle = true) ∧
    handledNums s.out = 0

/-- A schedule of the pool with one worker and no job: `main` creates the
worker (line 55); the worker locks the mutex (line 173), finds `num_jobs > 0`
false (line 175) and `finished` false (line 184), and calls
`pthread_cond_wait` (line 190), all before `main` runs again. -/
def solo_wait_schedule : List Action :=
  [.main none, .worker 0, .worker 0, .worker 0, .worker 0]

/-- The state at the end of `solo_wait_schedule`. -/
def solo_waiting : State := (run solo_cfg solo_wait_schedule State.init).getD State.init

/-- A complete schedule of the pool with one worker and no job in which `main`
sets `finished`, broadcasts and unlocks before the worker runs its first
statement. -/
def solo_exit_schedule : List Action :=
  List.replicate 7 (.main none) ++ List.replicate 6 (.worker 0) ++ List.replicate 3 (.main none)

/-! ## Lemmas on chains -/

theorem Heap.store_same (mem : Heap) (a : Nat) (j : job) : mem.store a j a = some j := by
  simp [Heap.store]

theorem Heap.store_other (mem : Heap) {a b : Nat} (j : job) (h : b ≠ a) :
    mem.store a j b = mem b := by
  simp [Heap.store, h]

theorem chain_nil (mem : Heap) (p : Ptr) : chain mem p [] ↔ p = none := by
  simp [chain]

theorem chain_cons (mem : Heap) (p : Ptr) (a : Nat) (l : List Nat) :
    chain mem p (a :: l) ↔ p = some a ∧ ∃ j, mem a = some j ∧ chain mem j.link l := by
  cases h : mem a <;> simp [chain, h]

/-- Every node of a chain is allocated. -/
theorem chain_alloc {mem : Heap} {p : Ptr} {l : List Nat} (h : chain mem p l) :
    ∀ a ∈ l, ∃ j, mem a = some j := by
  induction l generalizing p with
  | nil => simp
  | cons b l ih =>
    obtain ⟨_, j, hj, hl⟩ := (chain_cons mem p b l).1 h
    intro a ha
    rcases List.mem_cons.1 ha with rfl | ha
    · exact ⟨j, hj⟩
    · exact ih hl a ha

/-- An address that holds no node is not on a chain. -/
theorem chain_fresh {mem : Heap} {p : Ptr} {l : List Nat} (h : chain mem p l)
    {a : Nat} (ha : mem a = none) : a ∉ l := by
  intro hmem
  obtain ⟨j, hj⟩ := chain_alloc h a hmem
  simp [ha] at hj

/-- Following links is deterministic: a pointer starts at most one chain. -/
theorem chain_unique {mem : Heap} {p : Ptr} {l₁ l₂ : List Nat}
    (h₁ : chain mem p l₁) (h₂ : chain mem p l₂) : l₁ = l₂ := by
  induction l₁ generalizing p l₂ with
  | nil =>
    cases l₂ with
    | nil => rfl
    | cons b l₂ =>
      have h := (chain_cons mem p b l₂).1 h₂
      simp [(chain_nil mem p).1 h₁] at h
  | cons a l₁ ih =>
    obtain ⟨hp, j, hj, hl⟩ := (chain_cons mem p a l₁).1 h₁
    cases l₂ with
    | nil => simp [(chain_nil mem p).1 h₂] at hp
    | cons b l₂ =>
      obtain ⟨hp', j', hj', hl'⟩ := (chain_cons mem p b l₂).1 h₂
      have hab : a = b := by simpa [hp] using hp'
      subst hab
      have hjj : j = j' := by simpa [hj] using hj'
      subst hjj
      rw [ih hl hl']

/-- The part of a chain after a prefix is the chain of the node it starts at. -/
theorem chain_suffix {mem : Heap} {p : Ptr} {l₁ : List Nat} {a : Nat} {l₂ : List Nat}
    (h : chain mem p (l₁ ++ a :: l₂)) : chain mem (some a) (a :: l₂) := by
  induction l₁ generalizing p with
  | nil =>
    obtain ⟨_, j, hj, hl⟩ := (chain_cons mem p a l₂).1 h
    exact (chain_cons mem (some a) a l₂).2 ⟨rfl, j, hj, hl⟩
  | cons b l₁ ih =>
    obtain ⟨_, j, _, hl⟩ := (chain_cons mem p b (l₁ ++ a :: l₂)).1 h
    exact ih hl

/-- A chain that ends at `NULL` visits no node twice. -/
theorem chain_nodup {mem : Heap} {p : Ptr} {l : List Nat} (h : chain mem p l) : l.Nodup := by
  induction l generalizing p with
  | nil => exact List.nodup_nil
  | cons a l ih =>
    obtain ⟨hp, j, hj, hl⟩ := (chain_cons mem p a l).1 h
    refine List.nodup_cons.2 ⟨?_, ih hl⟩
    intro hmem
    obtain ⟨l₁, l₂, rfl⟩ := List.append_of_mem hmem
    have h₁ : chain mem (some a) (a :: l₂) := chain_suffix hl
    have h₂ : chain mem (some a) (a :: (l₁ ++ a :: l₂)) := by
      rw [← hp]; exact h
    have := chain_unique h₁ h₂
    have hlen := congrArg List.length this
    simp at hlen
    omega

/-- A store at an address off the chain leaves the chain as it is. -/
theorem chain_store {mem : Heap} {p : Ptr} {l : List Nat} (h : chain mem p l)
    {a : Nat} (ha : a ∉ l) (j : job) : chain (mem.store a j) p l := by
  induction l generalizing p with
  | nil => exact h
  | cons b l ih =>
    obtain ⟨hp, jb, hjb, hl⟩ := (chain_cons mem p b l).1 h
    have hba : b ≠ a := fun e => ha (by simp [e])
    refine (chain_cons _ p b l).2 ⟨hp, jb, ?_, ih hl (fun e => ha (List.mem_cons_of_mem _ e))⟩
    rw [Heap.store_other _ _ hba, hjb]

/-- The last node of a non-empty chain has a `NULL` link. -/
theorem chain_last {mem : Heap} {p : Ptr} {l : List Nat} {t : Nat}
    (h : chain mem p (l ++ [t])) : ∃ j, mem t = some j ∧ j.link = none := by
  have h' : chain mem (some t) (t :: []) := chain_suffix h
  obtain ⟨_, j, hj, hl⟩ := (chain_cons mem (some t) t []).1 h'
  exact ⟨j, hj, (chain_nil mem _).1 hl⟩

/-- Linking a new last node: when the `link` of the last node `t` is set to a
node `a` off the chain whose own `link` is `NULL`, the chain grows by `a`. -/
theorem chain_snoc {mem : Heap} {p : Ptr} {l : List Nat} {t a : Nat} {ja : job} (jt : job)
    (h : chain mem p (l ++ [t])) (ha : a ∉ l ++ [t]) (hja : mem a = some ja)
    (hlink : ja.link = none) :
    chain (mem.store t { jt with link := some a }) p (l ++ [t, a]) := by
  have hnd : (l ++ [t]).Nodup := chain_nodup h
  induction l generalizing p with
  | nil =>
    obtain ⟨hp, _, _, _⟩ := (chain_cons mem p t []).1 h
    have hat : a ≠ t := fun e => ha (by simp [e])
    refine (chain_cons _ p t [a]).2 ⟨hp, _, Heap.store_same _ _ _, ?_⟩
    refine (chain_cons _ _ a []).2 ⟨rfl, ja, ?_, ?_⟩
    · rw [Heap.store_other _ _ hat, hja]
    · simpa [chain] using hlink
  | cons b l ih =>
    obtain ⟨hp, jb, hjb, hl⟩ := (chain_cons mem p b (l ++ [t])).1 h
    have hbt : b ≠ t := by
      intro e
      have := (List.nodup_cons.1 hnd).1
      simp [e] at this
    refine (chain_cons _ p b (l ++ [t, a])).2 ⟨hp, jb, ?_, ?_⟩
    · rw [Heap.store_other _ _ hbt, hjb]
    · exact ih hl (fun e => ha (List.mem_cons_of_mem _ e)) (List.nodup_cons.1 hnd).2

theorem nums_store {mem : Heap} {l : List Nat} {a : Nat} (ha : a ∉ l) (j : job) :
    nums (mem.store a j) l = nums mem l := by
  unfold nums
  refine List.map_congr_left ?_
  intro b hb
  have hba : b ≠ a := fun e => ha (e ▸ hb)
  rw [Heap.store_other _ _ hba]

theorem nums_store_link {mem : Heap} (l : List Nat) {t : Nat} {jt : job}
    (hjt : mem t = some jt) (q : Ptr) :
    nums (mem.store t { jt with link := q }) l = nums mem l := by
  unfold nums
  refine List.map_congr_left ?_
  intro b _
  by_cases hbt : b = t
  · subst hbt; simp [Heap.store_same, hjt]
  · rw [Heap.store_other _ _ hbt]

/-! ## The queue operations on a represented state -/

theorem Rep.init_rep : Rep Shared.init [] := by
  simp [Rep, Shared.init, chain]

/-- In a represented state `head` is `NULL` exactly when the list is empty. -/
theorem Rep.head_none {s : Shared} {l : List Nat} (h : Rep s l) : s.head = none ↔ l = [] := by
  cases l with
  | nil => simpa using (chain_nil _ _).1 h.1
  | cons a l => simp [((chain_cons _ _ _ _).1 h.1).1]

/-- In a represented state `tail` is `NULL` exactly when the list is empty. -/
theorem Rep.tail_none {s : Shared} {l : List Nat} (h : Rep s l) : s.tail = none ↔ l = [] := by
  rw [h.2.1]; exact List.getLast?_eq_none_iff

/-- A call of `add_job` that returns found `num_jobs` below `INT_MAX`. -/
theorem add_job_ok_lt {x : Int} {p : Ptr} {s s' : Shared} (h : add_job x p s = .ok s') :
    s.num_jobs < INT_MAX := by
  by_cases h0 : s.num_jobs = 0
  · rw [h0]; decide
  · by_contra hlt
    have hgt : INT_MAX < s.num_jobs + 1 := by omega
    revert h
    unfold add_job
    split
    · simp
    · simp only [h0, if_false]
      split
      · simp
      · split
        · simp
        · simp [hgt]

/-- `add_job` on a represented state appends the new node. -/
theorem Rep.add {s : Shared} {l : List Nat} (h : Rep s l) (x : Int) {a : Nat}
    (ha : s.mem a = none) (hmax : s.num_jobs < INT_MAX) :
    ∃ s', add_job x (some a) s = .ok s' ∧ Rep s' (l ++ [a]) ∧
      nums s'.mem (l ++ [a]) = nums s.mem l ++ [x] ∧ s'.finished = s.finished ∧
      s'.num_jobs = s.num_jobs + 1 ∧
      (l = [] → s'.head = some a) ∧ (l ≠ [] → s'.head = s.head) ∧ s'.tail = some a ∧
      s'.mem a = some { num := x, link := none } ∧
      (l ≠ [] → ∃ t jt, s.tail = some t ∧ s.mem t = some jt ∧
        s'.mem t = some { jt with link := some a }) ∧
      (∀ b, b ≠ a → s.tail ≠ some b → s'.mem b = s.mem b) := by
  obtain ⟨hc, ht, hn⟩ := h
  have hal : a ∉ l := chain_fresh hc ha
  rcases List.eq_nil_or_concat l with rfl | ⟨l', t, hlt⟩
  · have h0 : s.num_jobs = 0 := by simpa using hn
    refine ⟨{ s with mem := s.mem.store a { num := x, link := none }, head := some a,
                     tail := some a, num_jobs := s.num_jobs + 1 },
      by simp [add_job, h0], ⟨?_, ?_, ?_⟩, ?_, rfl, rfl, ?_, ?_, rfl, ?_, ?_, ?_⟩
    · exact (chain_cons _ _ _ _).2 ⟨rfl, _, Heap.store_same _ _ _, by simp [chain]⟩
    · simp
    · simp [h0]
    · simp [nums, Heap.store_same]
    · simp
    · simp
    · exact Heap.store_same _ _ _
    · simp
    · intro b hba _
      exact Heap.store_other _ _ hba
  · rw [List.concat_eq_append] at hlt
    subst hlt
    have hpos : s.num_jobs ≠ 0 := by
      rw [hn]; simp; omega
    have htl : s.tail = some t := by simpa using ht
    obtain ⟨jt, hjt, _⟩ := chain_last hc
    have hta : t ≠ a := by
      intro e; subst e; simp [ha] at hjt
    have hjt' : s.mem.store a { num := x, link := none } t = some jt := by
      rw [Heap.store_other _ _ hta, hjt]
    have hmax' : ¬ INT_MAX < s.num_jobs + 1 := by omega
    refine ⟨{ s with mem := (s.mem.store a { num := x, link := none }).store t
                              { jt with link := some a },
                     tail := some a, num_jobs := s.num_jobs + 1 },
      by simp [add_job, hpos, htl, hjt', hmax'], ⟨?_, ?_, ?_⟩, ?_, rfl, rfl, ?_, ?_, rfl, ?_, ?_, ?_⟩
    · have h1 : chain (s.mem.store a { num := x, link := none }) s.head (l' ++ [t]) :=
        chain_store hc hal _
      have h2 := chain_snoc jt h1 hal (Heap.store_same _ _ _) rfl
      simpa using h2
    · simp
    · simp [hn]; ring
    · have e1 : nums ((s.mem.store a { num := x, link := none }).store t { jt with link := some a })
          (l' ++ [t] ++ [a]) = nums (s.mem.store a { num := x, link := none }) (l' ++ [t] ++ [a]) :=
        nums_store_link _ hjt' _
      show nums ((s.mem.store a { num := x, link := none }).store t { jt with link := some a })
          (l' ++ [t] ++ [a]) = _
      rw [e1]
      have e2 : nums (s.mem.store a { num := x, link := none }) (l' ++ [t]) = nums s.mem (l' ++ [t]) :=
        nums_store hal _
      have e3 : nums (s.mem.store a { num := x, link := none }) (l' ++ [t] ++ [a]) =
          nums (s.mem.store a { num := x, link := none }) (l' ++ [t]) ++ [x] := by
        simp [nums, Heap.store_same]
      rw [e3, e2]
    · simp
    · simp
    · show ((s.mem.store a { num := x, link := none }).store t { jt with link := some a }) a = _
      rw [Heap.store_other _ _ (Ne.symm hta), Heap.store_same]
    · intro _
      exact ⟨t, jt, htl, hjt, Heap.store_same _ _ _⟩
    · intro b hba hbt
      have hbt' : b ≠ t := by
        intro e; apply hbt; rw [htl, e]
      show ((s.mem.store a { num := x, link := none }).store t { jt with link := some a }) b = _
      rw [Heap.store_other _ _ hbt', Heap.store_other _ _ hba]

/-- `get_job` on a represented non-empty state removes the first node. -/
theorem Rep.get {s : Shared} {a : Nat} {l : List Nat} (h : Rep s (a :: l)) :
    ∃ j, s.head = some a ∧ s.mem a = some j ∧
      get_job s = .ok (some a, { s with head := j.link,
                                        tail := if j.link = none then none else s.tail,
                                        num_jobs := s.num_jobs - 1 }) ∧
      Rep { s with head := j.link, tail := if j.link = none then none else s.tail,
                   num_jobs := s.num_jobs - 1 } l := by
  obtain ⟨hc, ht, hn⟩ := h
  obtain ⟨hh, j, hj, hl⟩ := (chain_cons _ _ _ _).1 hc
  have hpos : s.num_jobs > 0 := by
    rw [hn]; simp
  refine ⟨j, hh, hj, by simp [get_job, hpos, hh, hj], hl, ?_, ?_⟩
  · cases l with
    | nil => simp [(chain_nil _ _).1 hl]
    | cons b l =>
      have hb := ((chain_cons _ _ _ _).1 hl).1
      simp [hb, ht]
  · simp [hn]

/-- `get_job` on a state whose count is not positive returns `NULL` and the
state as it was. -/
theorem get_job_of_not_pos {s : Shared} (h : ¬ s.num_jobs > 0) : get_job s = .ok (none, s) := by
  simp [get_job, h]

/-- Every state reached by `add_job` and `get_job` calls is well formed. -/
theorem Reach.wf {s : Shared} (h : Reach s) : WF s := by
  induction h with
  | init => exact ⟨[], Rep.init_rep⟩
  | @add s s' x a _ ha hadd ih =>
    obtain ⟨l, hl⟩ := ih
    obtain ⟨s'', h1, h2, _⟩ := hl.add x ha (add_job_ok_lt hadd)
    rw [h1] at hadd
    cases hadd
    exact ⟨_, h2⟩
  | @get s s' r _ hget ih =>
    obtain ⟨l, hl⟩ := ih
    cases l with
    | nil =>
      have h0 : ¬ s.num_jobs > 0 := by
        rw [hl.2.2]; simp
      rw [get_job_of_not_pos h0] at hget
      cases hget
      exact ⟨[], hl⟩
    | cons a l =>
      obtain ⟨j, _, _, h1, h2⟩ := hl.get
      rw [h1] at hget
      cases hget
      exact ⟨l, h2⟩

/-- The calls `add_job(x1)`, ..., `add_job(xn)` on a represented state append
the new nodes in order. -/
theorem Rep.add_all {s : Shared} {l : List Nat} (h : Rep s l) (xs : List Int) (ps : List Nat)
    (hlen : ps.length = xs.length) (hnd : ps.Nodup) (hfresh : ∀ a ∈ ps, s.mem a = none)
    (hmax : s.num_jobs + xs.length ≤ INT_MAX) :
    ∃ s', add_jobs (xs.zip ps) s = .ok s' ∧ Rep s' (l ++ ps) ∧
      nums s'.mem (l ++ ps) = nums s.mem l ++ xs := by
  induction xs generalizing s l ps with
  | nil =>
    have : ps = [] := List.length_eq_zero.1 hlen
    subst this
    exact ⟨s, rfl, by simpa using h, by simp⟩
  | cons x xs ih =>
    cases ps with
    | nil => simp at hlen
    | cons a ps =>
      have hlt : s.num_jobs < INT_MAX := by
        have : (0 : Int) ≤ xs.length := Int.natCast_nonneg _
        simp only [List.length_cons, Nat.cast_add, Nat.cast_one] at hmax
        omega
      obtain ⟨s₁, h1, h2, h3, _, h5, _, _, _, _, _, h11⟩ := h.add x (hfresh a (by simp)) hlt
      have hnd' := List.nodup_cons.1 hnd
      have hfresh' : ∀ b ∈ ps, s₁.mem b = none := by
        intro b hb
        have hba : b ≠ a := fun e => hnd'.1 (e ▸ hb)
        have hbn : s.mem b = none := hfresh b (by simp [hb])
        rw [h11 b hba]
        · exact hbn
        · intro e
          obtain ⟨j, hj⟩ := chain_alloc h.1 b (List.mem_of_mem_getLast? (by rw [← h.2.1, e]; simp))
          simp [hbn] at hj
      obtain ⟨s₂, g1, g2, g3⟩ := ih h2 ps (by simpa using hlen) hnd'.2 hfresh' (by
        simp only [List.length_cons, Nat.cast_add, Nat.cast_one] at hmax
        omega)
      have hrun : add_jobs ((x :: xs).zip (a :: ps)) s = .ok s₂ := by
        show (match add_job x (some a) s with
          | .ok s' => add_jobs (xs.zip ps) s'
          | .error e => .error e) = _
        rw [h1]; exact g1
      refine ⟨s₂, hrun, by simpa using g2, ?_⟩
      have : l ++ a :: ps = l ++ [a] ++ ps := by simp
      rw [this, g3, h3]
      simp

/-- The calls of `get_job` on a represented state return its nodes in order
and leave the heap as it is. -/
theorem Rep.get_all {s : Shared} {l : List Nat} (h : Rep s l) :
    ∃ s', get_jobs l.length s = .ok (l.map some, s') ∧ s'.mem = s.mem ∧ Rep s' [] ∧
      s'.finished = s.finished := by
  induction l generalizing s with
  | nil => exact ⟨s, rfl, rfl, h, rfl⟩
  | cons a l ih =>
    obtain ⟨j, _, _, h1, h2⟩ := h.get
    obtain ⟨s', g1, g2, g3, g4⟩ := ih h2
    exact ⟨s', by simp [get_jobs, h1, g1], g2, g3, g4⟩

theorem num_of_map {mem : Heap} {l : List Nat} (h : ∀ a ∈ l, ∃ j, mem a = some j) :
    (l.map some).map (num_of mem) = (nums mem l).map some := by
  induction l with
  | nil => rfl
  | cons a l ih =>
    obtain ⟨j, hj⟩ := h a (by simp)
    have := ih (fun b hb => h b (by simp [hb]))
    simp only [List.map_cons, nums, List.map_map] at this ⊢
    rw [this]
    simp [num_of, hj]

/-! ## The mutex invariant -/

theorem LockInv.init_lock : LockInv State.init := by
  refine ⟨?_, ?_, ?_⟩
  · intro t h; simp [State.init] at h
  · intro t _; cases t <;> rfl
  · intro _; rfl

theorem LockInv.owner_of_pos {s : State} (h : LockInv s) {t : Tid} (ht : 0 < s.depthOf t) :
    s.mutex.owner = some t ∧ s.mutex.depth = s.depthOf t := by
  by_cases ho : s.mutex.owner = some t
  · exact ⟨ho, (h.1 t ho).1.symm⟩
  · have := h.2.1 t ho
    omega

/-- The three ways a statement of thread `t` can act on the mutex. -/
theorem LockInv.update {s s' : State} (h : LockInv s) (t : Tid)
    (hothers : ∀ t', t' ≠ t → s'.depthOf t' = s.depthOf t')
    (hm : (s'.mutex = s.mutex ∧ s'.depthOf t = s.depthOf t) ∨
          (pthread_mutex_lock s.mutex t = some s'.mutex ∧ s'.depthOf t = s.depthOf t + 1) ∨
          (s'.mutex = pthread_mutex_unlock s.mutex t ∧ s.depthOf t = s'.depthOf t + 1)) :
    LockInv s' := by
  obtain ⟨h1, h2, h3⟩ := h
  rcases hm with ⟨hm, hd⟩ | ⟨hm, hd⟩ | ⟨hm, hd⟩
  · refine ⟨?_, ?_, ?_⟩
    · intro t' ht'
      rw [hm] at ht' ⊢
      by_cases e : t' = t
      · subst e; rw [hd]; exact h1 _ ht'
      · rw [hothers t' e]; exact h1 _ ht'
    · intro t' ht'
      rw [hm] at ht'
      by_cases e : t' = t
      · subst e; rw [hd]; exact h2 _ ht'
      · rw [hothers t' e]; exact h2 _ ht'
    · rw [hm]; exact h3
  · unfold pthread_mutex_lock at hm
    cases ho : s.mutex.owner with
    | none =>
      simp only [ho, Option.some.injEq] at hm
      have h0 : s.depthOf t = 0 := h2 t (by simp [ho])
      refine ⟨?_, ?_, ?_⟩
      · intro t' ht'
        rw [← hm] at ht' ⊢
        simp only [Option.some.injEq] at ht'
        subst ht'
        simp [hd, h0]
      · intro t' ht'
        rw [← hm] at ht'
        simp only [ne_eq, Option.some.injEq] at ht'
        rw [hothers t' (fun e => ht' e.symm)]
        exact h2 t' (by simp [ho])
      · intro e; rw [← hm] at e; simp at e
    | some o =>
      simp only [ho] at hm
      split at hm
      · rename_i e
        subst e
        simp only [Option.some.injEq] at hm
        obtain ⟨g1, g2⟩ := h1 o ho
        refine ⟨?_, ?_, ?_⟩
        · intro t' ht'
          rw [← hm] at ht' ⊢
          simp only [Option.some.injEq] at ht'
          subst ht'
          simp [hd, g1]
        · intro t' ht'
          rw [← hm] at ht'
          simp only [ne_eq, Option.some.injEq] at ht'
          rw [hothers t' (fun e => ht' e.symm)]
          exact h2 t' (by simp [ho]; exact fun e => ht' e)
        · intro e; rw [← hm] at e; simp at e
      · simp at hm
  · have hpos : 0 < s.depthOf t := by omega
    by_cases ho : s.mutex.owner = some t
    · obtain ⟨g1, g2⟩ := h1 t ho
      unfold pthread_mutex_unlock at hm
      simp only [ho, if_true] at hm
      split at hm
      · refine ⟨?_, ?_, ?_⟩
        · intro t' ht'; rw [hm] at ht'; simp at ht'
        · intro t' _
          by_cases e : t' = t
          · subst e; omega
          · rw [hothers t' e]; exact h2 t' (by rw [ho]; simpa using fun e' => e e'.symm)
        · intro _; rw [hm]
      · refine ⟨?_, ?_, ?_⟩
        · intro t' ht'
          rw [hm] at ht' ⊢
          simp only [Option.some.injEq] at ht'
          subst ht'
          simp; omega
        · intro t' ht'
          rw [hm] at ht'
          simp only [ne_eq, Option.some.injEq] at ht'
          rw [hothers t' (fun e => ht' e.symm)]
          exact h2 t' (by rw [ho]; simpa using ht')
        · intro e; rw [hm] at e; simp at e
    · have := h2 t ho
      omega

@[simp] theorem State.setWorker_same (s : State) (n : Nat) (w : WorkerState) :
    (s.setWorker n w).workers n = w := by
  simp [State.setWorker]

theorem State.setWorker_other (s : State) {n m : Nat} (w : WorkerState) (h : m ≠ n) :
    (s.setWorker n w).workers m = s.workers m := by
  simp [State.setWorker, h]

@[simp] theorem State.setWorker_sh (s : State) (n : Nat) (w : WorkerState) :
    (s.setWorker n w).sh = s.sh := rfl

@[simp] theorem State.setWorker_mutex (s : State) (n : Nat) (w : WorkerState) :
    (s.setWorker n w).mutex = s.mutex := rfl

@[simp] theorem State.setWorker_main (s : State) (n : Nat) (w : WorkerState) :
    (s.setWorker n w).main = s.main := rfl

@[simp] theorem State.setWorker_out (s : State) (n : Nat) (w : WorkerState) :
    (s.setWorker n w).out = s.out := rfl

@[simp] theorem State.setWorker_fault (s : State) (n : Nat) (w : WorkerState) :
    (s.setWorker n w).fault = s.fault := rfl

theorem State.setWorker_workers (s : State) (n m : Nat) (w : WorkerState) :
    (s.setWorker n w).workers m = if m = n then w else s.workers m := rfl

theorem LockInv.crash_lock {s : State} (h : LockInv s) (f : Fault) : LockInv (s.crash f) := h

theorem LockInv.step_worker_lock {s s' : State} {n : Nat} (h : LockInv s)
    (hs : stepWorker s n = some s') : LockInv s' := by
  have hoth : ∀ (w : WorkerState) (s₁ : State), s₁.main = s.main →
      s₁.workers = (s.setWorker n w).workers →
      ∀ t', t' ≠ Tid.worker n → s₁.depthOf t' = s.depthOf t' := by
    intro w s₁ h1 h2 t' ht'
    cases t' with
    | main => simp [State.depthOf, h1]
    | worker m =>
      have hmn : m ≠ n := fun e => ht' (by rw [e])
      simp [State.depthOf, h2, State.setWorker_other _ _ hmn]
  unfold stepWorker at hs
  cases hpc : (s.workers n).pc <;> simp only [hpc] at hs
  all_goals (try split at hs)
  all_goals (try split at hs)
  all_goals (try (simp only [Option.some.injEq] at hs))
  all_goals (try (cases hs))
  all_goals (first
    | exact h.crash_lock _
    | (refine h.update (Tid.worker n) (hoth _ _ rfl rfl) ?_
       first
       | (left; refine ⟨rfl, ?_⟩; simp [State.depthOf, hpc, WPc.depth])
       | (right; left; refine ⟨by assumption, ?_⟩; simp [State.depthOf, hpc, WPc.depth])
       | (right; right; refine ⟨rfl, ?_⟩; simp [State.depthOf, hpc, WPc.depth])))

theorem LockInv.step_main_lock {cfg : Config} {s s' : State} {c : Option Nat} (h : LockInv s)
    (hc : s.main.pc = .create → (s.workers s.main.i).pc = .notCreated)
    (hs : stepMain cfg s c = some s') : LockInv s' := by
  have hoth : ∀ (s₁ : State), s₁.workers = s.workers →
      ∀ t', t' ≠ Tid.main → s₁.depthOf t' = s.depthOf t' := by
    intro s₁ h1 t' ht'
    cases t' with
    | main => exact absurd rfl ht'
    | worker m => simp [State.depthOf, h1]
  unfold stepMain at hs
  cases hpc : s.main.pc <;> simp only [hpc] at hs
  case create =>
    split at hs
    · cases hs
      refine h.update Tid.main ?_ (Or.inl ⟨rfl, by simp [State.depthOf, hpc]⟩)
      intro t' ht'
      cases t' with
      | main => exact absurd rfl ht'
      | worker m =>
        simp only [State.depthOf, State.setWorker_workers]
        split
        · rename_i e; subst e; simp [hc hpc, WPc.depth]
        · rfl
    · cases hs
      exact h.update Tid.main (hoth _ rfl) (Or.inl ⟨rfl, by simp [State.depthOf, hpc, MPc.depth]⟩)
  case aSignal =>
    split at hs
    · split at hs
      · cases hs
        rename_i n hw
        refine h.update Tid.main ?_ (Or.inl ⟨rfl, by simp [State.depthOf, hpc, MPc.depth]⟩)
        intro t' ht'
        cases t' with
        | main => exact absurd rfl ht'
        | worker m =>
          simp only [State.depthOf, State.setWorker_workers]
          split
          · rename_i e; subst e; simp [hw, WPc.depth]
          · rfl
      · cases hs
    · split at hs
      · cases hs
        exact h.update Tid.main (hoth _ rfl) (Or.inl ⟨rfl, by simp [State.depthOf, hpc, MPc.depth]⟩)
      · cases hs
  case broadcast =>
    cases hs
    refine h.update Tid.main ?_ (Or.inl ⟨rfl, by simp [State.depthOf, hpc, MPc.depth]⟩)
    intro t' ht'
    cases t' with
    | main => exact absurd rfl ht'
    | worker m =>
      simp only [State.depthOf]
      split
      · rename_i e; simp [e, WPc.depth]
      · rfl
  all_goals (try split at hs)
  all_goals (try split at hs)
  all_goals (try (simp only [Option.some.injEq] at hs))
  all_goals (try (cases hs; done))
  all_goals (try (subst hs))
  all_goals (first
    | exact h.crash_lock _
    | (refine h.update Tid.main (hoth _ rfl) ?_
       first
       | (left; refine ⟨rfl, ?_⟩; simp [State.depthOf, hpc, MPc.depth])
       | (right; left; refine ⟨by assumption, ?_⟩; simp [State.depthOf, hpc, MPc.depth])
       | (right; right; refine ⟨rfl, ?_⟩; simp [State.depthOf, hpc, MPc.depth])))

theorem LockInv.spurious_lock {s : State} {n : Nat} (h : LockInv s)
    (hw : (s.workers n).pc = .waiting) :
    LockInv (s.setWorker n { s.workers n with pc := .woken }) := by
  refine h.update Tid.main ?_ (Or.inl ⟨rfl, rfl⟩)
  intro t' ht'
  cases t' with
  | main => exact absurd rfl ht'
  | worker m =>
    simp only [State.depthOf, State.setWorker_workers]
    split
    · rename_i e; subst e; simp [hw, WPc.depth]
    · rfl

/-! ## The control invariant -/

theorem CtlInv.init_ctl (cfg : Config) : CtlInv cfg State.init := by
  constructor <;> simp [State.init, Shared.init, MPc.afterFinished, MPc.inAdd]

theorem CtlInv.crash_ctl {cfg : Config} {s : State} (h : CtlInv cfg s) (f : Fault) :
    CtlInv cfg (s.crash f) := by
  obtain ⟨h1, h2, h3, h4, h5, h6, h7, h8, h9, h10⟩ := h
  exact ⟨h1, h2, h3, h4, h5, h6, h7, h8, h9, h10⟩

theorem MPc.afterBroadcast_of_not_afterFinished {pc : MPc} (h : pc.afterFinished = false) :
    pc.afterBroadcast = false := by
  cases pc <;> simp_all [MPc.afterFinished, MPc.afterBroadcast]

/-- The effect on the control facts of a statement of worker `n` that leaves
`main` and `finished` as they are. -/
theorem CtlInv.worker_update {cfg : Config} {s s' : State} (h : CtlInv cfg s) (n : Nat)
    (w' : WorkerState) (hmain : s'.main = s.main) (hfin : s'.sh.finished = s.sh.finished)
    (hws : s'.workers = (s.setWorker n w').workers)
    (hold : (s.workers n).pc ≠ .notCreated) (hold2 : (s.workers n).pc ≠ .exited)
    (hnew : w'.pc ≠ .notCreated)
    (hwait : w'.pc = .wait → s.sh.finished = 0)
    (hwaiting : w'.pc = .waiting → s.main.pc.afterBroadcast = false) : CtlInv cfg s' := by
  obtain ⟨h1, h2, h3, h4, h5, h6, h7, h8, h9, h10⟩ := h
  have hw : ∀ m, s'.workers m = if m = n then w' else s.workers m := by
    intro m; rw [hws]; rfl
  refine ⟨?_, ?_, ?_, ?_, ?_, ?_, ?_, ?_, ?_, ?_⟩
  · intro m
    rw [hw, hmain]
    by_cases e : m = n
    · subst e; simp only [if_true]
      exact ⟨fun _ => (h1 m).1 hold, fun _ => hnew⟩
    · simp only [e, if_false]; exact h1 m
  · rw [hmain]; exact h2
  · rw [hmain, hfin]; exact h3
  · rw [hmain]; exact h4
  · rw [hmain]; exact h5
  · rw [hmain]; exact h6
  · rw [hmain]
    intro hj m hm
    rw [hw]
    by_cases e : m = n
    · subst e; exact absurd (h7 hj m hm) hold2
    · simp only [e, if_false]; exact h7 hj m hm
  · rw [hmain]
    intro hj m hm
    rw [hw]
    by_cases e : m = n
    · subst e; exact absurd (h8 hj m hm) hold2
    · simp only [e, if_false]; exact h8 hj m hm
  · intro m
    rw [hw, hfin]
    by_cases e : m = n
    · subst e; simp only [if_true]; exact hwait
    · simp only [e, if_false]; exact h9 m
  · intro m
    rw [hw, hmain]
    by_cases e : m = n
    · subst e; simp only [if_true]; exact hwaiting
    · simp only [e, if_false]; exact h10 m

theorem CtlInv.step_worker_ctl {cfg : Config} {s s' : State} {n : Nat} (h : CtlInv cfg s)
    (hs : stepWorker s n = some s') : CtlInv cfg s' := by
  have hwt : (s.workers n).pc = .wait → s.main.pc.afterBroadcast = false := by
    intro hpc
    have h0 := h.wait_unfinished n hpc
    have h3 := h.finished_eq
    rw [h0] at h3
    apply MPc.afterBroadcast_of_not_afterFinished
    cases hb : s.main.pc.afterFinished
    · rfl
    · simp [hb] at h3
  unfold stepWorker at hs
  cases hpc : (s.workers n).pc <;> simp only [hpc] at hs
  all_goals (try split at hs)
  all_goals (try split at hs)
  all_goals (try (simp only [Option.some.injEq] at hs))
  all_goals (try (cases hs; done))
  all_goals (try (subst hs))
  all_goals (first
    | exact h.crash_ctl _
    | (refine h.worker_update n _ rfl rfl rfl ?_ ?_ ?_ ?_ ?_ <;> simp_all))

/-- The effect on the control facts of a statement of `main` that leaves the
workers and `finished` as they are and is not part of the creation loop. -/
theorem CtlInv.main_update {cfg : Config} {s s' : State} (h : CtlInv cfg s)
    (hws : s'.workers = s.workers) (hfin : s'.sh.finished = s.sh.finished)
    (hcreate : s.main.pc ≠ .create) (hcreate' : s'.main.pc ≠ .create)
    (haf : s'.main.pc.afterFinished = s.main.pc.afterFinished)
    (hadd : s'.main.pc.inAdd = true → s'.main.i < cfg.K)
    (hloop : s'.main.pc = .loop → s'.main.i ≤ cfg.K)
    (hjoin : s'.main.pc = .join → s'.main.i ≤ cfg.W ∧ ∀ n < s'.main.i, (s.workers n).pc = .exited)
    (hprint : s'.main.pc = .print ∨ s'.main.pc = .done → ∀ n < cfg.W, (s.workers n).pc = .exited)
    (hab : s'.main.pc.afterBroadcast = true → s.main.pc.afterBroadcast = true) :
    CtlInv cfg s' := by
  obtain ⟨h1, h2, h3, h4, h5, h6, h7, h8, h9, h10⟩ := h
  refine ⟨?_, ?_, ?_, ?_, ?_, ?_, ?_, ?_, ?_, ?_⟩
  · intro n
    rw [hws, if_neg hcreate']
    have := h1 n
    rwa [if_neg hcreate] at this
  · intro e; exact absurd e hcreate'
  · rw [hfin, haf]; exact h3
  · exact hadd
  · exact hloop
  · intro e; exact (hjoin e).1
  · intro e; rw [hws]; exact (hjoin e).2
  · intro e; rw [hws]; exact hprint e
  · intro n; rw [hws, hfin]; exact h9 n
  · intro n hn
    rw [hws] at hn
    have := h10 n hn
    cases hb : s'.main.pc.afterBroadcast
    · rfl
    · rw [hab hb] at this; cases this

theorem CtlInv.step_main_ctl {cfg : Config} {s s' : State} {c : Option Nat} (h : CtlInv cfg s)
    (hl : LockInv s) (hs : stepMain cfg s c = some s') : CtlInv cfg s' := by
  have hnowait : 0 < s.main.pc.depth → ∀ n, (s.workers n).pc ≠ .wait := by
    intro hd n hw
    have ho := (hl.owner_of_pos (t := Tid.main) hd).1
    have := hl.2.1 (Tid.worker n) (by rw [ho]; simp)
    simp [State.depthOf, hw, WPc.depth] at this
  have h' := h
  obtain ⟨h1, h2, h3, h4, h5, h6, h7, h8, h9, h10⟩ := h'
  unfold stepMain at hs
  cases hpc : s.main.pc <;> simp only [hpc] at hs
  case create =>
    have hi := h2 hpc
    simp only [hpc, if_true] at h1
    split at hs
    · cases hs
      rename_i hlt
      refine ⟨?_, ?_, ?_, ?_, ?_, ?_, ?_, ?_, ?_, ?_⟩
      · intro n
        simp only [State.setWorker_workers, hpc, if_true]
        by_cases e : n = s.main.i
        · subst e; simp
        · simp only [e, if_false]
          rw [h1 n]; omega
      · intro _; exact hlt
      · simpa [hpc] using h3
      · simp [hpc, MPc.inAdd]
      · simp [hpc]
      · simp [hpc]
      · simp [hpc]
      · simp [hpc]
      · intro n
        simp only [State.setWorker_workers]
        by_cases e : n = s.main.i
        · subst e; simp
        · simp only [e, if_false]; exact h9 n
      · intro n
        simp only [State.setWorker_workers]
        by_cases e : n = s.main.i
        · subst e; simp
        · simp only [e, if_false]; simpa [hpc] using h10 n
    · cases hs
      rename_i hge
      have hiW : s.main.i = cfg.W := by omega
      refine ⟨?_, ?_, ?_, ?_, ?_, ?_, ?_, ?_, ?_, ?_⟩
      · intro n; simp only [reduceCtorEq, if_false]; rw [h1 n, hiW]
      · simp
      · simpa [hpc, MPc.afterFinished] using h3
      · simp [MPc.inAdd]
      · simp
      · simp
      · simp
      · simp
      · exact h9
      · intro n hn; rfl
  case aSignal =>
    have hadd := h4 (by rw [hpc]; rfl)
    split at hs
    · split at hs
      · cases hs
        rename_i n hw
        refine ⟨?_, ?_, ?_, ?_, ?_, ?_, ?_, ?_, ?_, ?_⟩
        · intro m
          simp only [State.setWorker_workers, reduceCtorEq, if_false]
          by_cases e : m = n
          · subst e
            have := (h1 m).1 (by rw [hw]; simp)
            simpa [hpc] using this
          · simp only [e, if_false]; simpa [hpc] using h1 m
        · simp
        · simpa [hpc, MPc.afterFinished] using h3
        · intro _; exact hadd
        · simp
        · simp
        · simp
        · simp
        · intro m
          simp only [State.setWorker_workers]
          by_cases e : m = n
          · subst e; simp
          · simp only [e, if_false]; exact h9 m
        · intro m _; rfl
      · cases hs
    · split at hs
      · cases hs
        refine h.main_update rfl rfl ?_ ?_ ?_ ?_ ?_ ?_ ?_ ?_ <;>
          simp [hpc, MPc.afterFinished, MPc.afterBroadcast, MPc.inAdd]
        exact hadd
      · cases hs
  case setFinished =>
    cases hs
    have hnw := hnowait (by rw [hpc]; decide)
    refine ⟨?_, ?_, ?_, ?_, ?_, ?_, ?_, ?_, ?_, ?_⟩
    · simpa [hpc] using h1
    · simp
    · simp [MPc.afterFinished]
    · simp [MPc.inAdd]
    · simp
    · simp
    · simp
    · simp
    · intro n hn; exact absurd hn (hnw n)
    · intro n _; rfl
  case broadcast =>
    cases hs
    refine ⟨?_, ?_, ?_, ?_, ?_, ?_, ?_, ?_, ?_, ?_⟩
    · intro n
      simp only [reduceCtorEq, if_false]
      have := h1 n
      simp only [hpc, reduceCtorEq, if_false] at this
      rw [← this]
      split
      · rename_i e; simp [e]
      · rfl
    · simp
    · simpa [hpc, MPc.afterFinished] using h3
    · simp [MPc.inAdd]
    · simp
    · simp
    · simp
    · simp
    · intro n
      simp only
      split
      · simp
      · exact h9 n
    · intro n
      simp only
      split
      · simp
      · rename_i e; intro e'; exact absurd e' e
  case mUnlock =>
    cases hs
    refine h.main_update rfl rfl ?_ ?_ ?_ ?_ ?_ ?_ ?_ ?_ <;>
      simp [hpc, MPc.afterFinished, MPc.afterBroadcast, MPc.inAdd]
  case join =>
    have hJ := h6 hpc
    have hJ2 := h7 hpc
    split at hs
    · split at hs
      · cases hs
        rename_i hlt hex
        refine h.main_update rfl rfl ?_ ?_ ?_ ?_ ?_ ?_ ?_ ?_ <;>
          simp [hpc, MPc.afterFinished, MPc.afterBroadcast, MPc.inAdd]
        refine ⟨hlt, ?_⟩
        intro n hn
        by_cases e : n = s.main.i
        · rw [e]; exact hex
        · exact hJ2 n (by omega)
      · cases hs
    · cases hs
      rename_i hge
      refine h.main_update rfl rfl ?_ ?_ ?_ ?_ ?_ ?_ ?_ ?_ <;>
        simp [hpc, MPc.afterFinished, MPc.afterBroadcast, MPc.inAdd]
      intro n hn
      exact hJ2 n (by omega)
  case print =>
    cases hs
    have hP := h8 (Or.inl hpc)
    refine h.main_update rfl rfl ?_ ?_ ?_ ?_ ?_ ?_ ?_ ?_ <;>
      simp [hpc, MPc.afterFinished, MPc.afterBroadcast, MPc.inAdd]
    exact hP
  case rand =>
    cases hs
    have hA := h4 (by rw [hpc]; rfl)
    refine h.main_update rfl rfl ?_ ?_ ?_ ?_ ?_ ?_ ?_ ?_ <;>
      simp [hpc, MPc.afterFinished, MPc.afterBroadcast, MPc.inAdd]
    omega
  case loop =>
    split at hs
    · cases hs
      rename_i hlt
      refine h.main_update rfl rfl ?_ ?_ ?_ ?_ ?_ ?_ ?_ ?_ <;>
        simp [hpc, MPc.afterFinished, MPc.afterBroadcast, MPc.inAdd]
      exact hlt
    · cases hs
      refine h.main_update rfl rfl ?_ ?_ ?_ ?_ ?_ ?_ ?_ ?_ <;>
        simp [hpc, MPc.afterFinished, MPc.afterBroadcast, MPc.inAdd]
  case done => cases hs
  case mLock =>
    split at hs
    · cases hs
    · cases hs
      refine h.main_update rfl rfl ?_ ?_ ?_ ?_ ?_ ?_ ?_ ?_ <;>
        simp [hpc, MPc.afterFinished, MPc.afterBroadcast, MPc.inAdd]
  all_goals have hA := h4 (by rw [hpc]; rfl)
  all_goals clear h1 h2 h3 h4 h5 h6 h7 h8 h9 h10 hnowait
  all_goals (try split at hs)
  all_goals (try split at hs)
  all_goals (try (simp only [Option.some.injEq] at hs))
  all_goals (try (cases hs; done))
  all_goals (try subst hs)
  all_goals (first
    | exact h.crash_ctl _
    | (refine h.main_update rfl rfl ?_ ?_ ?_ ?_ ?_ ?_ ?_ ?_ <;>
        simp [hpc, MPc.afterFinished, MPc.afterBroadcast, MPc.inAdd]
       exact hA))

/-! ## The queue invariant of the pool -/

theorem sum_setWorker (W : Nat) (s : State) {n : Nat} (hn : n < W) (w' : WorkerState)
    (F : WorkerState → Multiset Int) :
    ∑ m in Finset.range W, F ((s.setWorker n w').workers m) + F (s.workers n) =
      ∑ m in Finset.range W, F (s.workers m) + F w' := by
  have hmem : n ∈ Finset.range W := Finset.mem_range.2 hn
  rw [← Finset.add_sum_erase _ _ hmem, ← Finset.add_sum_erase (Finset.range W) (fun m => F (s.workers m)) hmem]
  have : ∑ x ∈ (Finset.range W).erase n, F ((s.setWorker n w').workers x) =
      ∑ x ∈ (Finset.range W).erase n, F (s.workers x) := by
    refine Finset.sum_congr rfl ?_
    intro m hm
    rw [State.setWorker_other _ _ (Finset.ne_of_mem_erase hm)]
  rw [this, State.setWorker_same]
  abel

theorem numsOf_none (mem : Heap) : numsOf mem none = 0 := rfl

theorem numsOf_some {mem : Heap} {a : Nat} {j : job} (h : mem a = some j) :
    numsOf mem (some a) = {j.num} := by
  simp [numsOf, num_of, h]

theorem window_none {s : State} {l : List Nat} (h : s.mutex.owner = none) :
    window s l ↔ canonical s.sh l := by
  simp [window, h]

theorem window_main {s : State} {l : List Nat} (h : s.mutex.owner = some .main) :
    window s l ↔ windowMain s l := by
  simp [window, h]

theorem window_worker {s : State} {l : List Nat} {n : Nat} (h : s.mutex.owner = some (.worker n)) :
    window s l ↔ windowWorker s.sh (s.workers n) l := by
  simp [window, h]

/-- A statement of worker `n` that is not the owner of the mutex and leaves
`head`, `tail`, `num_jobs`, the mutex and `main` as they are keeps the window. -/
theorem window_other {s s' : State} {l : List Nat} {n : Nat} (w' : WorkerState)
    (hno : s.mutex.owner ≠ some (.worker n))
    (hhead : s'.sh.head = s.sh.head) (htail : s'.sh.tail = s.sh.tail)
    (hnum : s'.sh.num_jobs = s.sh.num_jobs) (hmu : s'.mutex = s.mutex)
    (hmain : s'.main = s.main) (hws : s'.workers = (s.setWorker n w').workers)
    (h : window s l) : window s' l := by
  unfold window at h ⊢
  rw [hmu]
  cases ho : s.mutex.owner with
  | none => simpa [ho, canonical, htail, hnum] using h
  | some t =>
    cases t with
    | main =>
      simp only [ho] at h ⊢
      unfold windowMain canonical at h ⊢
      rw [htail, hnum, hmain]; exact h
    | worker m =>
      simp only [ho] at h ⊢
      have hmn : m ≠ n := by
        intro e; apply hno; rw [ho, e]
      unfold windowWorker canonical at h ⊢
      rw [hhead, htail, hnum, hws, State.setWorker_other _ _ hmn]; exact h

/-- A statement of `main` while it does not own the mutex, leaving `head`,
`tail`, `num_jobs`, the mutex and the workers as they are, keeps the window. -/
theorem window_other_main {s s' : State} {l : List Nat}
    (hno : s.mutex.owner ≠ some .main)
    (hhead : s'.sh.head = s.sh.head) (htail : s'.sh.tail = s.sh.tail)
    (hnum : s'.sh.num_jobs = s.sh.num_jobs) (hmu : s'.mutex = s.mutex)
    (hws : s'.workers = s.workers)
    (h : window s l) : window s' l := by
  unfold window at h ⊢
  rw [hmu]
  cases ho : s.mutex.owner with
  | none => simpa [ho, canonical, htail, hnum] using h
  | some t =>
    cases t with
    | main => exact absurd ho hno
    | worker m =>
      simp only [ho] at h ⊢
      unfold windowWorker canonical at h ⊢
      rw [hhead, htail, hnum, hws]; exact h

theorem QInv.init_queue (cfg : Config) : QInv cfg State.init [] := by
  refine ⟨?_, ?_, ?_, ?_, ?_, ?_, ?_, ?_, ?_⟩
  · simp [State.init, Shared.init, chain]
  · simp [window, State.init, canonical, Shared.init]
  · intro n a h; simp [State.init, WorkerState.held] at h
  · intro n m a h; simp [State.init, WorkerState.held] at h
  · intro n h; simp [State.init, WPc.holds] at h
  · intro a h; simp [State.init, MainState.fresh] at h
  · intro h; simp [State.init, MPc.hasFresh] at h
  · intro n h; simp [State.init, WPc.exiting] at h
  · simp [State.init, pendingNums, WorkerState.pending, numsOf, num_of, nums, handledNums,
      MainState.enqueued, enqueuedIds]

theorem QInv.crash_queue {cfg : Config} {s : State} {l : List Nat} (h : QInv cfg s l) (f : Fault) :
    QInv cfg (s.crash f) l := by
  obtain ⟨h1, h2, h3, h4, h5, h6, h7, h8, h9⟩ := h
  exact ⟨h1, h2, h3, h4, h5, h6, h7, h8, h9⟩

/-- The effect on the queue invariant of a statement of worker `n` that
leaves the shared state and `main` as they are. -/
theorem QInv.worker_local {cfg : Config} {s s' : State} {l : List Nat} (h : QInv cfg s l)
    {n : Nat} (hn : n < cfg.W) (w' : WorkerState)
    (hsh : s'.sh = s.sh) (hmain : s'.main = s.main)
    (hws : s'.workers = (s.setWorker n w').workers)
    (hwin : window s' l)
    (hheld : w'.held = (s.workers n).held)
    (hholds : w'.pc.holds = true → (s.workers n).pc.holds = true)
    (hexit : w'.pc.exiting = true → s.sh.num_jobs = 0 ∧ s.sh.finished = 1)
    (hacc : numsOf s.sh.mem w'.pending + handledNums s'.out =
      numsOf s.sh.mem (s.workers n).pending + handledNums s.out) :
    QInv cfg s' l := by
  obtain ⟨h1, h2, h3, h4, h5, h6, h7, h8, h9⟩ := h
  have hw : ∀ m, s'.workers m = if m = n then w' else s.workers m := by
    intro m; rw [hws]; rfl
  have hh : ∀ m, (s'.workers m).held = (s.workers m).held := by
    intro m
    rw [hw]
    by_cases e : m = n
    · subst e; simpa using hheld
    · simp [e]
  refine ⟨?_, hwin, ?_, ?_, ?_, ?_, ?_, ?_, ?_⟩
  · rw [hsh]; exact h1
  · intro m a hm
    rw [hh] at hm; rw [hsh]; exact h3 m a hm
  · intro m k a hm hk
    rw [hh] at hm hk; exact h4 m k a hm hk
  · intro m hm
    rw [hh]
    rw [hw] at hm
    by_cases e : m = n
    · subst e; simp only [if_true] at hm; exact h5 m (hholds hm)
    · simp only [e, if_false] at hm; exact h5 m hm
  · intro a ha
    rw [hmain] at ha ⊢
    obtain ⟨g1, g2, g3⟩ := h6 a ha
    refine ⟨g1, ?_, by rw [hsh]; exact g3⟩
    intro m; rw [hh]; exact g2 m
  · rw [hmain]; exact h7
  · intro m hm
    rw [hw] at hm
    rw [hsh]
    by_cases e : m = n
    · subst e; simp only [if_true] at hm; exact hexit hm
    · simp only [e, if_false] at hm; exact h8 m hm
  · rw [hmain, ← h9, hsh]
    have hsum := sum_setWorker cfg.W s hn w' (fun w => numsOf s.sh.mem w.pending)
    have hp : pendingNums cfg s' = ∑ m in Finset.range cfg.W,
        numsOf s.sh.mem ((s.setWorker n w').workers m).pending := by
      unfold pendingNums; rw [hsh, hws]
    rw [hp]
    unfold pendingNums
    simp only at hsum
    have e1 : (∑ m in Finset.range cfg.W, numsOf s.sh.mem ((s.setWorker n w').workers m).pending)
        + handledNums s'.out + numsOf s.sh.mem (s.workers n).pending =
        (∑ m in Finset.range cfg.W, numsOf s.sh.mem (s.workers m).pending) + handledNums s.out
          + numsOf s.sh.mem (s.workers n).pending := by
      calc _ = (∑ m in Finset.range cfg.W, numsOf s.sh.mem ((s.setWorker n w').workers m).pending
                + numsOf s.sh.mem (s.workers n).pending) + handledNums s'.out := by abel
        _ = (∑ m in Finset.range cfg.W, numsOf s.sh.mem (s.workers m).pending)
              + (numsOf s.sh.mem w'.pending + handledNums s'.out) := by rw [hsum]; abel
        _ = _ := by rw [hacc]; abel
    have e2 := add_right_cancel e1
    rw [add_assoc, e2, add_assoc]

theorem lock_of_not_owner {m m' : Mutex} {t : Tid} (h : pthread_mutex_lock m t = some m')
    (hno : m.owner ≠ some t) : m.owner = none ∧ m' = { owner := some t, depth := 1 } := by
  unfold pthread_mutex_lock at h
  cases ho : m.owner with
  | none => simp only [ho, Option.some.injEq] at h; exact ⟨rfl, h.symm⟩
  | some o =>
    simp only [ho] at h
    split at h
    · rename_i e; exact absurd (by rw [ho, e]) hno
    · cases h

theorem lock_of_owner {m m' : Mutex} {t : Tid} (h : pthread_mutex_lock m t = some m')
    (ho : m.owner = some t) : m' = { owner := some t, depth := m.depth + 1 } := by
  unfold pthread_mutex_lock at h
  simp only [ho, if_true, Option.some.injEq] at h
  exact h.symm

theorem unlock_of_owner {m : Mutex} {t : Tid} (ho : m.owner = some t) :
    pthread_mutex_unlock m t =
      if m.depth ≤ 1 then { owner := none, depth := 0 } else { owner := some t, depth := m.depth - 1 } := by
  unfold pthread_mutex_unlock
  simp only [ho, if_true]

theorem LockInv.not_owner {s : State} (h : LockInv s) {t : Tid} (ht : s.depthOf t = 0) :
    s.mutex.owner ≠ some t := by
  intro ho
  have := h.1 t ho
  omega

theorem CtlInv.worker_lt {cfg : Config} {s : State} (h : CtlInv cfg s) {n : Nat}
    (hpc : (s.workers n).pc ≠ .notCreated) : n < cfg.W := by
  have := (h.created n).1 hpc
  split at this
  · rename_i e; have := h.create_le e; omega
  · exact this

theorem CtlInv.finished_one {cfg : Config} {s : State} (h : CtlInv cfg s)
    (hf : s.sh.finished ≠ 0) : s.sh.finished = 1 := by
  have := h.finished_eq
  split at this
  · exact this
  · exact absurd this hf

theorem QInv.step_worker_local {cfg : Config} {s s' : State} {l : List Nat} {n : Nat}
    (h : QInv cfg s l) (hl : LockInv s) (hc : CtlInv cfg s)
    (hpcs : (s.workers n).pc ≠ .gAdvance ∧ (s.workers n).pc ≠ .gTailNull ∧
      (s.workers n).pc ≠ .gDec ∧ (s.workers n).pc ≠ .free)
    (hs : stepWorker s n = some s') : QInv cfg s' l := by
  have hnW : (s.workers n).pc ≠ .notCreated → n < cfg.W := hc.worker_lt
  have hown : 0 < (s.workers n).pc.depth → s.mutex.owner = some (.worker n) ∧
      s.mutex.depth = (s.workers n).pc.depth := fun hd => hl.owner_of_pos (t := .worker n) hd
  have hnown : (s.workers n).pc.depth = 0 → s.mutex.owner ≠ some (.worker n) :=
    fun hd => hl.not_owner (t := .worker n) hd
  have hwin := h.window_ok
  unfold stepWorker at hs
  cases hpc : (s.workers n).pc <;> simp only [hpc] at hs
  case notCreated => cases hs
  case waiting => cases hs
  case exited => cases hs
  case gAdvance => exact absurd hpc hpcs.1
  case gTailNull => exact absurd hpc hpcs.2.1
  case gDec => exact absurd hpc hpcs.2.2.1
  case free => exact absurd hpc hpcs.2.2.2
  all_goals have hnW := hnW (by rw [hpc]; simp)
  case lock0 =>
    have hno := hnown (by rw [hpc]; rfl)
    split at hs
    · cases hs
    · rename_i m hm
      cases hs
      obtain ⟨ho, rfl⟩ := lock_of_not_owner hm hno
      refine h.worker_local hnW _ rfl rfl rfl ?_ ?_ ?_ ?_ ?_
      · have := (window_none ho).1 hwin
        simpa [window, windowWorker] using this
      · simp [WorkerState.held, hpc]
      · simp [WPc.holds, hpc]
      · simp [WPc.exiting]
      · simp [WorkerState.pending, hpc]
  case relock =>
    have hno := hnown (by rw [hpc]; rfl)
    split at hs
    · cases hs
    · rename_i m hm
      cases hs
      obtain ⟨ho, rfl⟩ := lock_of_not_owner hm hno
      refine h.worker_local hnW _ rfl rfl rfl ?_ ?_ ?_ ?_ ?_
      · have := (window_none ho).1 hwin
        simpa [window, windowWorker] using this
      · simp [WorkerState.held, hpc]
      · simp [WPc.holds, hpc]
      · simp [WPc.exiting]
      · simp [WorkerState.pending, hpc]
  case woken =>
    have hno := hnown (by rw [hpc]; rfl)
    split at hs
    · cases hs
    · rename_i m hm
      cases hs
      obtain ⟨ho, rfl⟩ := lock_of_not_owner hm hno
      refine h.worker_local hnW _ rfl rfl rfl ?_ ?_ ?_ ?_ ?_
      · have := (window_none ho).1 hwin
        simpa [window, windowWorker] using this
      · simp [WorkerState.held, hpc]
      · simp [WPc.holds, hpc]
      · simp [WPc.exiting]
      · simp [WorkerState.pending, hpc]
  case test =>
    obtain ⟨ho, hd⟩ := hown (by rw [hpc]; decide)
    have hw := (window_worker ho).1 hwin
    simp only [windowWorker, hpc] at hw
    split at hs <;> cases hs
    · rename_i hpos
      refine h.worker_local hnW _ rfl rfl rfl ?_ ?_ ?_ ?_ ?_
      · rw [window_worker (by exact ho)]
        simpa [windowWorker] using ⟨hw, hpos⟩
      · simp [WorkerState.held, hpc]
      · simp [WPc.holds, hpc]
      · simp [WPc.exiting]
      · simp [WorkerState.pending, hpc]
    · rename_i hpos
      refine h.worker_local hnW _ rfl rfl rfl ?_ ?_ ?_ ?_ ?_
      · rw [window_worker (by exact ho)]
        have h0 : s.sh.num_jobs = 0 := by
          have := hw.2
          have : (0 : Int) ≤ l.length := Int.natCast_nonneg _
          omega
        simpa [windowWorker] using ⟨hw, h0⟩
      · simp [WorkerState.held, hpc]
      · simp [WPc.holds, hpc]
      · simp [WPc.exiting]
      · simp [WorkerState.pending, hpc]
  case gLock =>
    obtain ⟨ho, hd⟩ := hown (by rw [hpc]; decide)
    have hw := (window_worker ho).1 hwin
    simp only [windowWorker, hpc] at hw
    split at hs
    · cases hs
    · rename_i m hm
      cases hs
      have := lock_of_owner hm ho
      subst this
      refine h.worker_local hnW _ rfl rfl rfl ?_ ?_ ?_ ?_ ?_
      · simpa [window, windowWorker] using hw
      · simp [WorkerState.held, hpc]
      · simp [WPc.holds, hpc]
      · simp [WPc.exiting]
      · simp [WorkerState.pending, hpc]
  case gTest =>
    obtain ⟨ho, hd⟩ := hown (by rw [hpc]; decide)
    have hw := (window_worker ho).1 hwin
    simp only [windowWorker, hpc] at hw
    split at hs <;> cases hs
    · refine h.worker_local hnW _ rfl rfl rfl ?_ ?_ ?_ ?_ ?_
      · rw [window_worker (by exact ho)]
        simpa [windowWorker] using hw
      · simp [WorkerState.held, hpc]
      · simp [WPc.holds, hpc]
      · simp [WPc.exiting]
      · simp [WorkerState.pending, hpc]
    · rename_i hpos
      exact absurd hw.2 hpos
  case gTake =>
    obtain ⟨ho, hd⟩ := hown (by rw [hpc]; decide)
    have hw := (window_worker ho).1 hwin
    simp only [windowWorker, hpc] at hw
    cases hs
    refine h.worker_local hnW _ rfl rfl rfl ?_ ?_ ?_ ?_ ?_
    · rw [window_worker (by exact ho)]
      simpa [windowWorker] using hw
    · simp [WorkerState.held, hpc]
    · simp [WPc.holds, hpc]
    · simp [WPc.exiting]
    · simp [WorkerState.pending, hpc]
  case gHeadNull =>
    obtain ⟨ho, hd⟩ := hown (by rw [hpc]; decide)
    have hw := (window_worker ho).1 hwin
    simp only [windowWorker, hpc] at hw
    have hhd := h.chain_ok
    split at hs <;> cases hs
    · rename_i hnull
      have hl0 : l = [] := by
        cases l with
        | nil => rfl
        | cons a l => simp [((chain_cons _ _ _ _).1 hhd).1] at hnull
      refine h.worker_local hnW _ rfl rfl rfl ?_ ?_ ?_ ?_ ?_
      · rw [window_worker (by exact ho)]
        simpa [windowWorker] using ⟨hw.1, hl0⟩
      · simp [WorkerState.held, hpc]
      · simp [WPc.holds, hpc]
      · simp [WPc.exiting]
      · simp [WorkerState.pending, hpc]
    · rename_i hnull
      have hl0 : l ≠ [] := by
        intro e; subst e; exact hnull ((chain_nil _ _).1 hhd)
      refine h.worker_local hnW _ rfl rfl rfl ?_ ?_ ?_ ?_ ?_
      · rw [window_worker (by exact ho)]
        simpa [windowWorker] using ⟨hw.1, hw.2 hl0⟩
      · simp [WorkerState.held, hpc]
      · simp [WPc.holds, hpc]
      · simp [WPc.exiting]
      · simp [WorkerState.pending, hpc]
  case gNull =>
    obtain ⟨ho, hd⟩ := hown (by rw [hpc]; decide)
    have hw := (window_worker ho).1 hwin
    simp only [windowWorker, hpc] at hw
  case gUnlock =>
    obtain ⟨ho, hd⟩ := hown (by rw [hpc]; decide)
    have hw := (window_worker ho).1 hwin
    simp only [windowWorker, hpc] at hw
    cases hs
    have hu := unlock_of_owner ho
    simp only [hd, hpc, WPc.depth] at hu
    refine h.worker_local hnW _ rfl rfl rfl ?_ ?_ ?_ ?_ ?_
    · simp only [window, hu]
      simpa [windowWorker] using hw
    · simp [WorkerState.held, hpc]
    · simp [WPc.holds, hpc]
    · simp [WPc.exiting]
    · simp [WorkerState.pending, hpc]
  case gReturn =>
    obtain ⟨ho, hd⟩ := hown (by rw [hpc]; decide)
    have hw := (window_worker ho).1 hwin
    simp only [windowWorker, hpc] at hw
    cases hs
    refine h.worker_local hnW _ rfl rfl rfl ?_ ?_ ?_ ?_ ?_
    · rw [window_worker (by exact ho)]
      simpa [windowWorker] using hw
    · simp [WorkerState.held, hpc]
    · simp [WPc.holds, hpc]
    · simp [WPc.exiting]
    · simp [WorkerState.pending, hpc]
  case chk =>
    obtain ⟨ho, hd⟩ := hown (by rw [hpc]; decide)
    have hw := (window_worker ho).1 hwin
    simp only [windowWorker, hpc] at hw
    have hne := h.holds_some n (by rw [hpc]; rfl)
    simp only [WorkerState.held, hpc] at hne
    split at hs <;> cases hs
    · refine h.worker_local hnW _ rfl rfl rfl ?_ ?_ ?_ ?_ ?_
      · rw [window_worker (by exact ho)]
        simpa [windowWorker] using hw
      · simp [WorkerState.held, hpc]
      · simp [WPc.holds, hpc]
      · simp [WPc.exiting]
      · simp [WorkerState.pending, hpc]
    · rename_i hnull
      exact absurd hne hnull
  case fin =>
    obtain ⟨ho, hd⟩ := hown (by rw [hpc]; decide)
    have hw := (window_worker ho).1 hwin
    simp only [windowWorker, hpc] at hw
    split at hs <;> cases hs
    · rename_i hfin
      refine h.worker_local hnW _ rfl rfl rfl ?_ ?_ ?_ ?_ ?_
      · rw [window_worker (by exact ho)]
        simpa [windowWorker] using hw
      · simp [WorkerState.held, hpc]
      · simp [WPc.holds, hpc]
      · intro _; exact ⟨hw.2, hc.finished_one hfin⟩
      · simp [WorkerState.pending, hpc]
    · refine h.worker_local hnW _ rfl rfl rfl ?_ ?_ ?_ ?_ ?_
      · rw [window_worker (by exact ho)]
        simpa [windowWorker] using hw
      · simp [WorkerState.held, hpc]
      · simp [WPc.holds, hpc]
      · simp [WPc.exiting]
      · simp [WorkerState.pending, hpc]
  case unlock =>
    obtain ⟨ho, hd⟩ := hown (by rw [hpc]; decide)
    have hw := (window_worker ho).1 hwin
    simp only [windowWorker, hpc] at hw
    cases hs
    have hu := unlock_of_owner ho
    simp only [hd, hpc, WPc.depth] at hu
    refine h.worker_local hnW _ rfl rfl rfl ?_ ?_ ?_ ?_ ?_
    · simp only [window, hu]
      simpa [canonical] using hw
    · simp [WorkerState.held, hpc]
    · simp [WPc.holds, hpc]
    · simp [WPc.exiting]
    · simp [WorkerState.pending, hpc]
  case unlockExit =>
    obtain ⟨ho, hd⟩ := hown (by rw [hpc]; decide)
    have hw := (window_worker ho).1 hwin
    simp only [windowWorker, hpc] at hw
    cases hs
    have hu := unlock_of_owner ho
    simp only [hd, hpc, WPc.depth] at hu
    refine h.worker_local hnW _ rfl rfl rfl ?_ ?_ ?_ ?_ ?_
    · simp only [window, hu]
      exact hw.1
    · simp [WorkerState.held, hpc]
    · simp [WPc.holds, hpc]
    · intro _; exact h.exit_done n (by rw [hpc]; rfl)
    · simp [WorkerState.pending, hpc]
  case wait =>
    obtain ⟨ho, hd⟩ := hown (by rw [hpc]; decide)
    have hw := (window_worker ho).1 hwin
    simp only [windowWorker, hpc] at hw
    cases hs
    have hu := unlock_of_owner ho
    simp only [hd, hpc, WPc.depth] at hu
    refine h.worker_local hnW _ rfl rfl rfl ?_ ?_ ?_ ?_ ?_
    · simp only [window, hu]
      exact hw.1
    · simp [WorkerState.held, hpc]
    · simp [WPc.holds, hpc]
    · simp [WPc.exiting]
    · simp [WorkerState.pending, hpc]
  case printExit =>
    have hno := hnown (by rw [hpc]; rfl)
    cases hs
    refine h.worker_local hnW _ rfl rfl rfl ?_ ?_ ?_ ?_ ?_
    · exact window_other _ hno rfl rfl rfl rfl rfl rfl hwin
    · simp [WorkerState.held, hpc]
    · simp [WPc.holds, hpc]
    · intro _; exact h.exit_done n (by rw [hpc]; rfl)
    · simp [WorkerState.pending, hpc, handledNums]
  case exit =>
    have hno := hnown (by rw [hpc]; rfl)
    cases hs
    refine h.worker_local hnW _ rfl rfl rfl ?_ ?_ ?_ ?_ ?_
    · exact window_other _ hno rfl rfl rfl rfl rfl rfl hwin
    · simp [WorkerState.held, hpc]
    · simp [WPc.holds, hpc]
    · intro _; exact h.exit_done n (by rw [hpc]; rfl)
    · simp [WorkerState.pending, hpc, handledNums]
  case work =>
    have hno := hnown (by rw [hpc]; rfl)
    have hne := h.holds_some n (by rw [hpc]; rfl)
    simp only [WorkerState.held, hpc] at hne
    obtain ⟨a, ha⟩ := Option.ne_none_iff_exists'.1 hne
    obtain ⟨⟨j, hj⟩, _⟩ := h.held_alloc n a (by simp [WorkerState.held, hpc, ha])
    simp only [thread_work, ha, hj] at hs
    cases hs
    refine h.worker_local hnW _ rfl rfl rfl ?_ ?_ ?_ ?_ ?_
    · exact window_other _ hno rfl rfl rfl rfl rfl rfl hwin
    · simp [WorkerState.held, hpc, ha]
    · simp [WPc.holds, hpc]
    · simp [WPc.exiting]
    · simp [WorkerState.pending, hpc, handledNums, ha, numsOf_some hj, numsOf_none,
        List.filterMap_append]

theorem Heap.free_same (mem : Heap) (a : Nat) : mem.free a a = none := by
  simp [Heap.free]

theorem Heap.free_other (mem : Heap) {a b : Nat} (h : b ≠ a) : mem.free a b = mem b := by
  simp [Heap.free, h]

theorem chain_free {mem : Heap} {p : Ptr} {l : List Nat} (h : chain mem p l)
    {a : Nat} (ha : a ∉ l) : chain (mem.free a) p l := by
  induction l generalizing p with
  | nil => exact h
  | cons b l ih =>
    obtain ⟨hp, jb, hjb, hl⟩ := (chain_cons mem p b l).1 h
    have hba : b ≠ a := fun e => ha (by simp [e])
    refine (chain_cons _ p b l).2 ⟨hp, jb, ?_, ih hl (fun e => ha (List.mem_cons_of_mem _ e))⟩
    rw [Heap.free_other _ hba, hjb]

theorem nums_free {mem : Heap} {l : List Nat} {a : Nat} (ha : a ∉ l) :
    nums (mem.free a) l = nums mem l := by
  unfold nums
  refine List.map_congr_left ?_
  intro b hb
  have hba : b ≠ a := fun e => ha (e ▸ hb)
  rw [Heap.free_other _ hba]

theorem numsOf_congr {mem mem' : Heap} {p : Ptr} (h : ∀ a, p = some a → mem' a = mem a) :
    numsOf mem' p = numsOf mem p := by
  cases p with
  | none => rfl
  | some a => simp [numsOf, num_of, h a rfl]

theorem numsOf_congr_num {mem mem' : Heap} {p : Ptr}
    (h : ∀ a, p = some a → (mem' a).map job.num = (mem a).map job.num) :
    numsOf mem' p = numsOf mem p := by
  cases p with
  | none => rfl
  | some a => simp [numsOf, num_of, h a rfl]

theorem WorkerState.held_of_pending {w : WorkerState} {a : Nat} (h : w.pending = some a) :
    w.held = some a := by
  unfold WorkerState.pending at h
  unfold WorkerState.held
  cases hpc : w.pc <;> simp_all

/-- The effect on the queue invariant of a statement of worker `n` that
leaves the heap, `head` and `main` as they are. -/
theorem QInv.worker_frame {cfg : Config} {s s' : State} {l : List Nat} (h : QInv cfg s l)
    {n : Nat} (hn : n < cfg.W) (w' : WorkerState)
    (hmem : s'.sh.mem = s.sh.mem) (hhead : s'.sh.head = s.sh.head) (hmain : s'.main = s.main)
    (hws : s'.workers = (s.setWorker n w').workers)
    (hwin : window s' l)
    (hheld : w'.held = (s.workers n).held)
    (hholds : w'.pc.holds = true → (s.workers n).pc.holds = true)
    (hexit : ∀ m, (s'.workers m).pc.exiting = true → s'.sh.num_jobs = 0 ∧ s'.sh.finished = 1)
    (hacc : numsOf s.sh.mem w'.pending + handledNums s'.out =
      numsOf s.sh.mem (s.workers n).pending + handledNums s.out) :
    QInv cfg s' l := by
  obtain ⟨h1, h2, h3, h4, h5, h6, h7, h8, h9⟩ := h
  have hw : ∀ m, s'.workers m = if m = n then w' else s.workers m := by
    intro m; rw [hws]; rfl
  have hh : ∀ m, (s'.workers m).held = (s.workers m).held := by
    intro m
    rw [hw]
    by_cases e : m = n
    · subst e; simpa using hheld
    · simp [e]
  refine ⟨?_, hwin, ?_, ?_, ?_, ?_, ?_, hexit, ?_⟩
  · rw [hmem, hhead]; exact h1
  · intro m a hm
    rw [hh] at hm; rw [hmem]; exact h3 m a hm
  · intro m k a hm hk
    rw [hh] at hm hk; exact h4 m k a hm hk
  · intro m hm
    rw [hh]
    rw [hw] at hm
    by_cases e : m = n
    · subst e; simp only [if_true] at hm; exact h5 m (hholds hm)
    · simp only [e, if_false] at hm; exact h5 m hm
  · intro a ha
    rw [hmain] at ha ⊢
    obtain ⟨g1, g2, g3⟩ := h6 a ha
    refine ⟨g1, ?_, by rw [hmem]; exact g3⟩
    intro m; rw [hh]; exact g2 m
  · rw [hmain]; exact h7
  · rw [hmain, ← h9, hmem]
    have hsum := sum_setWorker cfg.W s hn w' (fun w => numsOf s.sh.mem w.pending)
    have hp : pendingNums cfg s' = ∑ m in Finset.range cfg.W,
        numsOf s.sh.mem ((s.setWorker n w').workers m).pending := by
      unfold pendingNums; rw [hmem, hws]
    rw [hp]
    unfold pendingNums
    simp only at hsum
    have e1 : (∑ m in Finset.range cfg.W, numsOf s.sh.mem ((s.setWorker n w').workers m).pending)
        + handledNums s'.out + numsOf s.sh.mem (s.workers n).pending =
        (∑ m in Finset.range cfg.W, numsOf s.sh.mem (s.workers m).pending) + handledNums s.out
          + numsOf s.sh.mem (s.workers n).pending := by
      calc _ = (∑ m in Finset.range cfg.W, numsOf s.sh.mem ((s.setWorker n w').workers m).pending
                + numsOf s.sh.mem (s.workers n).pending) + handledNums s'.out := by abel
        _ = (∑ m in Finset.range cfg.W, numsOf s.sh.mem (s.workers m).pending)
              + (numsOf s.sh.mem w'.pending + handledNums s'.out) := by rw [hsum]; abel
        _ = _ := by rw [hacc]; abel
    have e2 := add_right_cancel e1
    rw [add_assoc, e2, add_assoc]

theorem QInv.step_gTailNull {cfg : Config} {s s' : State} {l : List Nat} {n : Nat}
    (h : QInv cfg s l) (hl : LockInv s) (hc : CtlInv cfg s)
    (hpc : (s.workers n).pc = .gTailNull)
    (hs : stepWorker s n = some s') : QInv cfg s' l := by
  have hnW : n < cfg.W := hc.worker_lt (by rw [hpc]; simp)
  obtain ⟨ho, hd⟩ := hl.owner_of_pos (t := .worker n) (by simp [State.depthOf, hpc, WPc.depth])
  have hw := (window_worker ho).1 h.window_ok
  simp only [windowWorker, hpc] at hw
  unfold stepWorker at hs
  simp only [hpc] at hs
  cases hs
  refine h.worker_frame hnW _ rfl rfl rfl rfl ?_ ?_ ?_ ?_ ?_
  · rw [window_worker (by exact ho)]
    simp [windowWorker, hw.1, hw.2]
  · simp [WorkerState.held, hpc]
  · simp [WPc.holds, hpc]
  · intro m hm
    simp only [State.setWorker_workers] at hm
    by_cases e : m = n
    · subst e; simp [WPc.exiting] at hm
    · simp only [e, if_false] at hm
      have := (h.exit_done m hm).1
      have := hw.1
      simp only at this
      omega
  · simp [WorkerState.pending, hpc]

theorem QInv.step_gDec {cfg : Config} {s s' : State} {l : List Nat} {n : Nat}
    (h : QInv cfg s l) (hl : LockInv s) (hc : CtlInv cfg s)
    (hpc : (s.workers n).pc = .gDec)
    (hs : stepWorker s n = some s') : QInv cfg s' l := by
  have hnW : n < cfg.W := hc.worker_lt (by rw [hpc]; simp)
  obtain ⟨ho, hd⟩ := hl.owner_of_pos (t := .worker n) (by simp [State.depthOf, hpc, WPc.depth])
  have hw := (window_worker ho).1 h.window_ok
  simp only [windowWorker, hpc] at hw
  unfold stepWorker at hs
  simp only [hpc] at hs
  cases hs
  refine h.worker_frame hnW _ rfl rfl rfl rfl ?_ ?_ ?_ ?_ ?_
  · rw [window_worker (by exact ho)]
    simp [windowWorker, canonical, hw.1, hw.2]
  · simp [WorkerState.held, hpc]
  · simp [WPc.holds, hpc]
  · intro m hm
    simp only [State.setWorker_workers] at hm
    by_cases e : m = n
    · subst e; simp [WPc.exiting] at hm
    · simp only [e, if_false] at hm
      have := (h.exit_done m hm).1
      have := hw.1
      omega
  · simp [WorkerState.pending, hpc]

theorem pendingNums_setWorker {cfg : Config} {s : State} {n : Nat} (hn : n < cfg.W)
    (w' : WorkerState) (mem' : Heap) (s' : State)
    (hmem : s'.sh.mem = mem') (hws : s'.workers = (s.setWorker n w').workers)
    (hfr : ∀ m, m ≠ n → numsOf mem' (s.workers m).pending = numsOf s.sh.mem (s.workers m).pending) :
    pendingNums cfg s' + numsOf s.sh.mem (s.workers n).pending =
      pendingNums cfg s + numsOf mem' w'.pending := by
  unfold pendingNums
  rw [hmem, hws]
  have hsum := sum_setWorker cfg.W s hn w' (fun w => numsOf s.sh.mem w.pending)
  simp only at hsum
  have e : ∑ m in Finset.range cfg.W, numsOf mem' ((s.setWorker n w').workers m).pending
      + numsOf s.sh.mem w'.pending =
      ∑ m in Finset.range cfg.W, numsOf s.sh.mem ((s.setWorker n w').workers m).pending
      + numsOf mem' w'.pending := by
    have hmem : n ∈ Finset.range cfg.W := Finset.mem_range.2 hn
    rw [← Finset.add_sum_erase _ _ hmem,
      ← Finset.add_sum_erase (Finset.range cfg.W)
        (fun m => numsOf s.sh.mem ((s.setWorker n w').workers m).pending) hmem]
    have : ∑ x ∈ (Finset.range cfg.W).erase n, numsOf mem' ((s.setWorker n w').workers x).pending =
        ∑ x ∈ (Finset.range cfg.W).erase n, numsOf s.sh.mem ((s.setWorker n w').workers x).pending := by
      refine Finset.sum_congr rfl ?_
      intro m hm
      rw [State.setWorker_other _ _ (Finset.ne_of_mem_erase hm)]
      exact hfr m (Finset.ne_of_mem_erase hm)
    rw [this, State.setWorker_same]
    abel
  have e2 : (∑ m in Finset.range cfg.W, numsOf mem' ((s.setWorker n w').workers m).pending
      + numsOf s.sh.mem (s.workers n).pending) + numsOf s.sh.mem w'.pending =
      (∑ m in Finset.range cfg.W, numsOf s.sh.mem (s.workers m).pending + numsOf mem' w'.pending)
        + numsOf s.sh.mem w'.pending := by
    calc _ = (∑ m in Finset.range cfg.W, numsOf mem' ((s.setWorker n w').workers m).pending
              + numsOf s.sh.mem w'.pending) + numsOf s.sh.mem (s.workers n).pending := by abel
      _ = (∑ m in Finset.range cfg.W, numsOf s.sh.mem ((s.setWorker n w').workers m).pending
              + numsOf s.sh.mem (s.workers n).pending) + numsOf mem' w'.pending := by rw [e]; abel
      _ = _ := by rw [hsum]; abel
  exact add_right_cancel e2

theorem QInv.step_gAdvance {cfg : Config} {s s' : State} {l : List Nat} {n : Nat}
    (h : QInv cfg s l) (hl : LockInv s) (hc : CtlInv cfg s)
    (hpc : (s.workers n).pc = .gAdvance)
    (hs : stepWorker s n = some s') : ∃ a l', l = a :: l' ∧ QInv cfg s' l' ∧ s'.fault = s.fault := by
  have hnW : n < cfg.W := hc.worker_lt (by rw [hpc]; simp)
  obtain ⟨ho, hd⟩ := hl.owner_of_pos (t := .worker n) (by simp [State.depthOf, hpc, WPc.depth])
  have hw := (window_worker ho).1 h.window_ok
  simp only [windowWorker, hpc] at hw
  obtain ⟨⟨htl, hnum⟩, hpos, hg⟩ := hw
  obtain ⟨h1, h2, h3, h4, h5, h6, h7, h8, h9⟩ := h
  cases l with
  | nil => simp [hnum] at hpos
  | cons a l' =>
    obtain ⟨hhd, j, hj, hch⟩ := (chain_cons _ _ _ _).1 h1
    have hnd := List.nodup_cons.1 (chain_nodup h1)
    unfold stepWorker at hs
    simp only [hpc, hg, hhd, hj] at hs
    cases hs
    have hw : ∀ m, m ≠ n → (if m = n then
        ({ s.workers n with pc := WPc.gHeadNull } : WorkerState) else s.workers m) = s.workers m := by
      intro m hm; simp [hm]
    have hheldn : (s.workers n).held = none := by simp [WorkerState.held, hpc]
    refine ⟨a, l', rfl, ⟨hch, ?_, ?_, ?_, ?_, ?_, h7, ?_, ?_⟩, rfl⟩
    · rw [window_worker (by exact ho)]
      simp only [windowWorker, State.setWorker_same]
      refine ⟨by simpa using hnum, ?_⟩
      intro hne
      rw [htl]
      cases l' with
      | nil => exact absurd rfl hne
      | cons b l'' => exact List.getLast?_cons_cons
    · intro m b hm
      simp only [State.setWorker_workers] at hm
      by_cases e : m = n
      · subst e
        simp only [if_true, WorkerState.held, hg, hhd, Option.some.injEq] at hm
        subst hm
        exact ⟨⟨j, hj⟩, hnd.1⟩
      · simp only [e, if_false] at hm
        obtain ⟨g1, g2⟩ := h3 m b hm
        exact ⟨g1, fun hb => g2 (List.mem_cons_of_mem _ hb)⟩
    · intro m k b hm hk
      simp only [State.setWorker_workers] at hm hk
      by_cases e : m = n
      · by_cases e' : k = n
        · rw [e, e']
        · exfalso
          simp only [e, if_true, WorkerState.held, hg, hhd, Option.some.injEq] at hm
          simp only [e', if_false] at hk
          subst hm
          exact (h3 k _ hk).2 (by simp)
      · by_cases e' : k = n
        · exfalso
          simp only [e', if_true, WorkerState.held, hg, hhd, Option.some.injEq] at hk
          simp only [e, if_false] at hm
          subst hk
          exact (h3 m _ hm).2 (by simp)
        · simp only [e, e', if_false] at hm hk
          exact h4 m k b hm hk
    · intro m hm
      simp only [State.setWorker_workers] at hm ⊢
      by_cases e : m = n
      · simp [e, WorkerState.held, hg, hhd]
      · simp only [e, if_false] at hm ⊢
        exact h5 m hm
    · intro b hb
      obtain ⟨g1, g2, g3⟩ := h6 b hb
      refine ⟨fun hb' => g1 (List.mem_cons_of_mem _ hb'), ?_, g3⟩
      intro m
      simp only [State.setWorker_workers]
      by_cases e : m = n
      · simp only [e, if_true, WorkerState.held, hg, hhd, ne_eq, Option.some.injEq]
        intro e'; subst e'; exact g1 (by simp)
      · simp only [e, if_false]; exact g2 m
    · intro m hm
      simp only [State.setWorker_workers] at hm
      by_cases e : m = n
      · simp [e, WPc.exiting] at hm
      · simp only [e, if_false] at hm
        exact h8 m hm
    · have hp := pendingNums_setWorker hnW
        ⟨WPc.gHeadNull, (s.workers n).new_job, some a⟩ s.sh.mem
        ({ (s.setWorker n ⟨WPc.gHeadNull, (s.workers n).new_job, some a⟩) with
            sh := { s.sh with head := j.link } }) rfl rfl (fun _ _ => rfl)
      have e1 : numsOf s.sh.mem (s.workers n).pending = 0 := by
        simp [WorkerState.pending, hpc, numsOf_none]
      have e2 : numsOf s.sh.mem
          (⟨WPc.gHeadNull, (s.workers n).new_job, some a⟩ : WorkerState).pending = {j.num} := by
        simp [WorkerState.pending, numsOf_some hj]
      rw [e1, e2, add_zero] at hp
      have e3 : (nums s.sh.mem (a :: l') : Multiset Int) = {j.num} + (nums s.sh.mem l' : Multiset Int) := by
        simp [nums, hj]
      have key : ∀ P : Multiset Int, P = pendingNums cfg s + {j.num} →
          (nums s.sh.mem l' : Multiset Int) + P + handledNums s.out =
            enqueuedIds (s.main.enqueued cfg) := by
        intro P hP
        rw [hP, ← h9, e3]
        abel
      exact key _ hp

theorem MainState.freshOK_congr {M : MainState} {mem mem' : Heap} {a : Nat}
    (h : mem' a = mem a) (hok : M.freshOK mem a) : M.freshOK mem' a := by
  unfold MainState.freshOK at hok ⊢
  rw [h]; exact hok

theorem QInv.step_free {cfg : Config} {s s' : State} {l : List Nat} {n : Nat}
    (h : QInv cfg s l) (hl : LockInv s) (hc : CtlInv cfg s)
    (hpc : (s.workers n).pc = .free)
    (hs : stepWorker s n = some s') : QInv cfg s' l ∧ s'.fault = s.fault := by
  have hnW : n < cfg.W := hc.worker_lt (by rw [hpc]; simp)
  have hno : s.mutex.owner ≠ some (.worker n) :=
    hl.not_owner (t := .worker n) (by simp [State.depthOf, hpc, WPc.depth])
  have hne := h.holds_some n (by rw [hpc]; rfl)
  simp only [WorkerState.held, hpc] at hne
  obtain ⟨a, ha⟩ := Option.ne_none_iff_exists'.1 hne
  have hheld : (s.workers n).held = some a := by simp [WorkerState.held, hpc, ha]
  obtain ⟨⟨j, hj⟩, hal⟩ := h.held_alloc n a hheld
  obtain ⟨h1, h2, h3, h4, h5, h6, h7, h8, h9⟩ := h
  unfold stepWorker at hs
  simp only [hpc, ha, hj] at hs
  cases hs
  refine ⟨⟨chain_free h1 hal, ?_, ?_, ?_, ?_, ?_, h7, ?_, ?_⟩, rfl⟩
  · exact window_other _ hno rfl rfl rfl rfl rfl rfl h2
  · intro m b hm
    simp only [State.setWorker_workers] at hm
    by_cases e : m = n
    · simp [e, WorkerState.held] at hm
    · simp only [e, if_false] at hm
      obtain ⟨g1, g2⟩ := h3 m b hm
      have hba : b ≠ a := by
        intro e'; subst e'; exact e (h4 m n b hm hheld)
      refine ⟨?_, g2⟩
      show ∃ j, s.sh.mem.free a b = some j
      rw [Heap.free_other _ hba]; exact g1
  · intro m k b hm hk
    simp only [State.setWorker_workers] at hm hk
    by_cases e : m = n
    · simp [e, WorkerState.held] at hm
    · by_cases e' : k = n
      · simp [e', WorkerState.held] at hk
      · simp only [e, e', if_false] at hm hk
        exact h4 m k b hm hk
  · intro m hm
    simp only [State.setWorker_workers] at hm ⊢
    by_cases e : m = n
    · simp [e, WPc.holds] at hm
    · simp only [e, if_false] at hm ⊢
      exact h5 m hm
  · intro b hb
    obtain ⟨g1, g2, g3⟩ := h6 b hb
    have hba : b ≠ a := by
      intro e'; subst e'; exact g2 n hheld
    refine ⟨g1, ?_, MainState.freshOK_congr (Heap.free_other _ hba) g3⟩
    intro m
    simp only [State.setWorker_workers]
    by_cases e : m = n
    · simp [e, WorkerState.held]
    · simp only [e, if_false]; exact g2 m
  · intro m hm
    simp only [State.setWorker_workers] at hm
    by_cases e : m = n
    · simp [e, WPc.exiting] at hm
    · simp only [e, if_false] at hm
      exact h8 m hm
  · have hp := pendingNums_setWorker hnW
      ⟨WPc.relock, some a, (s.workers n).g_new_job⟩ (s.sh.mem.free a)
      ({ (s.setWorker n ⟨WPc.relock, some a, (s.workers n).g_new_job⟩) with
          sh := { s.sh with mem := s.sh.mem.free a } }) rfl rfl (by
        intro m hm
        refine numsOf_congr ?_
        intro b hb
        have hb' := WorkerState.held_of_pending hb
        have hba : b ≠ a := by
          intro e'; subst e'; exact hm (h4 m n b hb' hheld)
        exact Heap.free_other _ hba)
    have e1 : numsOf s.sh.mem (s.workers n).pending = 0 := by
      simp [WorkerState.pending, hpc, numsOf_none]
    have e2 : numsOf (s.sh.mem.free a)
        (⟨WPc.relock, some a, (s.workers n).g_new_job⟩ : WorkerState).pending = 0 := by
      simp [WorkerState.pending, numsOf_none]
    rw [e1, e2, add_zero, add_zero] at hp
    have key : ∀ P : Multiset Int, P = pendingNums cfg s →
        (nums (s.sh.mem.free a) l : Multiset Int) + P + handledNums s.out =
          enqueuedIds (s.main.enqueued cfg) := by
      intro P hP
      rw [hP, ← h9, nums_free hal]
    exact key _ hp

/-- Every statement of a worker keeps the queue invariant, for the list of
nodes left in the queue. -/
theorem QInv.step_worker_queue {cfg : Config} {s s' : State} {l : List Nat} {n : Nat}
    (h : QInv cfg s l) (hl : LockInv s) (hc : CtlInv cfg s)
    (hs : stepWorker s n = some s') : ∃ l', QInv cfg s' l' := by
  by_cases h1 : (s.workers n).pc = .gAdvance
  · obtain ⟨a, l', _, h', _⟩ := h.step_gAdvance hl hc h1 hs
    exact ⟨l', h'⟩
  by_cases h2 : (s.workers n).pc = .gTailNull
  · exact ⟨l, h.step_gTailNull hl hc h2 hs⟩
  by_cases h3 : (s.workers n).pc = .gDec
  · exact ⟨l, h.step_gDec hl hc h3 hs⟩
  by_cases h4 : (s.workers n).pc = .free
  · exact ⟨l, (h.step_free hl hc h4 hs).1⟩
  exact ⟨l, h.step_worker_local hl hc ⟨h1, h2, h3, h4⟩ hs⟩

theorem pendingNums_congr {cfg : Config} {s s' : State}
    (h : ∀ m, numsOf s'.sh.mem (s'.workers m).pending = numsOf s.sh.mem (s.workers m).pending) :
    pendingNums cfg s' = pendingNums cfg s := by
  unfold pendingNums
  exact Finset.sum_congr rfl (fun m _ => h m)

/-- A statement of `main` while it does not own the mutex, leaving `head`,
`tail`, `num_jobs`, the mutex and the worker that owns the mutex as they are,
keeps the window. -/
theorem window_other_main' {s s' : State} {l : List Nat}
    (hno : s.mutex.owner ≠ some .main)
    (hhead : s'.sh.head = s.sh.head) (htail : s'.sh.tail = s.sh.tail)
    (hnum : s'.sh.num_jobs = s.sh.num_jobs) (hmu : s'.mutex = s.mutex)
    (hws : ∀ m, s.mutex.owner = some (.worker m) → s'.workers m = s.workers m)
    (h : window s l) : window s' l := by
  unfold window at h ⊢
  rw [hmu]
  cases ho : s.mutex.owner with
  | none => simpa [ho, canonical, htail, hnum] using h
  | some t =>
    cases t with
    | main => exact absurd ho hno
    | worker m =>
      simp only [ho] at h ⊢
      unfold windowWorker canonical at h ⊢
      rw [hhead, htail, hnum, hws m ho]; exact h

/-- The effect on the queue invariant of a statement of `main` that leaves
the heap, `head`, the nodes of the workers and the output as they are. -/
theorem QInv.main_frame {cfg : Config} {s s' : State} {l : List Nat} (h : QInv cfg s l)
    (hmem : s'.sh.mem = s.sh.mem) (hhead : s'.sh.head = s.sh.head)
    (hheld : ∀ m, (s'.workers m).held = (s.workers m).held)
    (hpend : ∀ m, (s'.workers m).pending = (s.workers m).pending)
    (hholds : ∀ m, (s'.workers m).pc.holds = true → (s.workers m).pc.holds = true)
    (hout : handledNums s'.out = handledNums s.out)
    (hwin : window s' l)
    (hfresh : ∀ a, s'.main.fresh = some a →
      s.main.fresh = some a ∧ (s.main.freshOK s.sh.mem a → s'.main.freshOK s.sh.mem a))
    (hfs : s'.main.pc.hasFresh = true → s'.main.new_job ≠ none)
    (hexit : ∀ m, (s'.workers m).pc.exiting = true → s'.sh.num_jobs = 0 ∧ s'.sh.finished = 1)
    (henq : s'.main.enqueued cfg = s.main.enqueued cfg) : QInv cfg s' l := by
  obtain ⟨h1, h2, h3, h4, h5, h6, h7, h8, h9⟩ := h
  refine ⟨?_, hwin, ?_, ?_, ?_, ?_, hfs, hexit, ?_⟩
  · rw [hmem, hhead]; exact h1
  · intro m a hm
    rw [hheld] at hm; rw [hmem]; exact h3 m a hm
  · intro m k a hm hk
    rw [hheld] at hm hk; exact h4 m k a hm hk
  · intro m hm
    rw [hheld]; exact h5 m (hholds m hm)
  · intro a ha
    obtain ⟨g0, g4⟩ := hfresh a ha
    obtain ⟨g1, g2, g3⟩ := h6 a g0
    refine ⟨g1, ?_, by rw [hmem]; exact g4 g3⟩
    intro m; rw [hheld]; exact g2 m
  · rw [henq, ← h9, hmem, hout]
    have : pendingNums cfg s' = pendingNums cfg s :=
      pendingNums_congr (fun m => by rw [hmem, hpend])
    rw [this]

theorem QInv.step_main_local {cfg : Config} {s s' : State} {l : List Nat} {c : Option Nat}
    (h : QInv cfg s l) (hl : LockInv s) (hc : CtlInv cfg s)
    (hpcs : s.main.pc ≠ .aMalloc ∧ s.main.pc ≠ .aNum ∧ s.main.pc ≠ .aLink ∧
      s.main.pc ≠ .aHead ∧ s.main.pc ≠ .aLinkTail)
    (hs : stepMain cfg s c = some s') : QInv cfg s' l := by
  have hown : 0 < s.main.pc.depth → s.mutex.owner = some .main ∧
      s.mutex.depth = s.main.pc.depth := fun hd => hl.owner_of_pos (t := .main) hd
  have hnown : s.main.pc.depth = 0 → s.mutex.owner ≠ some .main :=
    fun hd => hl.not_owner (t := .main) hd
  have hwin := h.window_ok
  have hex := h.exit_done
  have hfs := h.fresh_some
  unfold stepMain at hs
  cases hpc : s.main.pc <;> simp only [hpc] at hs
  case aMalloc => exact absurd hpc hpcs.1
  case aNum => exact absurd hpc hpcs.2.1
  case aLink => exact absurd hpc hpcs.2.2.1
  case aHead => exact absurd hpc hpcs.2.2.2.1
  case aLinkTail => exact absurd hpc hpcs.2.2.2.2
  case done => cases hs
  case create =>
    have hno := hnown (by rw [hpc]; rfl)
    have hnc : (s.workers s.main.i).pc = .notCreated := by
      by_contra hne
      have := (hc.created s.main.i).1 hne
      simp [hpc] at this
    split at hs <;> cases hs
    · refine h.main_frame rfl rfl ?_ ?_ ?_ rfl ?_ ?_ ?_ ?_ ?_
      · intro m
        simp only [State.setWorker_workers]
        split
        · rename_i e; subst e; simp [WorkerState.held, hnc]
        · rfl
      · intro m
        simp only [State.setWorker_workers]
        split
        · rename_i e; subst e; simp [WorkerState.pending, hnc]
        · rfl
      · intro m
        simp only [State.setWorker_workers]
        split
        · simp [WPc.holds]
        · exact id
      · refine window_other_main' hno rfl rfl rfl rfl ?_ hwin
        intro m hm
        have hd := (hl.1 _ hm)
        simp only [State.setWorker_workers]
        split
        · rename_i e; subst e
          simp [State.depthOf, hnc, WPc.depth] at hd
          omega
        · rfl
      · simp [MainState.fresh, MainState.freshOK, hpc]
      · simp [MPc.hasFresh, hpc]
      · intro m
        simp only [State.setWorker_workers]
        split
        · simp [WPc.exiting]
        · exact hex m
      · simp [MainState.enqueued, hpc]
    · refine h.main_frame rfl rfl (fun _ => rfl) (fun _ => rfl) (fun _ h => h) rfl ?_ ?_ ?_ ?_ ?_
      · exact window_other_main hno rfl rfl rfl rfl rfl hwin
      · simp [MainState.fresh, MainState.freshOK, hpc]
      · simp [MPc.hasFresh]
      · exact hex
      · simp [MainState.enqueued, hpc]
  case loop =>
    have hno := hnown (by rw [hpc]; rfl)
    have hle := hc.loop_le hpc
    split at hs <;> cases hs
    · refine h.main_frame rfl rfl (fun _ => rfl) (fun _ => rfl) (fun _ h => h) rfl ?_ ?_ ?_ ?_ ?_
      · exact window_other_main hno rfl rfl rfl rfl rfl hwin
      · simp [MainState.fresh, MainState.freshOK, hpc]
      · simp [MPc.hasFresh]
      · exact hex
      · simp [MainState.enqueued, hpc]
    · rename_i hge
      refine h.main_frame rfl rfl (fun _ => rfl) (fun _ => rfl) (fun _ h => h) rfl ?_ ?_ ?_ ?_ ?_
      · exact window_other_main hno rfl rfl rfl rfl rfl hwin
      · simp [MainState.fresh, MainState.freshOK, hpc]
      · simp [MPc.hasFresh]
      · exact hex
      · simp [MainState.enqueued, hpc]; omega
  case aLock =>
    have hno := hnown (by rw [hpc]; rfl)
    split at hs
    · cases hs
    · rename_i m hm
      cases hs
      obtain ⟨ho, rfl⟩ := lock_of_not_owner hm hno
      refine h.main_frame rfl rfl (fun _ => rfl) (fun _ => rfl) (fun _ h => h) rfl ?_ ?_ ?_ ?_ ?_
      · have := (window_none ho).1 hwin
        simpa [window, windowMain] using this
      · simp [MainState.fresh, MainState.freshOK, hpc]
      · intro _; exact hfs (by rw [hpc]; rfl)
      · exact hex
      · simp [MainState.enqueued, hpc]
  case mLock =>
    have hno := hnown (by rw [hpc]; rfl)
    split at hs
    · cases hs
    · rename_i m hm
      cases hs
      obtain ⟨ho, rfl⟩ := lock_of_not_owner hm hno
      refine h.main_frame rfl rfl (fun _ => rfl) (fun _ => rfl) (fun _ h => h) rfl ?_ ?_ ?_ ?_ ?_
      · have := (window_none ho).1 hwin
        simpa [window, windowMain] using this
      · simp [MainState.fresh, MainState.freshOK, hpc]
      · simp [MPc.hasFresh]
      · exact hex
      · simp [MainState.enqueued, hpc]
  case aTest =>
    obtain ⟨ho, hd⟩ := hown (by rw [hpc]; decide)
    have hw := (window_main ho).1 hwin
    simp only [windowMain, hpc] at hw
    split at hs <;> cases hs
    · rename_i h0
      refine h.main_frame rfl rfl (fun _ => rfl) (fun _ => rfl) (fun _ h => h) rfl ?_ ?_ ?_ ?_ ?_
      · rw [window_main (by exact ho)]
        simpa [windowMain] using ⟨hw, h0⟩
      · simp [MainState.fresh, MainState.freshOK, hpc]
      · intro _; exact hfs (by rw [hpc]; rfl)
      · exact hex
      · simp [MainState.enqueued, hpc]
    · rename_i h0
      refine h.main_frame rfl rfl (fun _ => rfl) (fun _ => rfl) (fun _ h => h) rfl ?_ ?_ ?_ ?_ ?_
      · rw [window_main (by exact ho)]
        simpa [windowMain] using ⟨hw, h0⟩
      · simp [MainState.fresh, MainState.freshOK, hpc]
      · intro _; exact hfs (by rw [hpc]; rfl)
      · exact hex
      · simp [MainState.enqueued, hpc]
  case aTail =>
    obtain ⟨ho, hd⟩ := hown (by rw [hpc]; decide)
    have hw := (window_main ho).1 hwin
    simp only [windowMain, hpc] at hw
    cases hs
    refine h.main_frame rfl rfl (fun _ => rfl) (fun _ => rfl) (fun _ h => h) rfl ?_ ?_ ?_ ?_ ?_
    · rw [window_main (by exact ho)]
      simp only [windowMain]
      exact ⟨by rw [hw.1, hw.2.1]; rfl, hw.2.2.symm⟩
    · simp [MainState.fresh, MainState.freshOK, hpc]
    · simp [MPc.hasFresh]
    · exact hex
    · simp [MainState.enqueued, hpc]
  case aTail2 =>
    obtain ⟨ho, hd⟩ := hown (by rw [hpc]; decide)
    have hw := (window_main ho).1 hwin
    simp only [windowMain, hpc] at hw
    cases hs
    refine h.main_frame rfl rfl (fun _ => rfl) (fun _ => rfl) (fun _ h => h) rfl ?_ ?_ ?_ ?_ ?_
    · rw [window_main (by exact ho)]
      simp only [windowMain]
      exact ⟨hw.1, hw.2.symm⟩
    · simp [MainState.fresh, MainState.freshOK, hpc]
    · simp [MPc.hasFresh]
    · exact hex
    · simp [MainState.enqueued, hpc]
  case aInc =>
    obtain ⟨ho, hd⟩ := hown (by rw [hpc]; decide)
    have hw := (window_main ho).1 hwin
    simp only [windowMain, hpc] at hw
    have hf0 : s.sh.finished = 0 := by
      have := hc.finished_eq
      simpa [hpc, MPc.afterFinished] using this
    split at hs <;> cases hs
    · exact h.crash_queue _
    · refine h.main_frame rfl rfl (fun _ => rfl) (fun _ => rfl) (fun _ h => h) rfl ?_ ?_ ?_ ?_ ?_
      · rw [window_main (by exact ho)]
        simp only [windowMain, canonical]
        exact ⟨hw.2, hw.1⟩
      · simp [MainState.fresh, MainState.freshOK, hpc]
      · simp [MPc.hasFresh]
      · intro m hm
        have := (hex m hm).2
        rw [hf0] at this
        cases this
      · simp [MainState.enqueued, hpc]
  case aUnlock =>
    obtain ⟨ho, hd⟩ := hown (by rw [hpc]; decide)
    have hw := (window_main ho).1 hwin
    simp only [windowMain, hpc] at hw
    cases hs
    have hu := unlock_of_owner ho
    simp only [hd, hpc, MPc.depth] at hu
    refine h.main_frame rfl rfl (fun _ => rfl) (fun _ => rfl) (fun _ h => h) rfl ?_ ?_ ?_ ?_ ?_
    · simp only [window, hu]
      exact hw
    · simp [MainState.fresh, MainState.freshOK, hpc]
    · simp [MPc.hasFresh]
    · exact hex
    · simp [MainState.enqueued, hpc]
  case mUnlock =>
    obtain ⟨ho, hd⟩ := hown (by rw [hpc]; decide)
    have hw := (window_main ho).1 hwin
    simp only [windowMain, hpc] at hw
    cases hs
    have hu := unlock_of_owner ho
    simp only [hd, hpc, MPc.depth] at hu
    refine h.main_frame rfl rfl (fun _ => rfl) (fun _ => rfl) (fun _ h => h) rfl ?_ ?_ ?_ ?_ ?_
    · simp only [window, hu]
      exact hw
    · simp [MainState.fresh, MainState.freshOK, hpc]
    · simp [MPc.hasFresh]
    · exact hex
    · simp [MainState.enqueued, hpc]
  case aSignal =>
    have hno := hnown (by rw [hpc]; rfl)
    split at hs
    · split at hs
      · cases hs
        rename_i k hk
        refine h.main_frame rfl rfl ?_ ?_ ?_ rfl ?_ ?_ ?_ ?_ ?_
        · intro m
          simp only [State.setWorker_workers]
          split
          · rename_i e; subst e; simp [WorkerState.held, hk]
          · rfl
        · intro m
          simp only [State.setWorker_workers]
          split
          · rename_i e; subst e; simp [WorkerState.pending, hk]
          · rfl
        · intro m
          simp only [State.setWorker_workers]
          split
          · simp [WPc.holds]
          · exact id
        · refine window_other_main' hno rfl rfl rfl rfl ?_ hwin
          intro m hm
          have hd := (hl.1 _ hm)
          simp only [State.setWorker_workers]
          split
          · rename_i e; subst e
            simp [State.depthOf, hk, WPc.depth] at hd
            omega
          · rfl
        · simp [MainState.fresh, MainState.freshOK, hpc]
        · simp [MPc.hasFresh, hpc]
        · intro m
          simp only [State.setWorker_workers]
          split
          · simp [WPc.exiting]
          · exact hex m
        · simp [MainState.enqueued, hpc]
      · cases hs
    · split at hs
      · cases hs
        refine h.main_frame rfl rfl (fun _ => rfl) (fun _ => rfl) (fun _ h => h) rfl ?_ ?_ ?_ ?_ ?_
        · exact window_other_main hno rfl rfl rfl rfl rfl hwin
        · simp [MainState.fresh, MainState.freshOK, hpc]
        · simp [MPc.hasFresh]
        · exact hex
        · simp [MainState.enqueued, hpc]
      · cases hs
  case rand =>
    have hno := hnown (by rw [hpc]; rfl)
    cases hs
    refine h.main_frame rfl rfl (fun _ => rfl) (fun _ => rfl) (fun _ h => h) rfl ?_ ?_ ?_ ?_ ?_
    · exact window_other_main hno rfl rfl rfl rfl rfl hwin
    · simp [MainState.fresh, MainState.freshOK, hpc]
    · simp [MPc.hasFresh]
    · exact hex
    · simp [MainState.enqueued, hpc]
  case setFinished =>
    obtain ⟨ho, hd⟩ := hown (by rw [hpc]; decide)
    have hw := (window_main ho).1 hwin
    simp only [windowMain, hpc] at hw
    cases hs
    refine h.main_frame rfl rfl (fun _ => rfl) (fun _ => rfl) (fun _ h => h) rfl ?_ ?_ ?_ ?_ ?_
    · rw [window_main (by exact ho)]
      simpa [windowMain, canonical] using hw
    · simp [MainState.fresh, MainState.freshOK, hpc]
    · simp [MPc.hasFresh]
    · intro m hm
      exact ⟨(hex m hm).1, rfl⟩
    · simp [MainState.enqueued, hpc]
  case broadcast =>
    obtain ⟨ho, hd⟩ := hown (by rw [hpc]; decide)
    have hw := (window_main ho).1 hwin
    simp only [windowMain, hpc] at hw
    cases hs
    refine h.main_frame rfl rfl ?_ ?_ ?_ rfl ?_ ?_ ?_ ?_ ?_
    · intro m
      simp only
      split
      · rename_i e; simp [WorkerState.held, e]
      · rfl
    · intro m
      simp only
      split
      · rename_i e; simp [WorkerState.pending, e]
      · rfl
    · intro m
      simp only
      split
      · simp [WPc.holds]
      · exact id
    · rw [window_main (by exact ho)]
      simpa [windowMain, canonical] using hw
    · simp [MainState.fresh, MainState.freshOK, hpc]
    · simp [MPc.hasFresh]
    · intro m
      simp only
      split
      · simp [WPc.exiting]
      · exact hex m
    · simp [MainState.enqueued, hpc]
  case join =>
    have hno := hnown (by rw [hpc]; rfl)
    split at hs
    · split at hs <;> cases hs
      refine h.main_frame rfl rfl (fun _ => rfl) (fun _ => rfl) (fun _ h => h) rfl ?_ ?_ ?_ ?_ ?_
      · exact window_other_main hno rfl rfl rfl rfl rfl hwin
      · simp [MainState.fresh, MainState.freshOK, hpc]
      · simp [MPc.hasFresh, hpc]
      · exact hex
      · simp [MainState.enqueued, hpc]
    · cases hs
      refine h.main_frame rfl rfl (fun _ => rfl) (fun _ => rfl) (fun _ h => h) rfl ?_ ?_ ?_ ?_ ?_
      · exact window_other_main hno rfl rfl rfl rfl rfl hwin
      · simp [MainState.fresh, MainState.freshOK, hpc]
      · simp [MPc.hasFresh]
      · exact hex
      · simp [MainState.enqueued, hpc]
  case print =>
    have hno := hnown (by rw [hpc]; rfl)
    cases hs
    refine h.main_frame rfl rfl (fun _ => rfl) (fun _ => rfl) (fun _ h => h) ?_ ?_ ?_ ?_ ?_ ?_
    · simp [handledNums, List.filterMap_append]
    · exact window_other_main hno rfl rfl rfl rfl rfl hwin
    · simp [MainState.fresh, MainState.freshOK, hpc]
    · simp [MPc.hasFresh]
    · exact hex
    · simp [MainState.enqueued, hpc]

theorem enqueuedIds_succ (n : Nat) : enqueuedIds (n + 1) = enqueuedIds n + {(n : Int)} := by
  unfold enqueuedIds
  rw [List.range_succ, List.map_append, ← Multiset.coe_add]
  rfl

/-- A store by `main` into its own node, not yet linked, while `main` does
not own the mutex. -/
theorem QInv.main_store {cfg : Config} {s s' : State} {l : List Nat} (h : QInv cfg s l)
    (a : Nat) (j' : job) (hal : a ∉ l) (hah : ∀ m, (s.workers m).held ≠ some a)
    (hno : s.mutex.owner ≠ some .main)
    (hmem : s'.sh.mem = s.sh.mem.store a j') (hhead : s'.sh.head = s.sh.head)
    (htail : s'.sh.tail = s.sh.tail) (hnum : s'.sh.num_jobs = s.sh.num_jobs)
    (hfin : s'.sh.finished = s.sh.finished)
    (hmu : s'.mutex = s.mutex) (hws : s'.workers = s.workers) (hout : s'.out = s.out)
    (hfresh : s'.main.fresh = some a) (hok : s'.main.freshOK (s.sh.mem.store a j') a)
    (hfs : s'.main.pc.hasFresh = true → s'.main.new_job ≠ none)
    (henq : s'.main.enqueued cfg = s.main.enqueued cfg) : QInv cfg s' l := by
  obtain ⟨h1, h2, h3, h4, h5, h6, h7, h8, h9⟩ := h
  refine ⟨?_, ?_, ?_, ?_, ?_, ?_, hfs, ?_, ?_⟩
  · rw [hmem, hhead]; exact chain_store h1 hal _
  · exact window_other_main hno hhead htail hnum hmu hws h2
  · intro m b hm
    rw [hws] at hm
    obtain ⟨g1, g2⟩ := h3 m b hm
    have hba : b ≠ a := by
      intro e; subst e; exact hah m hm
    refine ⟨?_, g2⟩
    rw [hmem, Heap.store_other _ _ hba]; exact g1
  · rw [hws]; exact h4
  · rw [hws]; exact h5
  · intro b hb
    rw [hfresh] at hb
    cases hb
    refine ⟨hal, by rw [hws]; exact hah, by rw [hmem]; exact hok⟩
  · rw [hws, hnum, hfin]; exact h8
  · rw [henq, ← h9, hmem, hout, nums_store hal]
    have : pendingNums cfg s' = pendingNums cfg s := by
      refine pendingNums_congr ?_
      intro m
      rw [hws, hmem]
      refine numsOf_congr ?_
      intro b hb
      have hba : b ≠ a := by
        intro e; subst e; exact hah m (WorkerState.held_of_pending hb)
      exact Heap.store_other _ _ hba
    rw [this]

theorem QInv.step_aMalloc {cfg : Config} {s s' : State} {l : List Nat} {c : Option Nat}
    (h : QInv cfg s l) (hl : LockInv s) (hpc : s.main.pc = .aMalloc)
    (hs : stepMain cfg s c = some s') : QInv cfg s' l := by
  have hno : s.mutex.owner ≠ some .main :=
    hl.not_owner (t := .main) (by simp [State.depthOf, hpc, MPc.depth])
  unfold stepMain at hs
  simp only [hpc] at hs
  split at hs
  · cases hs
    refine h.main_frame rfl rfl (fun _ => rfl) (fun _ => rfl) (fun _ h => h) rfl ?_ ?_ ?_ ?_ ?_
    · exact window_other_main hno rfl rfl rfl rfl rfl h.window_ok
    · simp [MainState.fresh, MainState.freshOK, hpc]
    · simp [MPc.hasFresh]
    · exact h.exit_done
    · simp [MainState.enqueued, hpc]
  · rename_i a
    split at hs
    · cases hs
    · rename_i hnone
      cases hs
      refine h.main_store a _ (chain_fresh h.chain_ok hnone) ?_ hno rfl rfl rfl rfl rfl rfl rfl rfl
        ?_ ?_ ?_ ?_
      · intro m hm
        obtain ⟨⟨j, hj⟩, _⟩ := h.held_alloc m a hm
        rw [hnone] at hj; cases hj
      · simp [MainState.fresh]
      · simp [MainState.freshOK, Heap.store_same]
      · simp [MPc.hasFresh]
      · simp [MainState.enqueued, hpc]

theorem QInv.step_aNum {cfg : Config} {s s' : State} {l : List Nat} {c : Option Nat}
    (h : QInv cfg s l) (hl : LockInv s) (hpc : s.main.pc = .aNum)
    (hs : stepMain cfg s c = some s') : QInv cfg s' l := by
  have hno : s.mutex.owner ≠ some .main :=
    hl.not_owner (t := .main) (by simp [State.depthOf, hpc, MPc.depth])
  unfold stepMain at hs
  simp only [hpc] at hs
  split at hs
  · cases hs; exact h.crash_queue _
  · rename_i a ha
    obtain ⟨g1, g2, g3⟩ := h.fresh_node a (by simp [MainState.fresh, hpc, ha])
    split at hs
    · cases hs; exact h.crash_queue _
    · rename_i j hj
      cases hs
      refine h.main_store a _ g1 g2 hno rfl rfl rfl rfl rfl rfl rfl rfl ?_ ?_ ?_ ?_
      · simp [MainState.fresh, ha]
      · simp [MainState.freshOK, Heap.store_same]
      · simp [MPc.hasFresh, ha]
      · simp [MainState.enqueued, hpc]

theorem QInv.step_aLink {cfg : Config} {s s' : State} {l : List Nat} {c : Option Nat}
    (h : QInv cfg s l) (hl : LockInv s) (hpc : s.main.pc = .aLink)
    (hs : stepMain cfg s c = some s') : QInv cfg s' l := by
  have hno : s.mutex.owner ≠ some .main :=
    hl.not_owner (t := .main) (by simp [State.depthOf, hpc, MPc.depth])
  unfold stepMain at hs
  simp only [hpc] at hs
  split at hs
  · cases hs; exact h.crash_queue _
  · rename_i a ha
    obtain ⟨g1, g2, g3⟩ := h.fresh_node a (by simp [MainState.fresh, hpc, ha])
    simp only [MainState.freshOK, hpc] at g3
    obtain ⟨j0, hj0, hnum0⟩ := g3
    split at hs
    · cases hs; exact h.crash_queue _
    · rename_i j hj
      cases hs
      have hjj : j = j0 := by rw [hj0] at hj; cases hj; rfl
      refine h.main_store a _ g1 g2 hno rfl rfl rfl rfl rfl rfl rfl rfl ?_ ?_ ?_ ?_
      · simp [MainState.fresh, ha]
      · simp [MainState.freshOK, Heap.store_same, hjj, hnum0]
      · simp [MPc.hasFresh, ha]
      · simp [MainState.enqueued, hpc]

theorem QInv.step_aHead {cfg : Config} {s s' : State} {l : List Nat} {c : Option Nat}
    (h : QInv cfg s l) (hl : LockInv s) (hpc : s.main.pc = .aHead)
    (hs : stepMain cfg s c = some s') :
    ∃ a, l = [] ∧ s.main.new_job = some a ∧ QInv cfg s' [a] ∧ s'.fault = s.fault := by
  obtain ⟨ho, hd⟩ := hl.owner_of_pos (t := .main) (by simp [State.depthOf, hpc, MPc.depth])
  have hw := (window_main ho).1 h.window_ok
  simp only [windowMain, hpc, canonical] at hw
  obtain ⟨⟨htl, hnum⟩, h0⟩ := hw
  have hl0 : l = [] := by
    rw [h0] at hnum
    exact List.length_eq_zero.1 (by exact_mod_cast hnum.symm)
  subst hl0
  have hne := h.fresh_some (by rw [hpc]; rfl)
  obtain ⟨a, ha⟩ := Option.ne_none_iff_exists'.1 hne
  obtain ⟨g1, g2, g3⟩ := h.fresh_node a (by simp [MainState.fresh, hpc, ha])
  simp only [MainState.freshOK, hpc] at g3
  obtain ⟨h1, h2, h3, h4, h5, h6, h7, h8, h9⟩ := h
  unfold stepMain at hs
  simp only [hpc] at hs
  cases hs
  refine ⟨a, rfl, ha, ⟨?_, ?_, ?_, h4, h5, ?_, ?_, h8, ?_⟩, rfl⟩
  · exact (chain_cons _ _ _ _).2 ⟨ha, _, g3, by simp [chain]⟩
  · rw [window_main (by exact ho)]
    simp [windowMain, h0, ha]
  · intro m b hm
    obtain ⟨k1, _⟩ := h3 m b hm
    refine ⟨k1, ?_⟩
    intro hb
    have : b = a := by simpa using hb
    subst this
    exact g2 m hm
  · intro b hb; simp [MainState.fresh] at hb
  · simp [MPc.hasFresh]
  · have e1 : (nums s.sh.mem [a] : Multiset Int) = {(s.main.i : Int)} := by
      simp [nums, g3]
    have e2 : (nums s.sh.mem [] : Multiset Int) = 0 := rfl
    rw [e2, zero_add] at h9
    have key : ∀ P : Multiset Int, P = pendingNums cfg s →
        (nums s.sh.mem [a] : Multiset Int) + P + handledNums s.out =
          enqueuedIds (s.main.i + 1) := by
      intro P hP
      rw [hP, enqueuedIds_succ, e1, add_assoc, h9]
      simp only [MainState.enqueued, hpc]
      abel
    exact key _ (pendingNums_congr (fun _ => rfl))

theorem QInv.step_aLinkTail {cfg : Config} {s s' : State} {l : List Nat} {c : Option Nat}
    (h : QInv cfg s l) (hl : LockInv s) (hpc : s.main.pc = .aLinkTail)
    (hs : stepMain cfg s c = some s') :
    ∃ a, s.main.new_job = some a ∧ QInv cfg s' (l ++ [a]) ∧ s'.fault = s.fault := by
  obtain ⟨ho, hd⟩ := hl.owner_of_pos (t := .main) (by simp [State.depthOf, hpc, MPc.depth])
  have hw := (window_main ho).1 h.window_ok
  simp only [windowMain, hpc, canonical] at hw
  obtain ⟨⟨htl, hnum⟩, h0⟩ := hw
  have hne := h.fresh_some (by rw [hpc]; rfl)
  obtain ⟨a, ha⟩ := Option.ne_none_iff_exists'.1 hne
  obtain ⟨g1, g2, g3⟩ := h.fresh_node a (by simp [MainState.fresh, hpc, ha])
  simp only [MainState.freshOK, hpc] at g3
  obtain ⟨h1, h2, h3, h4, h5, h6, h7, h8, h9⟩ := h
  rcases List.eq_nil_or_concat l with hl0 | ⟨l0, t, hlt⟩
  · subst hl0; exact absurd (by simpa using hnum) h0
  rw [List.concat_eq_append] at hlt
  subst hlt
  have htl' : s.sh.tail = some t := by simpa using htl
  obtain ⟨jt, hjt, _⟩ := chain_last h1
  have hta : t ≠ a := fun e => g1 (by simp [e])
  unfold stepMain at hs
  simp only [hpc, htl', hjt, ha] at hs
  cases hs
  refine ⟨a, ha, ⟨?_, ?_, ?_, h4, h5, ?_, ?_, h8, ?_⟩, rfl⟩
  · have := chain_snoc jt h1 g1 g3 rfl
    simpa using this
  · rw [window_main (by exact ho)]
    simp [windowMain, hnum, ha]
    ring
  · intro m b hm
    obtain ⟨k1, k2⟩ := h3 m b hm
    have hbt : b ≠ t := fun e => k2 (by simp [e])
    have hba : b ≠ a := by
      intro e; subst e; exact g2 m hm
    refine ⟨?_, ?_⟩
    · show ∃ j, s.sh.mem.store t _ b = some j
      rw [Heap.store_other _ _ hbt]; exact k1
    · intro hb
      rcases List.mem_append.1 hb with hb | hb
      · exact k2 hb
      · exact hba (by simpa using hb)
  · intro b hb; simp [MainState.fresh] at hb
  · simp [MPc.hasFresh]
  · have e1 : nums (s.sh.mem.store t { jt with link := some a }) (l0 ++ [t] ++ [a]) =
        nums s.sh.mem (l0 ++ [t]) ++ [(s.main.i : Int)] := by
      rw [nums_store_link _ hjt]
      simp [nums, g3]
    have hp : ∀ s₁ : State, s₁.sh.mem = s.sh.mem.store t { jt with link := some a } →
        s₁.workers = s.workers → pendingNums cfg s₁ = pendingNums cfg s := by
      intro s₁ e1 e2
      refine pendingNums_congr ?_
      intro m
      rw [e1, e2]
      refine numsOf_congr ?_
      intro b hb
      have hbt : b ≠ t := fun e => (h3 m b (WorkerState.held_of_pending hb)).2 (by simp [e])
      exact Heap.store_other _ _ hbt
    have key : ∀ P : Multiset Int, P = pendingNums cfg s →
        (nums (s.sh.mem.store t { jt with link := some a }) (l0 ++ [t] ++ [a]) : Multiset Int)
          + P + handledNums s.out = enqueuedIds (s.main.i + 1) := by
      intro P hP
      rw [hP, enqueuedIds_succ, e1, ← Multiset.coe_add, add_assoc, add_assoc]
      have : (nums s.sh.mem (l0 ++ [t]) : Multiset Int) +
          (pendingNums cfg s + handledNums s.out) = enqueuedIds s.main.i := by
        rw [← add_assoc, h9]
        simp only [MainState.enqueued, hpc]
      rw [← this]
      simp only [Multiset.coe_singleton]
      abel
    exact key _ (hp _ rfl rfl)

/-- Every statement of `main` keeps the queue invariant, for the list of
nodes then in the queue. -/
theorem QInv.step_main_queue {cfg : Config} {s s' : State} {l : List Nat} {c : Option Nat}
    (h : QInv cfg s l) (hl : LockInv s) (hc : CtlInv cfg s)
    (hs : stepMain cfg s c = some s') : ∃ l', QInv cfg s' l' := by
  by_cases h1 : s.main.pc = .aMalloc
  · exact ⟨l, h.step_aMalloc hl h1 hs⟩
  by_cases h2 : s.main.pc = .aNum
  · exact ⟨l, h.step_aNum hl h2 hs⟩
  by_cases h3 : s.main.pc = .aLink
  · exact ⟨l, h.step_aLink hl h3 hs⟩
  by_cases h4 : s.main.pc = .aHead
  · obtain ⟨a, _, _, h', _⟩ := h.step_aHead hl h4 hs
    exact ⟨_, h'⟩
  by_cases h5 : s.main.pc = .aLinkTail
  · obtain ⟨a, _, h', _⟩ := h.step_aLinkTail hl h5 hs
    exact ⟨_, h'⟩
  exact ⟨l, h.step_main_local hl hc ⟨h1, h2, h3, h4, h5⟩ hs⟩

theorem QInv.spurious_queue {cfg : Config} {s : State} {l : List Nat} {n : Nat} (h : QInv cfg s l)
    (hl : LockInv s) (hc : CtlInv cfg s) (hw : (s.workers n).pc = .waiting) :
    QInv cfg (s.setWorker n { s.workers n with pc := .woken }) l := by
  have hnW : n < cfg.W := hc.worker_lt (by rw [hw]; simp)
  have hno : s.mutex.owner ≠ some (.worker n) :=
    hl.not_owner (t := .worker n) (by simp [State.depthOf, hw, WPc.depth])
  refine h.worker_local hnW _ rfl rfl rfl ?_ ?_ ?_ ?_ ?_
  · exact window_other _ hno rfl rfl rfl rfl rfl rfl h.window_ok
  · simp [WorkerState.held, hw]
  · simp [WPc.holds]
  · simp [WPc.exiting]
  · simp [WorkerState.pending, hw]

/-! ## The invariant of the pool -/

theorem Inv.init_inv (cfg : Config) : Inv cfg State.init :=
  ⟨LockInv.init_lock, CtlInv.init_ctl cfg, [], QInv.init_queue cfg⟩

theorem Inv.step_inv {cfg : Config} {s s' : State} {a : Action} (h : Inv cfg s)
    (hs : step cfg s a = some s') : Inv cfg s' := by
  obtain ⟨hl, hc, l, hq⟩ := h
  unfold Threadpool.step at hs
  split at hs
  · cases hs
  · cases a with
    | main c =>
      simp only at hs
      have hcr : s.main.pc = .create → (s.workers s.main.i).pc = .notCreated := by
        intro hpc
        by_contra hne
        have := (hc.created s.main.i).1 hne
        simp [hpc] at this
      exact ⟨hl.step_main_lock hcr hs, hc.step_main_ctl hl hs, hq.step_main_queue hl hc hs⟩
    | worker n =>
      simp only at hs
      exact ⟨hl.step_worker_lock hs, hc.step_worker_ctl hs, hq.step_worker_queue hl hc hs⟩
    | spurious n =>
      simp only at hs
      split at hs
      · rename_i hw
        cases hs
        refine ⟨hl.spurious_lock hw, ?_, l, hq.spurious_queue hl hc hw⟩
        refine hc.worker_update n _ rfl rfl rfl ?_ ?_ ?_ ?_ ?_ <;> simp [hw]
      · cases hs

/-- Every reachable state satisfies the invariant. -/
theorem Reachable.inv {cfg : Config} {s : State} (h : Reachable cfg s) : Inv cfg s := by
  induction h with
  | init => exact Inv.init_inv cfg
  | step a _ hs ih => exact ih.step_inv hs

/-! ## Consequences of the invariant -/

theorem enqueuedIds_nodup (n : Nat) : (enqueuedIds n).Nodup := by
  unfold enqueuedIds
  rw [Multiset.coe_nodup]
  exact (List.nodup_range n).map (fun a b h => by simpa using h)

theorem canonical_nil {sh : Shared} {l : List Nat} (h : canonical sh l) (h0 : sh.num_jobs = 0) :
    l = [] := by
  have := h.2
  rw [h0] at this
  exact List.length_eq_zero.1 (by exact_mod_cast this.symm)

/-- When `finished` is set and `num_jobs` is 0 the queue has no node. -/
theorem QInv.nil_of_done {cfg : Config} {s : State} {l : List Nat} (h : QInv cfg s l)
    (hc : CtlInv cfg s) (h0 : s.sh.num_jobs = 0) (h1 : s.sh.finished = 1) : l = [] := by
  have hw := h.window_ok
  have haf : s.main.pc.afterFinished = true := by
    have := hc.finished_eq
    rw [h1] at this
    by_contra hne
    simp [hne] at this
  have hlen : (0 : Int) ≤ l.length := Int.natCast_nonneg _
  unfold window at hw
  cases ho : s.mutex.owner with
  | none =>
    simp only [ho] at hw
    exact canonical_nil hw h0
  | some t =>
    cases t with
    | main =>
      simp only [ho] at hw
      unfold windowMain at hw
      cases hpc : s.main.pc <;> simp only [hpc] at hw <;>
        simp [hpc, MPc.afterFinished] at haf <;> exact canonical_nil hw h0
    | worker m =>
      simp only [ho] at hw
      unfold windowWorker at hw
      cases hpc : (s.workers m).pc <;> simp only [hpc] at hw
      all_goals first
        | exact canonical_nil hw h0
        | exact canonical_nil hw.1 h0
        | (exfalso; omega)

theorem MainState.enqueued_of_afterFinished {cfg : Config} {M : MainState}
    (h : M.pc.afterFinished = true) : M.enqueued cfg = cfg.K := by
  unfold MainState.enqueued
  cases hpc : M.pc <;> simp [hpc, MPc.afterFinished] at h ⊢

theorem stepWorker_finished {s s' : State} {n : Nat} (hs : stepWorker s n = some s') :
    s'.sh.finished = s.sh.finished ∧ s'.main = s.main := by
  unfold stepWorker at hs
  cases hpc : (s.workers n).pc <;> simp only [hpc] at hs
  all_goals (try split at hs)
  all_goals (try split at hs)
  all_goals (try (simp only [Option.some.injEq] at hs))
  all_goals (try (cases hs))
  all_goals (exact ⟨rfl, rfl⟩)

theorem stepMain_finished {cfg : Config} {s s' : State} {c : Option Nat}
    (hs : stepMain cfg s c = some s') :
    (s.main.pc ≠ .setFinished → s'.sh.finished = s.sh.finished) ∧
    (s.main.pc = .setFinished → s'.sh.finished = 1) := by
  unfold stepMain at hs
  cases hpc : s.main.pc <;> simp only [hpc] at hs
  all_goals (try split at hs)
  all_goals (try split at hs)
  all_goals (try (simp only [Option.some.injEq] at hs))
  all_goals (try (cases hs))
  all_goals (first | exact ⟨fun _ => rfl, fun h => by cases h⟩ | exact ⟨fun h => absurd rfl h, fun _ => rfl⟩)


/-- What a step can do to the heap: nothing, one store, or one release. -/
theorem step_mem {cfg : Config} {s s' : State} {a : Action} (hs : step cfg s a = some s') :
    s'.sh.mem = s.sh.mem ∨ (∃ b j, s'.sh.mem = s.sh.mem.store b j) ∨
      (∃ b, s'.sh.mem = s.sh.mem.free b) := by
  unfold step at hs
  split at hs
  · cases hs
  · cases a with
    | main c =>
      simp only at hs
      unfold stepMain at hs
      cases hpc : s.main.pc <;> simp only [hpc] at hs
      all_goals (try split at hs)
      all_goals (try split at hs)
      all_goals (try (simp only [Option.some.injEq] at hs))
      all_goals (try (cases hs))
      all_goals first
        | exact Or.inl rfl
        | exact Or.inr (Or.inl ⟨_, _, rfl⟩)
    | worker n =>
      simp only at hs
      unfold stepWorker at hs
      cases hpc : (s.workers n).pc <;> simp only [hpc] at hs
      all_goals (try split at hs)
      all_goals (try split at hs)
      all_goals (try (simp only [Option.some.injEq] at hs))
      all_goals (try (cases hs))
      all_goals first
        | exact Or.inl rfl
        | exact Or.inr (Or.inr ⟨_, rfl⟩)
    | spurious n =>
      simp only at hs
      split at hs
      · cases hs; exact Or.inl rfl
      · cases hs

/-- In every reachable state only finitely many addresses hold a node, so
`malloc` has an address to return. -/
theorem Reachable.fresh_exists {cfg : Config} {s : State} (h : Reachable cfg s) :
    ∃ N, ∀ a, N ≤ a → s.sh.mem a = none := by
  induction h with
  | init => exact ⟨0, fun _ _ => rfl⟩
  | step a _ hs ih =>
    obtain ⟨N, hN⟩ := ih
    rcases step_mem hs with h | ⟨b, j, h⟩ | ⟨b, h⟩
    · exact ⟨N, fun a ha => by rw [h]; exact hN a ha⟩
    · refine ⟨max N (b + 1), fun a ha => ?_⟩
      have hab : a ≠ b := by omega
      rw [h, Heap.store_other _ _ hab]
      exact hN a (by omega)
    · refine ⟨N, fun a ha => ?_⟩
      rw [h]
      unfold Heap.free
      split
      · rfl
      · exact hN a ha

theorem enqueuedIds_card (n : Nat) : Multiset.card (enqueuedIds n) = n := by
  simp [enqueuedIds]

theorem QInv.length_le {cfg : Config} {s : State} {l : List Nat} (h : QInv cfg s l) :
    l.length ≤ s.main.enqueued cfg := by
  have := congrArg Multiset.card h.account
  rw [enqueuedIds_card] at this
  simp only [Multiset.card_add, Multiset.coe_card, nums, List.length_map] at this
  omega

theorem CtlInv.enqueued_le {cfg : Config} {s : State} (h : CtlInv cfg s) :
    s.main.enqueued cfg ≤ cfg.K := by
  unfold MainState.enqueued
  have h1 := h.add_lt
  have h2 := h.loop_le
  cases hpc : s.main.pc <;> simp [hpc, MPc.inAdd] at h1 h2 ⊢ <;> omega

/-- The only fault a step can raise is the `NULL` dereference at line 99 after
`malloc` has returned `NULL`, provided the job count `K` fits an `int`. -/
theorem Inv.step_fault {cfg : Config} {s s' : State} {a : Action} (h : Inv cfg s)
    (hK : (cfg.K : Int) ≤ INT_MAX) (hs : step cfg s a = some s') :
    s'.fault = none ∨ (s.main.pc = .aNum ∧ s.main.new_job = none ∧ (∃ c, a = .main c) ∧
      s' = s.crash .nullDeref) := by
  obtain ⟨hl, hc, l, hq⟩ := h
  unfold step at hs
  split at hs
  · cases hs
  rename_i hf
  cases a with
  | main c =>
    simp only at hs
    have hs0 := hs
    unfold stepMain at hs
    cases hpc : s.main.pc <;> simp only [hpc] at hs
    case aHead =>
      obtain ⟨_, _, _, _, hf'⟩ := hq.step_aHead hl hpc hs0
      exact Or.inl (hf'.trans hf)
    case aLinkTail =>
      obtain ⟨_, _, _, hf'⟩ := hq.step_aLinkTail hl hpc hs0
      exact Or.inl (hf'.trans hf)
    case aNum =>
      split at hs
      · cases hs
        rename_i hn
        exact Or.inr ⟨rfl, hn, ⟨c, rfl⟩, rfl⟩
      · rename_i b hb
        obtain ⟨_, _, g3⟩ := hq.fresh_node b (by simp [MainState.fresh, hpc, hb])
        simp only [MainState.freshOK, hpc] at g3
        obtain ⟨j, hj⟩ := g3
        simp only [hj] at hs
        cases hs
        exact Or.inl hf
    case aLink =>
      have hne := hq.fresh_some (by rw [hpc]; rfl)
      obtain ⟨b, hb⟩ := Option.ne_none_iff_exists'.1 hne
      obtain ⟨_, _, g3⟩ := hq.fresh_node b (by simp [MainState.fresh, hpc, hb])
      simp only [MainState.freshOK, hpc] at g3
      obtain ⟨j, hj, _⟩ := g3
      simp only [hb, hj] at hs
      cases hs
      exact Or.inl hf
    case aInc =>
      obtain ⟨ho, hd⟩ := hl.owner_of_pos (t := .main) (by simp [State.depthOf, hpc, MPc.depth])
      have hw := (window_main ho).1 hq.window_ok
      simp only [windowMain, hpc] at hw
      have h1 := hq.length_le
      have h2 := hc.enqueued_le
      have h3 : (l.length : Int) ≤ cfg.K := by exact_mod_cast h1.trans h2
      have hno : ¬ INT_MAX < s.sh.num_jobs + 1 := by
        rw [hw.1]; omega
      simp only [hno, if_false] at hs
      cases hs
      exact Or.inl hf
    all_goals (try split at hs)
    all_goals (try split at hs)
    all_goals (try (simp only [Option.some.injEq] at hs))
    all_goals (try (cases hs))
    all_goals (exact Or.inl hf)
  | worker n =>
    simp only at hs
    have hs0 := hs
    unfold stepWorker at hs
    cases hpc : (s.workers n).pc <;> simp only [hpc] at hs
    case gAdvance =>
      obtain ⟨_, _, _, _, hf'⟩ := hq.step_gAdvance hl hc hpc hs0
      exact Or.inl (hf'.trans hf)
    case free => exact Or.inl ((hq.step_free hl hc hpc hs0).2.trans hf)
    case work =>
      have hne := hq.holds_some n (by rw [hpc]; rfl)
      simp only [WorkerState.held, hpc] at hne
      obtain ⟨b, hb⟩ := Option.ne_none_iff_exists'.1 hne
      obtain ⟨⟨j, hj⟩, _⟩ := hq.held_alloc n b (by simp [WorkerState.held, hpc, hb])
      simp only [thread_work, hb, hj] at hs
      cases hs
      exact Or.inl hf
    all_goals (try split at hs)
    all_goals (try (simp only [Option.some.injEq] at hs))
    all_goals (try (cases hs))
    all_goals (exact Or.inl hf)
  | spurious n =>
    simp only at hs
    split at hs
    · cases hs; exact Or.inl hf
    · cases hs

/-! ## The measure decreases -/

theorem workerRank_le (cfg : Config) {s s' : State} (c : Nat)
    (h : ∀ m, m < cfg.W → (s'.workers m).pc.rank ≤ (s.workers m).pc.rank + c) :
    workerRank cfg s' ≤ workerRank cfg s + c * cfg.W := by
  unfold workerRank
  have h1 : ∑ n in Finset.range cfg.W, (s'.workers n).pc.rank ≤
      ∑ n in Finset.range cfg.W, ((s.workers n).pc.rank + c) :=
    Finset.sum_le_sum (fun m hm => h m (Finset.mem_range.1 hm))
  rw [Finset.sum_add_distrib, Finset.sum_const, Finset.card_range, smul_eq_mul] at h1
  rw [Nat.mul_comm]
  exact h1

theorem workerRank_update (cfg : Config) (s s' : State) {n : Nat} (hn : n < cfg.W)
    (h : ∀ m, m ≠ n → s'.workers m = s.workers m) :
    workerRank cfg s' + (s.workers n).pc.rank = workerRank cfg s + (s'.workers n).pc.rank := by
  unfold workerRank
  have hmem : n ∈ Finset.range cfg.W := Finset.mem_range.2 hn
  rw [← Finset.add_sum_erase _ _ hmem,
    ← Finset.add_sum_erase (Finset.range cfg.W) (fun m => (s.workers m).pc.rank) hmem]
  have : ∑ x ∈ (Finset.range cfg.W).erase n, (s'.workers x).pc.rank =
      ∑ x ∈ (Finset.range cfg.W).erase n, (s.workers x).pc.rank := by
    refine Finset.sum_congr rfl ?_
    intro m hm
    rw [h m (Finset.ne_of_mem_erase hm)]
  rw [this]
  omega

/-- The shape of a worker statement: it leaves `main` alone, and unless it
faults it leaves the other workers alone and lowers the rank of the worker,
except at line 136, where the worker takes a job, and on the branch to line
142. -/
theorem stepWorker_rank {s s' : State} {n : Nat} (hs : stepWorker s n = some s') :
    s'.main = s.main ∧ ((∃ f, s' = s.crash f) ∨
      (s'.fault = s.fault ∧ (∀ m, m ≠ n → s'.workers m = s.workers m) ∧
        ((s'.workers n).pc.rank < (s.workers n).pc.rank ∨
          ((s.workers n).pc = .gAdvance ∧ (s'.workers n).pc.rank = 15) ∨
          (s'.workers n).pc = .gNull))) := by
  unfold stepWorker at hs
  cases hpc : (s.workers n).pc <;> simp only [hpc] at hs
  all_goals (try split at hs)
  all_goals (try split at hs)
  all_goals (try (simp only [Option.some.injEq] at hs))
  all_goals (try (cases hs))
  all_goals first
    | exact ⟨rfl, Or.inl ⟨_, rfl⟩⟩
    | (refine ⟨rfl, Or.inr ⟨rfl, fun m hm => State.setWorker_other _ _ hm, ?_⟩⟩
       simp [State.setWorker_same, WPc.rank])

theorem QInv.step_worker_len {cfg : Config} {s s' : State} {l : List Nat} {n : Nat}
    (h : QInv cfg s l) (hl : LockInv s) (hc : CtlInv cfg s)
    (hs : stepWorker s n = some s') :
    ∃ l', QInv cfg s' l' ∧ (((s.workers n).pc = .gAdvance ∧ l.length = l'.length + 1) ∨
      ((s.workers n).pc ≠ .gAdvance ∧ l' = l)) := by
  by_cases h1 : (s.workers n).pc = .gAdvance
  · obtain ⟨a, l', hl', h', _⟩ := h.step_gAdvance hl hc h1 hs
    exact ⟨l', h', Or.inl ⟨h1, by rw [hl']; rfl⟩⟩
  by_cases h2 : (s.workers n).pc = .gTailNull
  · exact ⟨l, h.step_gTailNull hl hc h2 hs, Or.inr ⟨h1, rfl⟩⟩
  by_cases h3 : (s.workers n).pc = .gDec
  · exact ⟨l, h.step_gDec hl hc h3 hs, Or.inr ⟨h1, rfl⟩⟩
  by_cases h4 : (s.workers n).pc = .free
  · exact ⟨l, (h.step_free hl hc h4 hs).1, Or.inr ⟨h1, rfl⟩⟩
  exact ⟨l, h.step_worker_local hl hc ⟨h1, h2, h3, h4⟩ hs, Or.inr ⟨h1, rfl⟩⟩

theorem measure_crash {cfg : Config} (s : State) (f : Fault) (l l' : List Nat)
    (hf : s.fault = none) : measure cfg (s.crash f) l' < measure cfg s l := by
  simp [measure, State.crash, hf]

theorem QInv.not_gNull {cfg : Config} {s : State} {l : List Nat} (h : QInv cfg s l)
    (hl : LockInv s) (n : Nat) : (s.workers n).pc ≠ .gNull := by
  intro hpc
  obtain ⟨ho, _⟩ := hl.owner_of_pos (t := .worker n) (by simp [State.depthOf, hpc, WPc.depth])
  have hw := (window_worker ho).1 h.window_ok
  simp [windowWorker, hpc] at hw

/-- Every statement of a worker lowers the measure. -/
theorem measure_step_worker {cfg : Config} {s s' : State} {l : List Nat} {n : Nat}
    (h : QInv cfg s l) (hl : LockInv s) (hc : CtlInv cfg s) (hf : s.fault = none)
    (hl' : LockInv s')
    (hs : stepWorker s n = some s') :
    ∃ l', QInv cfg s' l' ∧ measure cfg s' l' < measure cfg s l := by
  obtain ⟨l', hq', hlen⟩ := h.step_worker_len hl hc hs
  refine ⟨l', hq', ?_⟩
  obtain ⟨hmain, hcr | ⟨hf', hoth, hrank⟩⟩ := stepWorker_rank hs
  · obtain ⟨f, rfl⟩ := hcr
    exact measure_crash s f l l' hf
  · have hnW : n < cfg.W := by
      apply hc.worker_lt
      intro hpc
      unfold stepWorker at hs
      simp [hpc] at hs
    have hsum := workerRank_update cfg s s' hnW hoth
    have hng := hq'.not_gNull hl' n
    have hf2 : s'.fault = none := hf'.trans hf
    simp only [measure, hf2, hf, hmain]
    generalize (6 * cfg.W + 1) * s.main.rank cfg = X
    generalize cfg.K - s.main.enqueued cfg = Y
    rcases hlen with ⟨hpc, hlen⟩ | ⟨hpc, rfl⟩
    · rcases hrank with hr | ⟨_, hr⟩ | hr
      · omega
      · have h1 : (s.workers n).pc.rank = 1 := by rw [hpc]; rfl
        omega
      · exact absurd hr hng
    · rcases hrank with hr | ⟨hr, _⟩ | hr
      · omega
      · exact absurd hr hpc
      · exact absurd hr hng

/-- The shape of a statement of `main`: unless it faults it lowers the rank
of `main`, raises the rank of no worker by more than 6, and counts one more job
as enqueued exactly at the two statements that link the new node. -/
theorem stepMain_rank {cfg : Config} {s s' : State} {c : Option Nat}
    (hs : stepMain cfg s c = some s') :
    (∃ f, s' = s.crash f) ∨
      (s'.fault = s.fault ∧ s'.main.rank cfg < s.main.rank cfg ∧
        (∀ m, (s'.workers m).pc.rank ≤ (s.workers m).pc.rank + 6) ∧
        ((s.main.pc = .aHead ∨ s.main.pc = .aLinkTail) →
          s.main.enqueued cfg = s.main.i ∧ s'.main.enqueued cfg = s.main.i + 1) ∧
        (¬ (s.main.pc = .aHead ∨ s.main.pc = .aLinkTail) →
          cfg.K - s'.main.enqueued cfg = cfg.K - s.main.enqueued cfg)) := by
  unfold stepMain at hs
  cases hpc : s.main.pc <;> simp only [hpc] at hs
  case create =>
    split at hs <;> cases hs
    · refine Or.inr ⟨rfl, ?_, ?_, ?_, ?_⟩
      · simp only [MainState.rank, hpc]; omega
      · intro m
        simp only [State.setWorker_workers]
        split
        · simp [WPc.rank]
        · exact Nat.le_add_right _ _
      · simp
      · simp [MainState.enqueued, hpc]
    · refine Or.inr ⟨rfl, ?_, fun m => Nat.le_add_right _ _, ?_, ?_⟩
      · simp only [MainState.rank, hpc]; omega
      · simp
      · simp [MainState.enqueued, hpc]
  case aSignal =>
    split at hs
    · split at hs <;> cases hs
      refine Or.inr ⟨rfl, ?_, ?_, ?_, ?_⟩
      · simp only [MainState.rank, hpc]; omega
      · intro m
        simp only [State.setWorker_workers]
        split
        · simp [WPc.rank]
        · exact Nat.le_add_right _ _
      · simp
      · simp [MainState.enqueued, hpc]
    · split at hs <;> cases hs
      refine Or.inr ⟨rfl, ?_, fun m => Nat.le_add_right _ _, ?_, ?_⟩
      · simp only [MainState.rank, hpc]; omega
      · simp
      · simp [MainState.enqueued, hpc]
  case broadcast =>
    cases hs
    refine Or.inr ⟨rfl, ?_, ?_, ?_, ?_⟩
    · simp only [MainState.rank, hpc]; omega
    · intro m
      simp only
      split
      · simp [WPc.rank]
      · exact Nat.le_add_right _ _
    · simp
    · simp [MainState.enqueued, hpc]
  case done => cases hs
  all_goals (try split at hs)
  all_goals (try split at hs)
  all_goals (try (simp only [Option.some.injEq] at hs))
  all_goals (try (cases hs))
  all_goals first
    | exact Or.inl ⟨_, rfl⟩
    | (refine Or.inr ⟨rfl, ?_, fun m => Nat.le_add_right _ _, ?_, ?_⟩
       · simp only [MainState.rank, hpc]; omega
       · simp [MainState.enqueued, hpc]
       · simp [MainState.enqueued, hpc] <;> omega)

theorem QInv.step_main_len {cfg : Config} {s s' : State} {l : List Nat} {c : Option Nat}
    (h : QInv cfg s l) (hl : LockInv s) (hc : CtlInv cfg s)
    (hs : stepMain cfg s c = some s') :
    ∃ l', QInv cfg s' l' ∧
      (((s.main.pc = .aHead ∨ s.main.pc = .aLinkTail) ∧ s'.fault = s.fault ∧
          l'.length = l.length + 1) ∨
        (¬ (s.main.pc = .aHead ∨ s.main.pc = .aLinkTail) ∧ l' = l)) := by
  by_cases h4 : s.main.pc = .aHead
  · obtain ⟨a, hl0, _, h', hf⟩ := h.step_aHead hl h4 hs
    exact ⟨_, h', Or.inl ⟨Or.inl h4, hf, by rw [hl0]; rfl⟩⟩
  by_cases h5 : s.main.pc = .aLinkTail
  · obtain ⟨a, _, h', hf⟩ := h.step_aLinkTail hl h5 hs
    exact ⟨_, h', Or.inl ⟨Or.inr h5, hf, by simp⟩⟩
  have hno : ¬ (s.main.pc = .aHead ∨ s.main.pc = .aLinkTail) := fun e => e.elim h4 h5
  by_cases h1 : s.main.pc = .aMalloc
  · exact ⟨l, h.step_aMalloc hl h1 hs, Or.inr ⟨hno, rfl⟩⟩
  by_cases h2 : s.main.pc = .aNum
  · exact ⟨l, h.step_aNum hl h2 hs, Or.inr ⟨hno, rfl⟩⟩
  by_cases h3 : s.main.pc = .aLink
  · exact ⟨l, h.step_aLink hl h3 hs, Or.inr ⟨hno, rfl⟩⟩
  exact ⟨l, h.step_main_local hl hc ⟨h1, h2, h3, h4, h5⟩ hs, Or.inr ⟨hno, rfl⟩⟩

/-- Every statement of `main` lowers the measure. -/
theorem measure_step_main {cfg : Config} {s s' : State} {l : List Nat} {c : Option Nat}
    (h : QInv cfg s l) (hl : LockInv s) (hc : CtlInv cfg s) (hf : s.fault = none)
    (hs : stepMain cfg s c = some s') :
    ∃ l', QInv cfg s' l' ∧ measure cfg s' l' < measure cfg s l := by
  obtain ⟨l', hq', hlen⟩ := h.step_main_len hl hc hs
  refine ⟨l', hq', ?_⟩
  rcases stepMain_rank hs with ⟨f, rfl⟩ | ⟨hf', hrank, hw, he1, he2⟩
  · exact measure_crash s f l l' hf
  · have hf2 : s'.fault = none := hf'.trans hf
    have hwr := workerRank_le cfg 6 (fun m _ => hw m)
    have hmul : (6 * cfg.W + 1) * s'.main.rank cfg + (6 * cfg.W + 1) ≤
        (6 * cfg.W + 1) * s.main.rank cfg := by
      have := Nat.mul_le_mul_left (6 * cfg.W + 1) (Nat.succ_le_of_lt hrank)
      rw [Nat.succ_eq_add_one, Nat.mul_add, Nat.mul_one] at this
      exact this
    simp only [measure, hf2, hf]
    generalize (6 * cfg.W + 1) * s.main.rank cfg = X at hmul ⊢
    generalize (6 * cfg.W + 1) * s'.main.rank cfg = X' at hmul ⊢
    rcases hlen with ⟨hpc, _, hlen⟩ | ⟨hpc, rfl⟩
    · obtain ⟨e1, e2⟩ := he1 hpc
      have hlt : s.main.i < cfg.K := by
        apply hc.add_lt
        rcases hpc with hpc | hpc <;> rw [hpc] <;> rfl
      rw [e1, e2, hlen]
      omega
    · have := he2 hpc
      rw [this]
      omega

/-- A spurious wakeup raises the measure by at most 6. -/
theorem measure_spurious {cfg : Config} {s : State} {l : List Nat} {n : Nat}
    (hc : CtlInv cfg s) (hw : (s.workers n).pc = .waiting) :
    measure cfg (s.setWorker n { s.workers n with pc := .woken }) l ≤ measure cfg s l + 6 := by
  have hnW : n < cfg.W := hc.worker_lt (by rw [hw]; simp)
  have hsum := workerRank_update cfg s
    (s.setWorker n { s.workers n with pc := .woken }) hnW
    (fun m hm => State.setWorker_other _ _ hm)
  simp only [State.setWorker_same, hw, WPc.rank] at hsum
  unfold measure
  simp only [State.setWorker_fault, State.setWorker_main]
  split
  · omega
  · omega

theorem measure_init (cfg : Config) : measure cfg State.init [] = measure0 cfg := by
  simp only [measure, measure0, State.init, MainState.rank, workerRank, MainState.enqueued,
    WPc.rank, Finset.sum_const, Finset.card_range, smul_eq_mul, List.length_nil, Nat.sub_zero]
  ring

theorem step_fault_none {cfg : Config} {s s' : State} {a : Action}
    (hs : step cfg s a = some s') : s.fault = none := by
  unfold step at hs
  split at hs
  · cases hs
  · assumption

/-- One step changes the measure: a statement lowers it, a spurious wakeup
raises it by at most 6. -/
theorem measure_step {cfg : Config} {s s' : State} {l : List Nat} {a : Action}
    (h : Inv cfg s) (hq : QInv cfg s l) (hs : step cfg s a = some s') :
    ∃ l', QInv cfg s' l' ∧
      statements [a] + measure cfg s' l' ≤ measure cfg s l + 6 * wakeups [a] := by
  have hf := step_fault_none hs
  have h' := h.step_inv hs
  unfold step at hs
  simp only [hf] at hs
  cases a with
  | main c =>
    simp only at hs
    obtain ⟨l', hq', hlt⟩ := measure_step_main hq h.lock h.ctl hf hs
    refine ⟨l', hq', ?_⟩
    simp only [statements, wakeups, Action.isSpurious, List.filter, Bool.not_false,
      List.length_cons, List.length_nil]
    omega
  | worker n =>
    simp only at hs
    obtain ⟨l', hq', hlt⟩ := measure_step_worker hq h.lock h.ctl hf h'.lock hs
    refine ⟨l', hq', ?_⟩
    simp only [statements, wakeups, Action.isSpurious, List.filter, Bool.not_false,
      List.length_cons, List.length_nil]
    omega
  | spurious n =>
    simp only at hs
    split at hs
    · rename_i hw
      cases hs
      refine ⟨l, hq.spurious_queue h.lock h.ctl hw, ?_⟩
      have e1 : statements [Action.spurious n] = 0 := rfl
      have e2 : wakeups [Action.spurious n] = 1 := rfl
      rw [e1, e2, Nat.zero_add, Nat.mul_one]
      exact measure_spurious h.ctl hw
    · cases hs

theorem statements_cons (a : Action) (acts : List Action) :
    statements (a :: acts) = statements [a] + statements acts := by
  unfold statements
  cases h : a.isSpurious <;> simp [List.filter, h]; omega

theorem wakeups_cons (a : Action) (acts : List Action) :
    wakeups (a :: acts) = wakeups [a] + wakeups acts := by
  unfold wakeups
  cases h : a.isSpurious <;> simp [List.filter, h]; omega

/-- Along a run the statements run so far plus the measure of the state
reached stay below the measure at the start plus 6 for each spurious wakeup. -/
theorem run_measure {cfg : Config} (acts : List Action) {s s' : State} {l : List Nat}
    (h : Inv cfg s) (hq : QInv cfg s l) (hr : run cfg acts s = some s') :
    ∃ l', QInv cfg s' l' ∧
      statements acts + measure cfg s' l' ≤ measure cfg s l + 6 * wakeups acts := by
  induction acts generalizing s l with
  | nil =>
    simp only [run, Option.some.injEq] at hr
    subst hr
    exact ⟨l, hq, by simp [statements, wakeups]⟩
  | cons a rest ih =>
    simp only [run] at hr
    split at hr
    · rename_i s₁ hs
      obtain ⟨l₁, hq₁, h1⟩ := measure_step h hq hs
      obtain ⟨l', hq', h2⟩ := ih (h.step_inv hs) hq₁ hr
      refine ⟨l', hq', ?_⟩
      rw [statements_cons, wakeups_cons]
      omega
    · cases hr

/-! ## Progress -/

theorem lock_enabled {m : Mutex} {t : Tid} (h : m.owner = none ∨ m.owner = some t) :
    ∃ m', pthread_mutex_lock m t = some m' := by
  unfold pthread_mutex_lock
  rcases h with h | h
  · rw [h]; exact ⟨_, rfl⟩
  · rw [h]; simp

/-- A worker that is created, not blocked in the wait and not terminated can
run its next statement when the mutex is free or its own. -/
theorem stepWorker_enabled {s : State} {n : Nat}
    (h1 : (s.workers n).pc ≠ .notCreated) (h2 : (s.workers n).pc ≠ .waiting)
    (h3 : (s.workers n).pc ≠ .exited)
    (hm : s.mutex.owner = none ∨ s.mutex.owner = some (.worker n)) :
    ∃ s', stepWorker s n = some s' := by
  obtain ⟨m', hm'⟩ := lock_enabled hm
  unfold stepWorker
  cases hpc : (s.workers n).pc <;> simp only [hpc, hm']
  case notCreated => exact absurd hpc h1
  case waiting => exact absurd hpc h2
  case exited => exact absurd hpc h3
  all_goals (try split)
  all_goals (try split)
  all_goals exact ⟨_, rfl⟩

/-- At every program point of `main` other than the calls of `malloc`,
`pthread_cond_signal` and `pthread_join` and the end, `main` can run its next
statement when the mutex is free or its own. -/
theorem stepMain_enabled (cfg : Config) {s : State} (c : Option Nat)
    (h1 : s.main.pc ≠ .aMalloc) (h2 : s.main.pc ≠ .aSignal) (h3 : s.main.pc ≠ .join)
    (h4 : s.main.pc ≠ .done)
    (hm : s.mutex.owner = none ∨ s.mutex.owner = some .main) :
    ∃ s', stepMain cfg s c = some s' := by
  obtain ⟨m', hm'⟩ := lock_enabled hm
  unfold stepMain
  cases hpc : s.main.pc <;> simp only [hpc, hm']
  case aMalloc => exact absurd hpc h1
  case aSignal => exact absurd hpc h2
  case join => exact absurd hpc h3
  case done => exact absurd hpc h4
  all_goals (try split)
  all_goals (try split)
  all_goals exact ⟨_, rfl⟩

/-- A statement of `main` ends with a failed allocation pending only if it is
the `malloc` that returns `NULL`, or the fault of a failed allocation. -/
theorem stepMain_allocFailed {cfg : Config} {s s' : State} {c : Option Nat}
    (hs : stepMain cfg s c = some s') (h : allocFailed s') :
    (s.main.pc = .aMalloc ∧ c = none) ∨ allocFailed s := by
  obtain ⟨h1, h2⟩ := h
  unfold stepMain at hs
  cases hpc : s.main.pc <;> simp only [hpc] at hs
  all_goals (try split at hs)
  all_goals (try split at hs)
  all_goals (try (simp only [Option.some.injEq] at hs))
  all_goals (try (cases hs))
  all_goals first
    | exact Or.inl ⟨rfl, rfl⟩
    | exact Or.inr ⟨hpc, h2⟩
    | (exfalso
       have h1' : s.main.pc = MPc.aNum := h1
       rw [hpc] at h1'
       cases h1')
    | (simp at h1; done)
    | simp at h2

/-- Progress: a state that has not faulted and in which `main` has not
returned can always take a statement, and one that does not leave a failed
allocation behind. -/
theorem Inv.progress {cfg : Config} {s : State} (h : Inv cfg s)
    (hfresh : ∃ N, ∀ a, N ≤ a → s.sh.mem a = none)
    (hf : s.fault = none) (hnd : s.main.pc ≠ .done) :
    ∃ a s', a.isSpurious = false ∧ step cfg s a = some s' ∧
      (¬ allocFailed s → ¬ allocFailed s') := by
  obtain ⟨hl, hc, l, hq⟩ := h
  have hstepM : ∀ c s', stepMain cfg s c = some s' → step cfg s (.main c) = some s' := by
    intro c s' hs; simp [step, hf, hs]
  have hstepW : ∀ n s', stepWorker s n = some s' → step cfg s (.worker n) = some s' := by
    intro n s' hs; simp [step, hf, hs]
  have hworker : ∀ n s', stepWorker s n = some s' →
      ∃ a s', a.isSpurious = false ∧ step cfg s a = some s' ∧
        (¬ allocFailed s → ¬ allocFailed s') := by
    intro n s' hs
    refine ⟨.worker n, s', rfl, hstepW n s' hs, ?_⟩
    intro hna hfa
    apply hna
    have := (stepWorker_rank hs).1
    unfold allocFailed at hfa ⊢
    rw [this] at hfa
    exact hfa
  have hmain : ∀ c s', stepMain cfg s c = some s' → (s.main.pc = .aMalloc → c ≠ none) →
      ∃ a s', a.isSpurious = false ∧ step cfg s a = some s' ∧
        (¬ allocFailed s → ¬ allocFailed s') := by
    intro c s' hs hc'
    refine ⟨.main c, s', rfl, hstepM c s' hs, ?_⟩
    intro hna hfa
    rcases stepMain_allocFailed hs hfa with ⟨h1, h2⟩ | h1
    · exact hc' h1 h2
    · exact hna h1
  cases ho : s.mutex.owner with
  | some t =>
    cases t with
    | main =>
      have hd := (hl.1 _ ho)
      have hpos : 0 < s.main.pc.depth := by
        have := hd.1
        simp only [State.depthOf] at this
        omega
      have hne : ∀ pc : MPc, pc.depth = 0 → s.main.pc ≠ pc := by
        intro pc hpc e; rw [e] at hpos; omega
      obtain ⟨s', hs⟩ := stepMain_enabled cfg none (hne _ rfl) (hne _ rfl) (hne _ rfl)
        (hne _ rfl) (Or.inr ho)
      exact hmain none s' hs (fun e => absurd e (hne _ rfl))
    | worker n =>
      have hd := (hl.1 _ ho)
      have hpos : 0 < (s.workers n).pc.depth := by
        have := hd.1
        simp only [State.depthOf] at this
        omega
      have hne : ∀ pc : WPc, pc.depth = 0 → (s.workers n).pc ≠ pc := by
        intro pc hpc e; rw [e] at hpos; omega
      obtain ⟨s', hs⟩ := stepWorker_enabled (hne _ rfl) (hne _ rfl) (hne _ rfl) (Or.inr ho)
      exact hworker n s' hs
  | none =>
    by_cases h1 : s.main.pc = .aMalloc
    · obtain ⟨N, hN⟩ := hfresh
      have he : ∃ s', stepMain cfg s (some N) = some s' := by
        simp only [stepMain, h1, hN N (Nat.le_refl N)]
        exact ⟨_, rfl⟩
      obtain ⟨s', hs⟩ := he
      exact hmain (some N) s' hs (fun _ => by simp)
    by_cases h2 : s.main.pc = .aSignal
    · by_cases hw : ∃ n, (s.workers n).pc = .waiting
      · obtain ⟨n, hn⟩ := hw
        have he : ∃ s', stepMain cfg s (some n) = some s' := by
          simp only [stepMain, h2, hn, if_true]
          exact ⟨_, rfl⟩
        obtain ⟨s', hs⟩ := he
        exact hmain (some n) s' hs (fun e => absurd e h1)
      · have hall : ∀ n < cfg.W, (s.workers n).pc ≠ .waiting := fun n _ e => hw ⟨n, e⟩
        have he : ∃ s', stepMain cfg s none = some s' := by
          simp only [stepMain, h2]
          rw [if_pos hall]
          exact ⟨_, rfl⟩
        obtain ⟨s', hs⟩ := he
        exact hmain none s' hs (fun e => absurd e h1)
    by_cases h3 : s.main.pc = .join
    · by_cases hi : s.main.i < cfg.W
      · by_cases hex : (s.workers s.main.i).pc = .exited
        · have he : ∃ s', stepMain cfg s none = some s' := by
            simp only [stepMain, h3, hi, hex, if_true]
            exact ⟨_, rfl⟩
          obtain ⟨s', hs⟩ := he
          exact hmain none s' hs (fun e => absurd e h1)
        · have hcr : (s.workers s.main.i).pc ≠ .notCreated := by
            apply (hc.created _).2
            simp [h3, hi]
          have hwt : (s.workers s.main.i).pc ≠ .waiting := by
            intro e
            have := hc.waiting_pending _ e
            simp [h3, MPc.afterBroadcast] at this
          obtain ⟨s', hs⟩ := stepWorker_enabled hcr hwt hex (Or.inl ho)
          exact hworker _ s' hs
      · have he : ∃ s', stepMain cfg s none = some s' := by
          simp only [stepMain, h3, hi, if_false]
          exact ⟨_, rfl⟩
        obtain ⟨s', hs⟩ := he
        exact hmain none s' hs (fun e => absurd e h1)
    obtain ⟨s', hs⟩ := stepMain_enabled cfg none h1 h2 h3 hnd (Or.inl ho)
    exact hmain none s' hs (fun e => absurd e h1)

/-- In a reachable state a fault can only be the one of a failed allocation,
provided the job count `K` fits an `int`. -/
theorem Reachable.fault_alloc {cfg : Config} {s : State} (h : Reachable cfg s)
    (hK : (cfg.K : Int) ≤ INT_MAX) (hf : s.fault ≠ none) : allocFailed s := by
  induction h with
  | init => exact absurd rfl hf
  | @step s s' a hreach hs _ =>
    rcases hreach.inv.step_fault hK hs with h1 | ⟨h1, h2, _, h4⟩
    · exact absurd h1 hf
    · rw [h4]; exact ⟨h1, h2⟩

/-! ## The statements of `add_job` and `get_job` and the queue operations -/

theorem Heap.store_store (mem : Heap) (a : Nat) (j j' : job) :
    (mem.store a j).store a j' = mem.store a j' := by
  funext b
  unfold Heap.store
  split <;> rfl

/-- The statements of one `add_job` call of `main`, run without a step of
another thread in between and with `a` the answer of `malloc`, change the shared
state as the function `add_job` does. -/
theorem add_job_statements (cfg : Config) (s : State) (a : Nat) (sh' : Shared)
    (hpc : s.main.pc = .aMalloc) (hf : s.fault = none) (hm : s.mutex.owner = none)
    (ha : s.sh.mem a = none)
    (h : add_job (s.main.i : Int) (some a) s.sh = .ok sh') :
    ∃ s', run cfg (.main (some a) :: List.replicate 8 (.main none)) s = some s' ∧
      s'.sh = sh' ∧ s'.main.pc = .aSignal ∧ s'.main.i = s.main.i ∧ s'.fault = none ∧
      s'.mutex.owner = none ∧ s'.workers = s.workers ∧ s'.out = s.out := by
  unfold add_job at h
  simp only at h
  by_cases h0 : s.sh.num_jobs = 0
  · simp only [h0, if_true, Except.ok.injEq] at h
    subst h
    simp [List.replicate, run, step, stepMain, hpc, hf, ha, Heap.store_same,
        pthread_mutex_lock, pthread_mutex_unlock, hm, h0, Heap.store_store, INT_MAX]
  · simp only [h0, if_false] at h
    split at h
    · cases h
    · rename_i t ht
      split at h
      · cases h
      · rename_i jt hjt
        split at h
        · cases h
        · rename_i hov
          simp only [Except.ok.injEq] at h
          subst h
          simp [List.replicate, run, step, stepMain, hpc, hf, ha, Heap.store_same,
            pthread_mutex_lock, pthread_mutex_unlock, hm, h0, Heap.store_store, ht, hjt, hov]

/-- The statements of one `get_job` call of worker `n`, made as in
`process_jobs` with the mutex held once and run without a step of another
thread in between, change the shared state as the function `get_job` does and
hand its result to `new_job` of `process_jobs`. -/
theorem get_job_statements (cfg : Config) (s : State) (n : Nat) (p : Ptr) (sh' : Shared)
    (hpc : (s.workers n).pc = .gLock) (hf : s.fault = none)
    (hm : s.mutex = { owner := some (.worker n), depth := 1 })
    (h : get_job s.sh = .ok (p, sh')) :
    ∃ k s', run cfg (List.replicate k (.worker n)) s = some s' ∧
      s'.sh = sh' ∧ (s'.workers n).pc = .chk ∧ (s'.workers n).new_job = p ∧
      s'.mutex = s.mutex ∧ s'.main = s.main ∧ s'.fault = none ∧ s'.out = s.out := by
  unfold get_job at h
  by_cases hpos : s.sh.num_jobs > 0
  · simp only [hpos, if_true] at h
    split at h
    · cases h
    · rename_i a hh
      split at h
      · cases h
      · rename_i j hj
        simp only [Except.ok.injEq, Prod.mk.injEq] at h
        obtain ⟨rfl, rfl⟩ := h
        by_cases hlink : j.link = none
        · refine ⟨9, ?_⟩
          simp [List.replicate, run, step, stepWorker, hpc, hf, hm, hpos, hh, hj, hlink,
            pthread_mutex_lock, pthread_mutex_unlock]
        · refine ⟨8, ?_⟩
          simp [List.replicate, run, step, stepWorker, hpc, hf, hm, hpos, hh, hj, hlink,
            pthread_mutex_lock, pthread_mutex_unlock]
  · simp only [hpos, if_false, Except.ok.injEq, Prod.mk.injEq] at h
    obtain ⟨rfl, rfl⟩ := h
    refine ⟨5, ?_⟩
    simp [List.replicate, run, step, stepWorker, hpc, hf, hm, hpos,
      pthread_mutex_lock, pthread_mutex_unlock]

/-! ## An example run -/

theorem Reachable.of_run {cfg : Config} (acts : List Action) {s s' : State}
    (h : Reachable cfg s) (hr : run cfg acts s = some s') : Reachable cfg s' := by
  induction acts generalizing s with
  | nil => simp only [run, Option.some.injEq] at hr; exact hr ▸ h
  | cons a rest ih =>
    simp only [run] at hr
    split at hr
    · rename_i s₁ hs
      exact ih (Reachable.step a h hs) hr
    · cases hr

theorem run_getD {cfg : Config} {acts : List Action} {s : State} (d : State)
    (h : (run cfg acts s).isSome = true) : run cfg acts s = some ((run cfg acts s).getD d) := by
  cases hr : run cfg acts s with
  | none => rw [hr] at h; cases h
  | some s' => rfl

theorem ex_done_run : run ex_cfg ex_schedule State.init = some ex_done :=
  run_getD State.init (by decide)

theorem ex_done_reachable : Reachable ex_cfg ex_done :=
  Reachable.of_run ex_schedule Reachable.init ex_done_run

theorem ex_waiting_reachable : Reachable ex_cfg ex_waiting :=
  Reachable.of_run (ex_schedule.take 10) Reachable.init (run_getD State.init (by decide))

/-- The example schedule ends with `main` returned, both workers exited, and
the output: both jobs handled, both workers exiting, then "Program exiting". -/
theorem ex_done_state :
    ex_done.main.pc = .done ∧ (ex_done.workers 0).pc = .exited ∧
    (ex_done.workers 1).pc = .exited ∧ ex_done.fault = none ∧
    ex_done.out = [.handled 0 0, .handled 0 1, .exiting 0, .exiting 1, .programExiting] := by
  decide

/-! ## Hold counts -/

theorem holdCount_eq_depthOf {s : State} (h : LockInv s) (t : Tid) :
    holdCount s t = s.depthOf t := by
  unfold holdCount
  by_cases ho : s.mutex.owner = some t
  · rw [if_pos ho, (h.1 t ho).1]
  · rw [if_neg ho, h.2.1 t ho]

theorem MPc.depth_of_access_main (pc : MPc) (h : pc.accessesShared = true) : 1 ≤ pc.depth := by
  revert h
  cases pc <;> decide

theorem WPc.depth_of_access_worker (pc : WPc) (h : pc.accessesShared = true) : 1 ≤ pc.depth := by
  revert h
  cases pc <;> decide

theorem accessesShared_depth (s : State) (t : Tid) (h : s.accessesShared t = true) :
    1 ≤ s.depthOf t := by
  cases t with
  | main => exact MPc.depth_of_access_main _ h
  | worker n => exact WPc.depth_of_access_worker _ h

theorem stepMain_shared {cfg : Config} {s s' : State} {c : Option Nat}
    (hs : stepMain cfg s c = some s')
    (hne : s'.sh.head ≠ s.sh.head ∨ s'.sh.tail ≠ s.sh.tail ∨ s'.sh.num_jobs ≠ s.sh.num_jobs ∨
      s'.sh.finished ≠ s.sh.finished) : s.main.pc.accessesShared = true := by
  unfold stepMain at hs
  cases hpc : s.main.pc <;> simp only [hpc] at hs
  all_goals (try split at hs)
  all_goals (try split at hs)
  all_goals (try (simp only [Option.some.injEq] at hs))
  all_goals (try (cases hs))
  all_goals (first | rfl | (exfalso; simp [State.setWorker, State.crash] at hne))

theorem stepWorker_shared {s s' : State} {n : Nat} (hs : stepWorker s n = some s')
    (hne : s'.sh.head ≠ s.sh.head ∨ s'.sh.tail ≠ s.sh.tail ∨ s'.sh.num_jobs ≠ s.sh.num_jobs ∨
      s'.sh.finished ≠ s.sh.finished) : (s.workers n).pc.accessesShared = true := by
  unfold stepWorker at hs
  cases hpc : (s.workers n).pc <;> simp only [hpc] at hs
  all_goals (try split at hs)
  all_goals (try split at hs)
  all_goals (try (simp only [Option.some.injEq] at hs))
  all_goals (try (cases hs))
  all_goals (first | rfl | (exfalso; simp [State.setWorker, State.crash] at hne))

theorem ex_at_reachable (k : Nat)
    (h : (run ex_cfg (ex_schedule.take k) State.init).isSome = true) :
    Reachable ex_cfg (ex_at k) :=
  Reachable.of_run (ex_schedule.take k) Reachable.init (run_getD State.init h)

theorem nested_state_reachable : Reachable Config.source nested_state :=
  Reachable.of_run nested_schedule Reachable.init (run_getD State.init (by decide))

theorem Reachable.holdCount_worker {cfg : Config} {s : State} (h : Reachable cfg s) (n : Nat) :
    holdCount s (.worker n) = (s.workers n).pc.depth :=
  holdCount_eq_depthOf h.inv.lock _

/-- The program point of a worker after its statement, for the statements of
`process_jobs` around the execution of a job. -/
theorem Reachable.step_worker_pc {cfg : Config} {s s' : State} (h : Reachable cfg s) {n : Nat}
    (hs : Threadpool.step cfg s (.worker n) = some s') :
    ((s.workers n).pc = .gLock → (s'.workers n).pc = .gTest) ∧
    ((s.workers n).pc = .chk → (s'.workers n).pc = .unlock) ∧
    ((s.workers n).pc = .unlock → (s'.workers n).pc = .work) ∧
    ((s.workers n).pc = .work → (s'.workers n).pc = .free ∧
      ∃ x, s'.out = s.out ++ [.handled n x]) ∧
    ((s.workers n).pc = .free → (s'.workers n).pc = .relock) ∧
    ((s.workers n).pc = .relock → (s'.workers n).pc = .test) := by
  obtain ⟨hl, hc, l, hq⟩ := h.inv
  unfold Threadpool.step at hs
  split at hs
  · cases hs
  · simp only at hs
    refine ⟨?_, ?_, ?_, ?_, ?_, ?_⟩
    all_goals intro hpc
    all_goals have hsome := hq.holds_some n
    all_goals have halloc := hq.held_alloc n
    all_goals simp only [hpc, WPc.holds, WorkerState.held] at hsome halloc
    · simp only [stepWorker, hpc] at hs
      split at hs
      · cases hs
      · cases hs
        simp [State.setWorker]
    · simp only [stepWorker, hpc] at hs
      rw [if_pos (hsome trivial)] at hs
      cases hs
      simp [State.setWorker]
    · simp only [stepWorker, hpc] at hs
      cases hs
      simp [State.setWorker]
    · obtain ⟨a, ha⟩ := Option.ne_none_iff_exists'.1 (hsome trivial)
      obtain ⟨⟨j, hj⟩, _⟩ := halloc a ha
      simp only [stepWorker, hpc, thread_work, ha, hj] at hs
      cases hs
      exact ⟨by simp [State.setWorker], j.num, rfl⟩
    · obtain ⟨a, ha⟩ := Option.ne_none_iff_exists'.1 (hsome trivial)
      obtain ⟨⟨j, hj⟩, _⟩ := halloc a ha
      simp only [stepWorker, hpc, ha, hj] at hs
      cases hs
      simp [State.setWorker]
    · simp only [stepWorker, hpc] at hs
      split at hs
      · cases hs
      · cases hs
        simp [State.setWorker]

theorem stepWorker_out_mem {s s' : State} {n : Nat} (hs : stepWorker s n = some s')
    (hne : s'.out ≠ s.out ∨ s'.sh.mem ≠ s.sh.mem) :
    (s.workers n).pc = .work ∨ (s.workers n).pc = .free ∨ (s.workers n).pc = .printExit := by
  unfold stepWorker at hs
  cases hpc : (s.workers n).pc <;> simp only [hpc] at hs
  all_goals (try split at hs)
  all_goals (try split at hs)
  all_goals (try (simp only [Option.some.injEq] at hs))
  all_goals (try (cases hs))
  all_goals (first | (simp; done) | (exfalso; simp [State.setWorker, State.crash] at hne))

theorem stepWorker_to_test {s s' : State} {n : Nat} (hs : stepWorker s n = some s')
    (ht : (s'.workers n).pc = .test) :
    (s.workers n).pc = .lock0 ∨ (s.workers n).pc = .relock ∨ (s.workers n).pc = .woken ∨
      ((s.workers n).pc = .chk ∧ (s.workers n).new_job = none) := by
  unfold stepWorker at hs
  cases hpc : (s.workers n).pc <;> simp only [hpc] at hs
  all_goals (try split at hs)
  all_goals (try split at hs)
  all_goals (try (simp only [Option.some.injEq] at hs))
  all_goals (try (cases hs))
  all_goals (first | (simp; done) | (exfalso; simp [State.setWorker, State.crash, hpc] at ht; done) | simp_all)

/-! ## Sequences of calls -/

/-- On a represented state with a node address that holds no node, `add_job`
returns, or stops at the increment of `num_jobs` past `INT_MAX`. -/
theorem Rep.add_total {s : Shared} {l : List Nat} (h : Rep s l) (x : Int) {a : Nat}
    (ha : s.mem a = none) :
    (∃ s', add_job x (some a) s = .ok s') ∨ add_job x (some a) s = .error .intOverflow := by
  by_cases hmax : s.num_jobs < INT_MAX
  · obtain ⟨s', h1, _⟩ := h.add x ha hmax
    exact Or.inl ⟨s', h1⟩
  · right
    have h0 : s.num_jobs ≠ 0 := by
      intro e
      rw [e] at hmax
      exact hmax (by decide)
    have hne : l ≠ [] := by
      intro e
      apply h0
      rw [h.2.2, e]
      rfl
    obtain ⟨l₀, t, rfl⟩ : ∃ l₀ t, l = l₀ ++ [t] := by
      rcases List.eq_nil_or_concat l with e | ⟨l₀, t, e⟩
      · exact absurd e hne
      · exact ⟨l₀, t, by simpa using e⟩
    have ht : s.tail = some t := by simpa using h.2.1
    obtain ⟨jt, hjt, _⟩ := chain_last h.1
    have hta : t ≠ a := by
      intro e
      rw [e, ha] at hjt
      cases hjt
    have hov : INT_MAX < s.num_jobs + 1 := by omega
    simp [add_job, h0, ht, Heap.store, hta, hjt, hov]

theorem absCalls_account (cs : List Call) (q : List Int) :
    q ++ enqueuedOf cs = dequeuedOf (absCalls cs q).1 ++ (absCalls cs q).2 := by
  induction cs generalizing q with
  | nil => simp [absCalls, enqueuedOf, dequeuedOf]
  | cons c rest ih =>
    cases c with
    | add_job x a =>
      simp only [absCalls, enqueuedOf]
      rw [← ih (q ++ [x])]
      simp
    | get_job =>
      cases q with
      | nil =>
        simp only [absCalls, enqueuedOf]
        have := ih []
        simpa [dequeuedOf] using this
      | cons y q =>
        simp only [absCalls, enqueuedOf]
        have := ih q
        simp only [dequeuedOf, List.filterMap_cons, id, List.cons_append] at this ⊢
        rw [this]

/-- A sequence of calls on a represented state: when it runs to its end, it
returns what the abstract queue returns and ends in a state that represents
what the abstract queue ends in; and it does not stop at a dereference. -/
theorem Rep.calls_abs {s : Shared} {l : List Nat} (h : Rep s l) (hr : Reach s) (cs : List Call) :
    (∀ rs s', calls cs s = .ok (rs, s') →
      Reach s' ∧ ∃ l', Rep s' l' ∧ absCalls cs (nums s.mem l) = (rs, nums s'.mem l')) ∧
    calls cs s ≠ .error (.fault .nullDeref) ∧ calls cs s ≠ .error (.fault .wildDeref) := by
  induction cs generalizing s l with
  | nil =>
    refine ⟨?_, by simp [calls], by simp [calls]⟩
    intro rs s' hc
    simp only [calls, Except.ok.injEq, Prod.mk.injEq] at hc
    obtain ⟨rfl, rfl⟩ := hc
    exact ⟨hr, l, h, rfl⟩
  | cons c rest ih =>
    cases c with
    | add_job x a =>
      cases ha : s.mem a with
      | some j => simp [calls, ha]
      | none =>
        rcases h.add_total x ha with ⟨s₁, h1⟩ | h1
        · obtain ⟨s₂, g1, g2, g3, _⟩ := h.add x ha (add_job_ok_lt h1)
          rw [h1] at g1
          cases g1
          have hr₁ : Reach s₁ := Reach.add x a hr ha h1
          obtain ⟨i1, i2, i3⟩ := ih g2 hr₁
          simp only [calls, ha, h1]
          refine ⟨?_, i2, i3⟩
          intro rs s' hc
          obtain ⟨k1, l', k2, k3⟩ := i1 rs s' hc
          refine ⟨k1, l', k2, ?_⟩
          simp only [absCalls]
          rw [← g3]
          exact k3
        · simp [calls, ha, h1]
    | get_job =>
      cases l with
      | nil =>
        have h0 : ¬ s.num_jobs > 0 := by
          rw [h.2.2]
          simp
        have hg := get_job_of_not_pos h0
        obtain ⟨i1, i2, i3⟩ := ih h hr
        simp only [calls, hg]
        refine ⟨?_, ?_, ?_⟩
        · intro rs s' hc
          split at hc
          · rename_i rs₁ s₁ hc₁
            simp only [Except.ok.injEq, Prod.mk.injEq] at hc
            obtain ⟨rfl, rfl⟩ := hc
            obtain ⟨k1, l', k2, k3⟩ := i1 rs₁ s₁ hc₁
            refine ⟨k1, l', k2, ?_⟩
            simp only [nums, List.map_nil] at k3
            simp [absCalls, nums, k3, num_of]
          · cases hc
        · split
          · simp
          · rename_i e he
            intro hh
            simp only [Except.error.injEq] at hh
            exact i2 (hh ▸ he)
        · split
          · simp
          · rename_i e he
            intro hh
            simp only [Except.error.injEq] at hh
            exact i3 (hh ▸ he)
      | cons a l =>
        obtain ⟨j, g1, g2, g3, g4⟩ := h.get
        have hr₁ := Reach.get _ hr g3
        obtain ⟨i1, i2, i3⟩ := ih g4 hr₁
        simp only [calls, g3]
        refine ⟨?_, ?_, ?_⟩
        · intro rs s' hc
          split at hc
          · rename_i rs₁ s₁ hc₁
            simp only [Except.ok.injEq, Prod.mk.injEq] at hc
            obtain ⟨rfl, rfl⟩ := hc
            obtain ⟨k1, l', k2, k3⟩ := i1 rs₁ s₁ hc₁
            refine ⟨k1, l', k2, ?_⟩
            have hn : nums s.mem (a :: l) = j.num :: nums s.mem l := by
              simp [nums, g2]
            rw [hn]
            simp only [absCalls]
            rw [k3]
            simp [num_of, g2]
          · cases hc
        · split
          · simp
          · rename_i e he
            intro hh
            simp only [Except.error.injEq] at hh
            exact i2 (hh ▸ he)
        · split
          · simp
          · rename_i e he
            intro hh
            simp only [Except.error.injEq] at hh
            exact i3 (hh ▸ he)

/-! ## Runs of one worker -/

theorem run_append (cfg : Config) (as bs : List Action) (s : State) :
    run cfg (as ++ bs) s = (run cfg as s).bind (run cfg bs) := by
  induction as generalizing s with
  | nil => rfl
  | cons a rest ih =>
    simp only [List.cons_append, run]
    split
    · exact ih _
    · rfl

theorem run_append_some {cfg : Config} {as bs : List Action} {s s₁ s₂ : State}
    (h1 : run cfg as s = some s₁) (h2 : run cfg bs s₁ = some s₂) :
    run cfg (as ++ bs) s = some s₂ := by
  rw [run_append, h1]
  exact h2

theorem mutex_at_depth_one {s : State} (hl : LockInv s) {n : Nat}
    (hd : (s.workers n).pc.depth = 1) : s.mutex = { owner := some (.worker n), depth := 1 } := by
  obtain ⟨ho, hdep⟩ := hl.owner_of_pos (t := .worker n)
    (by simp only [State.depthOf]; omega)
  simp only [State.depthOf] at hdep
  cases hm : s.mutex with
  | mk o d =>
    rw [hm] at ho hdep
    simp only at ho hdep
    rw [ho, hdep, hd]

/-- A worker at the test of line 175 that finds `num_jobs > 0`, run alone:
it takes the job at `head` with `get_job`, releases the mutex, prints the
line of that job, frees the node, locks the mutex and is at the test again. -/
theorem Inv.worker_takes_job {cfg : Config} {s : State} (h : Inv cfg s) (hf : s.fault = none)
    {n : Nat} (hpc : (s.workers n).pc = .test) (hpos : 0 < s.sh.num_jobs) :
    ∃ k s' a j, run cfg (List.replicate k (.worker n)) s = some s' ∧
      s.sh.head = some a ∧ s.sh.mem a = some j ∧
      (s'.workers n).pc = .test ∧ s'.out = s.out ++ [.handled n j.num] ∧
      s'.sh.num_jobs = s.sh.num_jobs - 1 ∧ s'.sh.head = j.link ∧
      s'.sh.mem = s.sh.mem.free a ∧ s'.sh.finished = s.sh.finished ∧
      s'.mutex = s.mutex ∧ s'.main = s.main ∧ s'.fault = none := by
  obtain ⟨hl, hc, l, hq⟩ := h
  have hm := mutex_at_depth_one hl (n := n) (by rw [hpc]; rfl)
  have ho : s.mutex.owner = some (.worker n) := by rw [hm]
  have hw := (window_worker ho).1 hq.window_ok
  simp only [windowWorker, hpc] at hw
  have hrep : Rep s.sh l := ⟨hq.chain_ok, hw⟩
  cases l with
  | nil =>
    have := hrep.2.2
    simp at this
    omega
  | cons a l =>
    obtain ⟨j, g1, g2, g3, _⟩ := hrep.get
    have hs₀ : run cfg [.worker n] s =
        some (s.setWorker n { s.workers n with pc := .gLock }) := by
      simp [run, step, hf, stepWorker, hpc, hpos]
    obtain ⟨k, s₁, r1, r2, r3, r4, r5, r6, r7, r8⟩ :=
      get_job_statements cfg (s.setWorker n { s.workers n with pc := .gLock }) n (some a) _
        (by simp [State.setWorker]) hf hm g3
    have hmu₁ : s₁.mutex = { owner := some (.worker n), depth := 1 } := by
      rw [r5]; exact hm
    have hmem₁ : s₁.sh.mem a = some j := by rw [r2]; exact g2
    have hfin : ∃ s', run cfg (List.replicate 5 (.worker n)) s₁ = some s' ∧
        (s'.workers n).pc = .test ∧ s'.out = s₁.out ++ [.handled n j.num] ∧
        s'.sh.num_jobs = s₁.sh.num_jobs ∧ s'.sh.head = s₁.sh.head ∧
        s'.sh.mem = s₁.sh.mem.free a ∧ s'.sh.finished = s₁.sh.finished ∧
        s'.mutex = s₁.mutex ∧ s'.main = s₁.main ∧ s'.fault = none := by
      simp [List.replicate, run, step, stepWorker, r3, r4, r7, hmu₁, hmem₁, thread_work,
        pthread_mutex_lock, pthread_mutex_unlock, State.setWorker]
    obtain ⟨s', q1, q2, q3, q4, q5, q6, q7, q8, q9, q10⟩ := hfin
    refine ⟨1 + k + 5, s', a, j, ?_, g1, g2, q2, ?_, ?_, ?_, ?_, ?_, ?_, ?_, q10⟩
    · rw [List.replicate_add, List.replicate_add]
      exact run_append_some (run_append_some hs₀ r1) q1
    · rw [q3, r8]; rfl
    · rw [q4, r2]
    · rw [q5, r2]
    · rw [q6, r2]
    · rw [q7, r2]
    · rw [q8, r5]; rfl
    · rw [q9, r6]; rfl

/-! ## The invariant of the output -/

theorem exitingIds_append (o ev : List Event) :
    exitingIds (o ++ ev) = exitingIds o ++ exitingIds ev := by
  simp [exitingIds, List.filterMap_append]

/-- A step is taken only while `main` has not returned. -/
theorem CtlInv.step_not_done {cfg : Config} {s s' : State} {a : Action} (h : CtlInv cfg s)
    (hs : step cfg s a = some s') : s.main.pc ≠ .done := by
  intro hd
  have hall := h.all_joined (Or.inr hd)
  have hcr := h.created
  simp only [hd, reduceCtorEq, if_false] at hcr
  have hw : ∀ n, (s.workers n).pc = .exited ∨ (s.workers n).pc = .notCreated := by
    intro n
    by_cases hn : n < cfg.W
    · exact Or.inl (hall n hn)
    · right
      by_contra hne
      exact hn ((hcr n).1 hne)
  unfold step at hs
  split at hs
  · cases hs
  · cases a with
    | main c => simp [stepMain, hd] at hs
    | worker n =>
      rcases hw n with e | e <;> simp [stepWorker, e] at hs
    | spurious n =>
      rcases hw n with e | e <;> simp [e] at hs

/-- The effect of a step on the invariant of the output, from the lines `ev`
it prints. -/
theorem OutInv.update_out {s s' : State} (h : OutInv s) (hnd : s.main.pc ≠ .done)
    (ev : List Event) (hout : s'.out = s.out ++ ev)
    (hprog : if s'.main.pc = .done then ev = [Event.programExiting]
      else Event.programExiting ∉ ev)
    (hcount : ∀ m, (exitingIds ev).count m + (if (s.workers m).pc.gone then 1 else 0) =
      if (s'.workers m).pc.gone then 1 else 0) : OutInv s' := by
  have hnot := h.program_not hnd
  refine ⟨?_, ?_, ?_⟩
  · intro m
    rw [hout, exitingIds_append, List.count_append, h.exiting_count m, Nat.add_comm]
    exact hcount m
  · intro hd
    rw [if_neg hd] at hprog
    rw [hout]
    simp only [List.mem_append, not_or]
    exact ⟨hnot, hprog⟩
  · intro hd
    rw [if_pos hd] at hprog
    exact ⟨s.out, by rw [hout, hprog], hnot⟩

theorem OutInv.init_out : OutInv State.init := by
  refine ⟨?_, ?_, ?_⟩
  · intro n
    simp [State.init, exitingIds, WPc.gone]
  · intro _
    simp [State.init]
  · intro hd
    simp [State.init] at hd

theorem OutInv.crash_out {s : State} (h : OutInv s) (f : Fault) : OutInv (s.crash f) :=
  ⟨h.1, h.2, h.3⟩

theorem thread_work_lines {mem : Heap} {p : Ptr} {n : Nat} {lines : List Event}
    (h : thread_work mem p n = .ok lines) : lines = [] ∨ ∃ x, lines = [Event.handled n x] := by
  unfold thread_work at h
  split at h
  · cases h; exact Or.inl rfl
  · split at h
    · cases h; exact Or.inr ⟨_, rfl⟩
    · cases h

theorem OutInv.step_worker_out {s s' : State} {n : Nat} (h : OutInv s)
    (hnd : s.main.pc ≠ .done) (hs : stepWorker s n = some s') : OutInv s' := by
  by_cases hw : (s.workers n).pc = .work
  · simp only [stepWorker, hw] at hs
    split at hs
    · cases hs
      exact h.crash_out _
    · rename_i lines hl
      cases hs
      refine h.update_out hnd lines rfl ?_ ?_
      · rw [if_neg (by simpa [State.setWorker] using hnd)]
        rcases thread_work_lines hl with e | ⟨x, e⟩ <;> simp [e]
      · intro m
        have hz : exitingIds lines = [] := by
          rcases thread_work_lines hl with e | ⟨x, e⟩ <;> simp [e, exitingIds]
        rw [hz]
        by_cases e : m = n
        · subst e; simp [State.setWorker, hw, WPc.gone]
        · simp [State.setWorker, e]
  · unfold stepWorker at hs
    cases hpc : (s.workers n).pc <;> simp only [hpc] at hs
    all_goals (try split at hs)
    all_goals (try split at hs)
    all_goals (try (simp only [Option.some.injEq] at hs))
    all_goals (try (cases hs; done))
    all_goals (try (subst hs))
    all_goals (try (exact absurd hpc hw))
    all_goals (first
      | exact h.crash_out _
      | (refine h.update_out hnd [] ?_ ?_ ?_
         · simp [State.setWorker]
         · simp [State.setWorker, hnd]
         · intro m
           by_cases e : m = n
           · subst e; simp [State.setWorker, exitingIds, hpc, WPc.gone]
           · simp [State.setWorker, exitingIds, e])
      | (refine h.update_out hnd [Event.exiting n] ?_ ?_ ?_
         · simp [State.setWorker]
         · simp [State.setWorker, hnd]
         · intro m
           by_cases e : m = n
           · subst e; simp [State.setWorker, exitingIds, hpc, WPc.gone]
           · simp [State.setWorker, exitingIds, e, Ne.symm e]))

theorem OutInv.step_main_out {cfg : Config} {s s' : State} {c : Option Nat} (h : OutInv s)
    (hc : CtlInv cfg s) (hs : stepMain cfg s c = some s') : OutInv s' := by
  have hnd : s.main.pc ≠ .done := by
    intro hd
    simp [stepMain, hd] at hs
  have hcr := hc.created
  unfold stepMain at hs
  cases hpc : s.main.pc <;> simp only [hpc] at hs
  all_goals (try split at hs)
  all_goals (try split at hs)
  all_goals (try (simp only [Option.some.injEq] at hs))
  all_goals (try (cases hs; done))
  all_goals (try (subst hs))
  all_goals (first
    | exact h.crash_out _
    | (refine h.update_out hnd [] ?_ ?_ ?_
       · simp [State.setWorker]
       · simp [State.setWorker, hpc]
       · intro m
         simp [exitingIds]; done)
    | (refine h.update_out hnd [Event.programExiting] ?_ ?_ ?_
       · simp [State.setWorker]
       · simp [State.setWorker]
       · intro m
         simp [exitingIds])
    | skip)
  · rename_i hlt
    have hnc : (s.workers s.main.i).pc = .notCreated := by
      by_contra hne
      have := (hcr s.main.i).1 hne
      simp [hpc] at this
    refine h.update_out hnd [] ?_ ?_ ?_
    · simp [State.setWorker]
    · simp [State.setWorker, hpc]
    · intro m
      by_cases e : m = s.main.i
      · subst e; simp [State.setWorker, exitingIds, hnc, WPc.gone]
      · simp [State.setWorker, exitingIds, e]
  · rename_i n hwt
    refine h.update_out hnd [] ?_ ?_ ?_
    · simp [State.setWorker]
    · simp [State.setWorker]
    · intro m
      by_cases e : m = n
      · subst e; simp [State.setWorker, exitingIds, hwt, WPc.gone]
      · simp [State.setWorker, exitingIds, e]
  · refine h.update_out hnd [] ?_ ?_ ?_
    · simp
    · simp
    · intro m
      by_cases e : (s.workers m).pc = .waiting
      · simp [exitingIds, e, WPc.gone]
      · simp [exitingIds, e]

theorem OutInv.step_out {cfg : Config} {s s' : State} {a : Action} (h : OutInv s)
    (hc : CtlInv cfg s) (hs : step cfg s a = some s') : OutInv s' := by
  have hnd := hc.step_not_done hs
  unfold step at hs
  split at hs
  · cases hs
  · cases a with
    | main c => exact h.step_main_out hc hs
    | worker n => exact h.step_worker_out hnd hs
    | spurious n =>
      simp only at hs
      split at hs
      · rename_i hwt
        cases hs
        refine h.update_out hnd [] ?_ ?_ ?_
        · simp [State.setWorker]
        · simp [State.setWorker, hnd]
        · intro m
          by_cases e : m = n
          · subst e; simp [State.setWorker, exitingIds, hwt, WPc.gone]
          · simp [State.setWorker, exitingIds, e]
      · cases hs

theorem Reachable.out_inv {cfg : Config} {s : State} (h : Reachable cfg s) : OutInv s := by
  induction h with
  | init => exact OutInv.init_out
  | step a hr hs ih => exact ih.step_out hr.inv.ctl hs

/-- Once every worker of a pool with at least one worker has exited, the ids
in the lines "handled" are the ids `0, ..., K-1`. -/
theorem Inv.handled_all {cfg : Config} {s : State} (h : Inv cfg s) (hW : 0 < cfg.W)
    (hall : ∀ n < cfg.W, (s.workers n).pc = .exited) : handledNums s.out = enqueuedIds cfg.K := by
  obtain ⟨hl, hc, l, hq⟩ := h
  have hacc := hq.account
  obtain ⟨h0, h1⟩ := hq.exit_done 0 (by rw [hall 0 hW]; rfl)
  have hnil := hq.nil_of_done hc h0 h1
  subst hnil
  have hp : pendingNums cfg s = 0 := by
    unfold pendingNums
    refine Finset.sum_eq_zero ?_
    intro n hn
    rw [WorkerState.pending, hall n (Finset.mem_range.1 hn)]
    rfl
  have haf : s.main.pc.afterFinished = true := by
    have := hc.finished_eq
    rw [h1] at this
    by_contra hne
    simp [hne] at this
  rw [hp, MainState.enqueued_of_afterFinished haf] at hacc
  simpa [nums] using hacc

theorem enqueuedIds_count (n : Nat) (x : Int) :
    (enqueuedIds n).count x = if 0 ≤ x ∧ x < n then 1 else 0 := by
  have hmem : x ∈ enqueuedIds n ↔ 0 ≤ x ∧ x < n := by
    simp only [enqueuedIds, Multiset.mem_coe, List.mem_map, List.mem_range]
    constructor
    · rintro ⟨k, hk, rfl⟩
      exact ⟨Int.ofNat_nonneg k, Int.ofNat_lt.2 hk⟩
    · rintro ⟨h0, h1⟩
      refine ⟨x.toNat, ?_, ?_⟩
      · omega
      · simp [h0]
  by_cases hx : 0 ≤ x ∧ x < n
  · rw [if_pos hx]
    exact Multiset.count_eq_one_of_mem (enqueuedIds_nodup n) (hmem.2 hx)
  · rw [if_neg hx]
    exact Multiset.count_eq_zero_of_not_mem (fun hm => hx (hmem.1 hm))

theorem exitingIds_mem {out : List Event} {n : Nat} :
    n ∈ exitingIds out ↔ Event.exiting n ∈ out := by
  simp only [exitingIds, List.mem_filterMap]
  constructor
  · rintro ⟨e, he, h⟩
    cases e <;> simp at h
    subst h
    exact he
  · intro h
    exact ⟨_, h, rfl⟩

set_option maxRecDepth 100000 in
theorem src_done_run : run Config.source src_schedule State.init = some src_done :=
  run_getD State.init (by decide)

theorem src_done_reachable : Reachable Config.source src_done :=
  Reachable.of_run src_schedule Reachable.init src_done_run

set_option maxRecDepth 100000 in
theorem src_done_pc : src_done.main.pc = .done := by decide


theorem out_length (out : List Event) :
    out.length = Multiset.card (handledNums out) + (exitingIds out).length +
      out.count Event.programExiting := by
  induction out with
  | nil => rfl
  | cons e rest ih =>
    cases e <;>
      simp [handledNums, exitingIds, List.filterMap_cons, List.count_cons] at ih ⊢ <;> omega

theorem count_range_source (l : List Nat)
    (h : ∀ n, l.count n = if n < 10 then 1 else 0) : l.length = 10 := by
  have he : (l : Multiset Nat) = Multiset.range 10 := by
    refine Multiset.ext.2 (fun n => ?_)
    rw [Multiset.coe_count, h n]
    by_cases hn : n < 10
    · rw [if_pos hn]
      exact (Multiset.count_eq_one_of_mem (Multiset.nodup_range 10)
        (Multiset.mem_range.2 hn)).symm
    · rw [if_neg hn]
      exact (Multiset.count_eq_zero_of_not_mem (fun hm => hn (Multiset.mem_range.1 hm))).symm
  have := congrArg Multiset.card he
  simpa using this

/-! ## A pool that is given no job -/

theorem NoJobInv.init_nojob : NoJobInv State.init :=
  ⟨rfl, rfl, fun _ => rfl, rfl⟩

theorem handledNums_append (o ev : List Event) :
    handledNums (o ++ ev) = handledNums o + handledNums ev := by
  simp [handledNums, List.filterMap_append]

theorem NoJobInv.step_worker_nojob {s s' : State} {n : Nat} (h : NoJobInv s)
    (hs : stepWorker s n = some s') : NoJobInv s' := by
  obtain ⟨h0, h1, h2, h3⟩ := h
  have hid := h2 n
  have hnp : ¬ s.sh.num_jobs > 0 := by rw [h0]; decide
  unfold stepWorker at hs
  cases hpc : (s.workers n).pc <;> rw [hpc] at hid <;> simp only [hpc] at hs
  all_goals (try (cases hid; done))
  all_goals (try split at hs)
  all_goals (try (simp only [Option.some.injEq] at hs))
  all_goals (try (cases hs; done))
  all_goals (try (subst hs))
  all_goals (try (exact absurd ‹s.sh.num_jobs > 0› hnp))
  all_goals
    refine ⟨h0, h1, ?_, ?_⟩
  all_goals (try (
    intro m
    by_cases e : m = n
    · subst e; simp [State.setWorker, WPc.idle]
    · simpa [State.setWorker, e] using h2 m))
  all_goals (first
    | exact h3
    | (show handledNums (s.out ++ _) = 0
       rw [handledNums_append, h3]
       rfl))

theorem NoJobInv.step_main_nojob {cfg : Config} {s s' : State} {c : Option Nat}
    (h : NoJobInv s) (hadd : s.main.pc.inAdd = false) (hs : stepMain cfg s c = some s') :
    NoJobInv s' := by
  obtain ⟨h0, h1, h2, h3⟩ := h
  unfold stepMain at hs
  cases hpc : s.main.pc <;> rw [hpc] at hadd <;> simp only [hpc] at hs
  all_goals (try (cases hadd; done))
  all_goals (try split at hs)
  all_goals (try split at hs)
  all_goals (try (simp only [Option.some.injEq] at hs))
  all_goals (try (cases hs; done))
  all_goals (try (subst hs))
  all_goals
    refine ⟨h0, h1, ?_, ?_⟩
  all_goals (try (exact h2))
  all_goals (try (exact h3))
  · intro m
    by_cases e : m = s.main.i
    · subst e; simp [State.setWorker, WPc.idle]
    · simpa [State.setWorker, e] using h2 m
  · intro m
    show (if (s.workers m).pc = .waiting then _ else s.workers m).pc.idle = true
    split
    · rfl
    · exact h2 m
  · show handledNums (s.out ++ _) = 0
    rw [handledNums_append, h3]
    rfl

theorem NoJobInv.step_nojob {cfg : Config} (hK : cfg.K = 0) {s s' : State} {a : Action}
    (h : NoJobInv s) (hc : CtlInv cfg s) (hs : step cfg s a = some s') : NoJobInv s' := by
  have hadd : s.main.pc.inAdd = false := by
    cases hb : s.main.pc.inAdd
    · rfl
    · have := hc.add_lt hb
      omega
  unfold step at hs
  split at hs
  · cases hs
  · cases a with
    | main c => exact h.step_main_nojob hadd hs
    | worker n => exact h.step_worker_nojob hs
    | spurious n =>
      simp only at hs
      split at hs
      · cases hs
        obtain ⟨h0, h1, h2, h3⟩ := h
        refine ⟨h0, h1, ?_, h3⟩
        intro m
        by_cases e : m = n
        · subst e; simp [State.setWorker, WPc.idle]
        · simpa [State.setWorker, e] using h2 m
      · cases hs

theorem Reachable.nojob {cfg : Config} (hK : cfg.K = 0) {s : State} (h : Reachable cfg s) :
    NoJobInv s := by
  induction h with
  | init => exact NoJobInv.init_nojob
  | step a hr hs ih => exact ih.step_nojob hK hr.inv.ctl hs

theorem solo_waiting_run : run solo_cfg solo_wait_schedule State.init = some solo_waiting :=
  run_getD State.init (by decide)

theorem solo_waiting_reachable : Reachable solo_cfg solo_waiting :=
  Reachable.of_run solo_wait_schedule Reachable.init solo_waiting_run

/-! ## Claims on the queue -/

/-- C1 (FIFO). For every sequence of job ids `xs` with at most `INT_MAX`
elements and every sequence `ps` of distinct addresses handed out by `malloc`,
the calls `add_job(x1)`, ..., `add_job(xn)` from the empty queue all return,
and the next `n` calls of `get_job` return non-NULL pointers `rs` whose `num`
fields are `x1, ..., xn` in that order (they are the nodes `ps`, in order). -/
theorem fifo_order (xs : List Int) (ps : List Nat) (hlen : ps.length = xs.length)
    (hnd : ps.Nodup) (hmax : (xs.length : Int) ≤ INT_MAX) :
    ∃ s rs s', add_jobs (xs.zip ps) Shared.init = .ok s ∧
      get_jobs xs.length s = .ok (rs, s') ∧
      rs.map (num_of s'.mem) = xs.map some ∧ rs = ps.map some := by
  obtain ⟨s, h1, h2, h3⟩ := Rep.init_rep.add_all xs ps hlen hnd (fun _ _ => rfl)
    (by simpa [Shared.init] using hmax)
  simp only [List.nil_append] at h2 h3
  obtain ⟨s', g1, g2, _, _⟩ := h2.get_all
  refine ⟨s, ps.map some, s', h1, by rw [← hlen]; exact g1, ?_, rfl⟩
  rw [g2, num_of_map (chain_alloc h2.1), h3]
  simp [nums]

/-- Witness of C1: the ids 5, 7, 9 at the addresses 0, 1, 2. -/
theorem fifo_order_witness :
    ([0, 1, 2] : List Nat).Nodup ∧
    ∃ s rs s', add_jobs (([5, 7, 9] : List Int).zip [0, 1, 2]) Shared.init = .ok s ∧
      get_jobs ([5, 7, 9] : List Int).length s = .ok (rs, s') ∧
      rs.map (num_of s'.mem) = ([5, 7, 9] : List Int).map some ∧
      rs = ([0, 1, 2] : List Nat).map some :=
  ⟨by decide, fifo_order [5, 7, 9] [0, 1, 2] rfl (by decide) (by decide)⟩

theorem ex_one_reach : Reach ex_one :=
  Reach.add 7 0 Reach.init rfl rfl

theorem ex_two_reach : Reach ex_two :=
  Reach.add 9 1 ex_one_reach rfl rfl

/-- C3 (count invariant). In every state reached from the initial state by
calls of `add_job` and `get_job`, following `link` from `head` reaches `NULL`
after exactly `num_jobs` nodes, and the last of them is `tail`. -/
theorem count_invariant (s : Shared) (h : Reach s) :
    ∃ l : List Nat, chain s.mem s.head l ∧ s.tail = l.getLast? ∧ s.num_jobs = l.length :=
  h.wf

/-- Witness of C3: the state after two calls of `add_job`. -/
theorem count_invariant_witness :
    ∃ l : List Nat, chain ex_two.mem ex_two.head l ∧ ex_two.tail = l.getLast? ∧
      ex_two.num_jobs = l.length :=
  count_invariant ex_two ex_two_reach

/-- C6 (dequeue on a non-empty queue). On a well-formed state with
`num_jobs > 0`, `get_job` returns the node `a` that was at `head`; the new
`head` is that node's `link`; `tail` becomes `NULL` when the new `head` is
`NULL` and is unchanged (and not `NULL`) otherwise; `num_jobs` drops by one;
the heap and `finished` are unchanged, and the remaining nodes are the old
chain without its first node, in the same order. -/
theorem get_job_nonempty (s : Shared) (hwf : WF s) (hpos : 0 < s.num_jobs) :
    ∃ a j s' l, s.head = some a ∧ s.mem a = some j ∧ get_job s = .ok (some a, s') ∧
      s'.head = j.link ∧
      (s'.head = none → s'.tail = none) ∧
      (s'.head ≠ none → s'.tail = s.tail ∧ s'.tail ≠ none) ∧
      s'.num_jobs = s.num_jobs - 1 ∧ s'.mem = s.mem ∧ s'.finished = s.finished ∧
      Rep s (a :: l) ∧ Rep s' l := by
  obtain ⟨l, hl⟩ := hwf
  cases l with
  | nil =>
    have := hl.2.2
    simp at this
    omega
  | cons a l =>
    obtain ⟨j, h1, h2, h3, h4⟩ := hl.get
    refine ⟨a, j, _, l, h1, h2, h3, rfl, ?_, ?_, rfl, rfl, rfl, hl, h4⟩
    · intro h
      have h : j.link = none := h
      simp [h]
    · intro h
      have h : j.link ≠ none := h
      have hl0 : l ≠ [] := fun e => h ((Rep.head_none h4).2 e)
      have ht : s.tail ≠ none := fun e => by
        have := (hl.tail_none).1 e
        simp at this
      simp [h, ht]

theorem ex_two_wf : WF ex_two := ex_two_reach.wf

/-- Witness of C6: the state after two calls of `add_job`. -/
theorem get_job_nonempty_witness :
    0 < ex_two.num_jobs ∧
    ∃ a j s' l, ex_two.head = some a ∧ ex_two.mem a = some j ∧
      get_job ex_two = .ok (some a, s') ∧ s'.head = j.link ∧
      (s'.head = none → s'.tail = none) ∧
      (s'.head ≠ none → s'.tail = ex_two.tail ∧ s'.tail ≠ none) ∧
      s'.num_jobs = ex_two.num_jobs - 1 ∧ s'.mem = ex_two.mem ∧
      s'.finished = ex_two.finished ∧ Rep ex_two (a :: l) ∧ Rep s' l :=
  ⟨by decide, get_job_nonempty ex_two ex_two_wf (by decide)⟩

/-- C7 (dequeue on an empty queue). On every state with `num_jobs == 0`,
`get_job` returns `NULL` at once and the state (`head`, `tail`, `num_jobs`,
`finished` and the heap) is the one it was called on. -/
theorem get_job_empty (s : Shared) (h : s.num_jobs = 0) : get_job s = .ok (none, s) :=
  get_job_of_not_pos (by omega)

/-- Witness of C7: the initial state. -/
theorem get_job_empty_witness :
    Shared.init.num_jobs = 0 ∧ get_job Shared.init = .ok (none, Shared.init) :=
  ⟨rfl, get_job_empty Shared.init rfl⟩

/-- C8 (enqueue). On a well-formed state with `num_jobs < INT_MAX`, for every
job id `x` and every address `a` that `malloc` can return (one holding no
node), `add_job(x)` returns a state whose chain is the old chain `l` followed
by `a`, whose job ids are the old ids followed by `x`; if the queue was empty
`head` and `tail` are both the new node, otherwise the old tail's `link` is set
to the new node, `tail` is the new node and `head` is unchanged; `num_jobs`
grows by one and `finished` is unchanged. -/
theorem add_job_enqueue (s : Shared) (hwf : WF s) (x : Int) (a : Nat)
    (ha : s.mem a = none) (hmax : s.num_jobs < INT_MAX) :
    ∃ l s', Rep s l ∧ add_job x (some a) s = .ok s' ∧ Rep s' (l ++ [a]) ∧
      nums s'.mem (l ++ [a]) = nums s.mem l ++ [x] ∧
      s'.mem a = some { num := x, link := none } ∧
      (s.num_jobs = 0 → s'.head = some a ∧ s'.tail = some a) ∧
      (s.num_jobs ≠ 0 → ∃ t jt, s.tail = some t ∧ s.mem t = some jt ∧
        s'.mem t = some { jt with link := some a } ∧ s'.tail = some a ∧ s'.head = s.head) ∧
      s'.num_jobs = s.num_jobs + 1 ∧ s'.finished = s.finished := by
  obtain ⟨l, hl⟩ := hwf
  obtain ⟨s', h1, h2, h3, h4, h5, h6, h7, h8, h9, h10, _⟩ := hl.add x ha hmax
  refine ⟨l, s', hl, h1, h2, h3, h9, ?_, ?_, h5, h4⟩
  · intro h0
    have : l = [] := by
      have := hl.2.2
      rw [h0] at this
      exact List.length_eq_zero.1 (by exact_mod_cast this.symm)
    exact ⟨h6 this, h8⟩
  · intro h0
    have hne : l ≠ [] := by
      intro e
      apply h0
      rw [hl.2.2, e]
      rfl
    obtain ⟨t, jt, g1, g2, g3⟩ := h10 hne
    exact ⟨t, jt, g1, g2, g3, h8, h7 hne⟩

/-- Witness of C8: `add_job(11)` with node address 2 on the state after two
calls of `add_job`. -/
theorem add_job_enqueue_witness :
    ex_two.mem 2 = none ∧ ex_two.num_jobs < INT_MAX ∧
    ∃ l s', Rep ex_two l ∧ add_job 11 (some 2) ex_two = .ok s' ∧ Rep s' (l ++ [2]) ∧
      nums s'.mem (l ++ [2]) = nums ex_two.mem l ++ [11] ∧
      s'.mem 2 = some { num := 11, link := none } ∧
      (ex_two.num_jobs = 0 → s'.head = some 2 ∧ s'.tail = some 2) ∧
      (ex_two.num_jobs ≠ 0 → ∃ t jt, ex_two.tail = some t ∧ ex_two.mem t = some jt ∧
        s'.mem t = some { jt with link := some 2 } ∧ s'.tail = some 2 ∧
        s'.head = ex_two.head) ∧
      s'.num_jobs = ex_two.num_jobs + 1 ∧ s'.finished = ex_two.finished :=
  ⟨rfl, by decide, add_job_enqueue ex_two ex_two_wf 11 2 rfl (by decide)⟩

/-- C9 (head/tail emptiness). In every state reached from the initial state
by calls of `add_job` and `get_job`, `head` is `NULL` if and only if
`num_jobs == 0`, and `tail` is `NULL` if and only if `num_jobs == 0`. -/
theorem head_tail_empty (s : Shared) (h : Reach s) :
    (s.head = none ↔ s.num_jobs = 0) ∧ (s.tail = none ↔ s.num_jobs = 0) := by
  obtain ⟨l, hl⟩ := h.wf
  have hz : s.num_jobs = 0 ↔ l = [] := by
    rw [hl.2.2]
    constructor
    · intro e
      exact List.length_eq_zero.1 (by exact_mod_cast e)
    · intro e
      rw [e]; rfl
  exact ⟨hl.head_none.trans hz.symm, hl.tail_none.trans hz.symm⟩

/-- Witness of C9: the state after two calls of `add_job`. -/
theorem head_tail_empty_witness :
    (ex_two.head = none ↔ ex_two.num_jobs = 0) ∧ (ex_two.tail = none ↔ ex_two.num_jobs = 0) :=
  head_tail_empty ex_two ex_two_reach

/-! ## Claims on the pool -/

/-- C2 (no duplicate or lost delivery). In every reachable state the job ids
enqueued so far are, as multisets, the ids still linked from `head`, plus the
ids of the jobs that workers have taken and not yet passed to `thread_work`,
plus the ids in the "handled" lines; no id is handled twice. In every
reachable state of a pool with at least one worker in which all workers have
exited, the queue is empty, no worker holds a job, and the ids handled are
exactly the ids `0, ..., K-1` that `main` enqueued. -/
theorem no_duplicate_or_lost (cfg : Config) (s : State) (h : Reachable cfg s) :
    (∃ l, chain s.sh.mem s.sh.head l ∧
      (nums s.sh.mem l : Multiset Int) + pendingNums cfg s + handledNums s.out =
        enqueuedIds (s.main.enqueued cfg)) ∧
    (handledNums s.out).Nodup ∧
    (0 < cfg.W → (∀ n < cfg.W, (s.workers n).pc = .exited) →
      s.sh.head = none ∧ pendingNums cfg s = 0 ∧ handledNums s.out = enqueuedIds cfg.K) := by
  obtain ⟨hl, hc, l, hq⟩ := h.inv
  have hacc := hq.account
  refine ⟨⟨l, hq.chain_ok, hacc⟩, ?_, ?_⟩
  · have hle : handledNums s.out ≤ enqueuedIds (s.main.enqueued cfg) := by
      rw [← hacc]
      exact Multiset.le_add_left _ _
    exact Multiset.nodup_of_le hle (enqueuedIds_nodup _)
  · intro hW hall
    obtain ⟨h0, h1⟩ := hq.exit_done 0 (by rw [hall 0 hW]; rfl)
    have hnil := hq.nil_of_done hc h0 h1
    subst hnil
    have hp : pendingNums cfg s = 0 := by
      unfold pendingNums
      refine Finset.sum_eq_zero ?_
      intro n hn
      rw [WorkerState.pending, hall n (Finset.mem_range.1 hn)]
      rfl
    have haf : s.main.pc.afterFinished = true := by
      have := hc.finished_eq
      rw [h1] at this
      by_contra hne
      simp [hne] at this
    refine ⟨(chain_nil _ _).1 hq.chain_ok, hp, ?_⟩
    rw [hp, MainState.enqueued_of_afterFinished haf] at hacc
    simpa [nums] using hacc


/-- Witness of C2: the end of the example run of the small pool. -/
theorem no_duplicate_or_lost_witness :
    Reachable ex_cfg ex_done ∧
    ((∃ l, chain ex_done.sh.mem ex_done.sh.head l ∧
      (nums ex_done.sh.mem l : Multiset Int) + pendingNums ex_cfg ex_done +
        handledNums ex_done.out = enqueuedIds (ex_done.main.enqueued ex_cfg)) ∧
    (handledNums ex_done.out).Nodup ∧
    (0 < ex_cfg.W → (∀ n < ex_cfg.W, (ex_done.workers n).pc = .exited) →
      ex_done.sh.head = none ∧ pendingNums ex_cfg ex_done = 0 ∧
      handledNums ex_done.out = enqueuedIds ex_cfg.K)) :=
  ⟨ex_done_reachable, no_duplicate_or_lost ex_cfg ex_done ex_done_reachable⟩

/-- C4 (drain before exit). In every reachable state: a worker at line 175
goes on to the test of `finished` only when `num_jobs > 0` fails; every step
of a worker that takes or continues the exit branch of `process_jobs` (lines
185 to 188) starts in a state with `num_jobs == 0` and `finished == 1`; and
whenever a worker is on that branch the queue is empty and every job that
`main` enqueued has been handled or is held by a worker that will handle it. -/
theorem drain_before_exit (cfg : Config) (s : State) (h : Reachable cfg s) (n : Nat) :
    (∀ s', step cfg s (.worker n) = some s' → (s.workers n).pc = .test →
      ((s'.workers n).pc = .fin ↔ ¬ 0 < s.sh.num_jobs)) ∧
    (∀ s', step cfg s (.worker n) = some s' → (s'.workers n).pc.exiting = true →
      s.sh.num_jobs = 0 ∧ s.sh.finished = 1) ∧
    ((s.workers n).pc.exiting = true →
      s.sh.num_jobs = 0 ∧ s.sh.finished = 1 ∧ s.sh.head = none ∧
      pendingNums cfg s + handledNums s.out = enqueuedIds cfg.K) := by
  have hinv := h.inv
  obtain ⟨hl, hc, l, hq⟩ := hinv
  refine ⟨?_, ?_, ?_⟩
  · intro s' hs hpc
    unfold step at hs
    split at hs
    · cases hs
    · simp only [stepWorker, hpc] at hs
      split at hs <;> cases hs <;> simp_all
  · intro s' hs hex
    have hinv' : Inv cfg s' := h.inv.step_inv hs
    obtain ⟨l', hq'⟩ := hinv'.queue
    have hd' := hq'.exit_done n hex
    unfold step at hs
    split at hs
    · cases hs
    · simp only at hs
      unfold stepWorker at hs
      cases hpc : (s.workers n).pc <;> simp only [hpc] at hs
      all_goals (try split at hs)
      all_goals (try split at hs)
      all_goals (try (simp only [Option.some.injEq] at hs))
      all_goals (try (cases hs))
      all_goals (try (simp [WPc.exiting] at hex; done))
      all_goals (try (exact hd'))
  · intro hex
    obtain ⟨h0, h1⟩ := hq.exit_done n hex
    have hnil := hq.nil_of_done hc h0 h1
    subst hnil
    have haf : s.main.pc.afterFinished = true := by
      have := hc.finished_eq
      rw [h1] at this
      by_contra hne
      simp [hne] at this
    have hacc := hq.account
    rw [MainState.enqueued_of_afterFinished haf] at hacc
    refine ⟨h0, h1, (chain_nil _ _).1 hq.chain_ok, ?_⟩
    simpa [nums] using hacc

/-- Witness of C4: worker 0 at the end of the example run of the small pool. -/
theorem drain_before_exit_witness :
    Reachable ex_cfg ex_done ∧
    ((∀ s', step ex_cfg ex_done (.worker 0) = some s' → (ex_done.workers 0).pc = .test →
      ((s'.workers 0).pc = .fin ↔ ¬ 0 < ex_done.sh.num_jobs)) ∧
    (∀ s', step ex_cfg ex_done (.worker 0) = some s' → (s'.workers 0).pc.exiting = true →
      ex_done.sh.num_jobs = 0 ∧ ex_done.sh.finished = 1) ∧
    ((ex_done.workers 0).pc.exiting = true →
      ex_done.sh.num_jobs = 0 ∧ ex_done.sh.finished = 1 ∧ ex_done.sh.head = none ∧
      pendingNums ex_cfg ex_done + handledNums ex_done.out = enqueuedIds ex_cfg.K)) :=
  ⟨ex_done_reachable, drain_before_exit ex_cfg ex_done ex_done_reachable 0⟩

/-- C5 (termination). For every worker count `W` and every job count `K` that
fits an `int`, and every run of the program: the run has executed at most
`measure0 cfg` statements plus 6 for each spurious wakeup it contains, so
there is no unbounded run without unboundedly many spurious wakeups; as long
as no allocation has failed and `main` has not returned, some thread can run a
statement, again without fault, so no such state is a deadlock; a fault can
only come from a failed allocation; once `main` has returned every worker has
exited; and whenever a worker is blocked in `pthread_cond_wait` the broadcast of
`main` is still to come. -/
theorem termination (cfg : Config) (hK : (cfg.K : Int) ≤ INT_MAX) (acts : List Action)
    (s : State) (hr : run cfg acts State.init = some s) :
    statements acts ≤ measure0 cfg + 6 * wakeups acts ∧
    (s.fault = none → ¬ allocFailed s → s.main.pc ≠ .done →
      ∃ a s', a.isSpurious = false ∧ step cfg s a = some s' ∧ s'.fault = none ∧
        ¬ allocFailed s') ∧
    (s.fault ≠ none → allocFailed s) ∧
    (s.main.pc = .done → ∀ n < cfg.W, (s.workers n).pc = .exited) ∧
    (∀ n, (s.workers n).pc = .waiting → s.main.pc.afterBroadcast = false) := by
  have hreach : Reachable cfg s := Reachable.of_run acts Reachable.init hr
  have hinv := hreach.inv
  refine ⟨?_, ?_, hreach.fault_alloc hK, ?_, hinv.ctl.waiting_pending⟩
  · obtain ⟨l', _, hb⟩ := run_measure acts (Inv.init_inv cfg) (QInv.init_queue cfg) hr
    rw [measure_init] at hb
    omega
  · intro hf hna hnd
    obtain ⟨a, s', ha, hs, hna'⟩ := hinv.progress hreach.fresh_exists hf hnd
    refine ⟨a, s', ha, hs, ?_, hna' hna⟩
    by_contra hf'
    exact hna' hna ((Reachable.step a hreach hs).fault_alloc hK hf')
  · intro hd
    exact hinv.ctl.all_joined (Or.inr hd)

/-- Witness of C5: the example run of the small pool. -/
theorem termination_witness :
    (ex_cfg.K : Int) ≤ INT_MAX ∧ run ex_cfg ex_schedule State.init = some ex_done ∧
    (statements ex_schedule ≤ measure0 ex_cfg + 6 * wakeups ex_schedule ∧
    (ex_done.fault = none → ¬ allocFailed ex_done → ex_done.main.pc ≠ .done →
      ∃ a s', a.isSpurious = false ∧ step ex_cfg ex_done a = some s' ∧ s'.fault = none ∧
        ¬ allocFailed s') ∧
    (ex_done.fault ≠ none → allocFailed ex_done) ∧
    (ex_done.main.pc = .done → ∀ n < ex_cfg.W, (ex_done.workers n).pc = .exited) ∧
    (∀ n, (ex_done.workers n).pc = .waiting → ex_done.main.pc.afterBroadcast = false)) :=
  ⟨by decide, ex_done_run, termination ex_cfg (by decide) ex_schedule ex_done ex_done_run⟩

/-- C10 (shutdown flag monotonicity). `finished` is 0 at the start. In every
reachable state it is 0 or 1, and it is 1 exactly when `main` has run line 72;
at that point `main` is outside `add_job` and all `K` ids are accounted for
(in the queue, with a worker, or handled). A step changes `finished` only if
it is the statement of `main` at line 72, taken with `finished == 0` and
leaving `finished == 1`; no statement of a worker and no other statement of
`main` writes it. Once 1 it stays 1, and from then on `main` never is inside
`add_job` again. -/
theorem finished_monotone (cfg : Config) (s : State) (h : Reachable cfg s) :
    State.init.sh.finished = 0 ∧
    (s.sh.finished = 0 ∨ s.sh.finished = 1) ∧
    (s.sh.finished = 1 ↔ s.main.pc.afterFinished = true) ∧
    (s.sh.finished = 1 → s.main.pc.inAdd = false ∧ s.main.enqueued cfg = cfg.K ∧
      ∃ l, chain s.sh.mem s.sh.head l ∧
        (nums s.sh.mem l : Multiset Int) + pendingNums cfg s + handledNums s.out =
          enqueuedIds cfg.K) ∧
    (∀ a s', step cfg s a = some s' →
      (s'.sh.finished ≠ s.sh.finished →
        (∃ c, a = .main c) ∧ s.main.pc = .setFinished ∧ s.sh.finished = 0 ∧
          s'.sh.finished = 1) ∧
      (s.sh.finished = 1 → s'.sh.finished = 1 ∧ s'.main.pc.inAdd = false)) := by
  obtain ⟨hl, hc, l, hq⟩ := h.inv
  have hfe := hc.finished_eq
  have hiff : s.sh.finished = 1 ↔ s.main.pc.afterFinished = true := by
    rw [hfe]
    cases s.main.pc.afterFinished <;> simp
  have hnadd : ∀ {pc : MPc}, pc.afterFinished = true → pc.inAdd = false := by
    intro pc hpc
    cases pc <;> simp_all [MPc.afterFinished, MPc.inAdd]
  refine ⟨rfl, ?_, hiff, ?_, ?_⟩
  · rw [hfe]
    cases s.main.pc.afterFinished <;> simp
  · intro h1
    have haf := hiff.1 h1
    have hacc := hq.account
    rw [MainState.enqueued_of_afterFinished haf] at hacc
    exact ⟨hnadd haf, MainState.enqueued_of_afterFinished haf, l, hq.chain_ok, hacc⟩
  · intro a s' hs
    have hinv' : Inv cfg s' := h.inv.step_inv hs
    have hfe' := hinv'.ctl.finished_eq
    have hiff' : s'.sh.finished = 1 ↔ s'.main.pc.afterFinished = true := by
      rw [hfe']
      cases s'.main.pc.afterFinished <;> simp
    have hkeep : s'.sh.finished ≠ s.sh.finished →
        (∃ c, a = .main c) ∧ s.main.pc = .setFinished ∧ s.sh.finished = 0 ∧
          s'.sh.finished = 1 := by
      intro hne
      unfold step at hs
      split at hs
      · cases hs
      · cases a with
        | main c =>
          simp only at hs
          obtain ⟨g1, g2⟩ := stepMain_finished hs
          by_cases hpc : s.main.pc = .setFinished
          · refine ⟨⟨c, rfl⟩, hpc, ?_, g2 hpc⟩
            rw [hfe, hpc]; rfl
          · exact absurd (g1 hpc) hne
        | worker n =>
          simp only at hs
          exact absurd (stepWorker_finished hs).1 hne
        | spurious n =>
          simp only at hs
          split at hs
          · cases hs; exact absurd rfl hne
          · cases hs
    refine ⟨hkeep, ?_⟩
    intro h1
    have h1' : s'.sh.finished = 1 := by
      by_contra hne
      have := hkeep (by rw [h1]; exact hne)
      rw [h1] at this
      exact absurd this.2.2.1 (by decide)
    exact ⟨h1', hnadd (hiff'.1 h1')⟩

/-- Witness of C10: the end of the example run of the small pool. -/
theorem finished_monotone_witness :
    Reachable ex_cfg ex_done ∧
    (State.init.sh.finished = 0 ∧
    (ex_done.sh.finished = 0 ∨ ex_done.sh.finished = 1) ∧
    (ex_done.sh.finished = 1 ↔ ex_done.main.pc.afterFinished = true) ∧
    (ex_done.sh.finished = 1 → ex_done.main.pc.inAdd = false ∧
      ex_done.main.enqueued ex_cfg = ex_cfg.K ∧
      ∃ l, chain ex_done.sh.mem ex_done.sh.head l ∧
        (nums ex_done.sh.mem l : Multiset Int) + pendingNums ex_cfg ex_done +
          handledNums ex_done.out = enqueuedIds ex_cfg.K) ∧
    (∀ a s', step ex_cfg ex_done a = some s' →
      (s'.sh.finished ≠ ex_done.sh.finished →
        (∃ c, a = .main c) ∧ ex_done.main.pc = .setFinished ∧ ex_done.sh.finished = 0 ∧
          s'.sh.finished = 1) ∧
      (ex_done.sh.finished = 1 → s'.sh.finished = 1 ∧ s'.main.pc.inAdd = false))) :=
  ⟨ex_done_reachable, finished_monotone ex_cfg ex_done ex_done_reachable⟩

/-- C14 (lock discipline). In every reachable state: a thread whose next
statement reads or writes `head`, `tail`, `num_jobs` or `finished` (in
`add_job`, `get_job`, `process_jobs` or `main`) holds `request_mutex` at least
once; every step that changes one of these variables is a statement of a
thread that holds the mutex; the hold count of each thread is the number of
its lock calls not yet matched by an unlock, as read off its program point;
and two threads never hold the mutex at the same time. -/
theorem lock_discipline (cfg : Config) (s : State) (h : Reachable cfg s) :
    (∀ t, s.accessesShared t = true → 1 ≤ holdCount s t) ∧
    (∀ a s', step cfg s a = some s' →
      (s'.sh.head ≠ s.sh.head ∨ s'.sh.tail ≠ s.sh.tail ∨ s'.sh.num_jobs ≠ s.sh.num_jobs ∨
        s'.sh.finished ≠ s.sh.finished) →
      ∃ t, a.thread = some t ∧ s.accessesShared t = true ∧ 1 ≤ holdCount s t) ∧
    (∀ t, holdCount s t = s.depthOf t) ∧
    (∀ t t', 1 ≤ holdCount s t → 1 ≤ holdCount s t' → t = t') := by
  have hl := h.inv.lock
  have hacc : ∀ t, s.accessesShared t = true → 1 ≤ holdCount s t := by
    intro t ht
    rw [holdCount_eq_depthOf hl]
    exact accessesShared_depth s t ht
  refine ⟨hacc, ?_, holdCount_eq_depthOf hl, ?_⟩
  · intro a s' hs hne
    unfold step at hs
    split at hs
    · cases hs
    · cases a with
      | main c =>
        have hm : s.accessesShared .main = true := stepMain_shared hs hne
        exact ⟨.main, rfl, hm, hacc _ hm⟩
      | worker n =>
        have hm : s.accessesShared (.worker n) = true := stepWorker_shared hs hne
        exact ⟨.worker n, rfl, hm, hacc _ hm⟩
      | spurious n =>
        simp only at hs
        split at hs
        · cases hs
          simp [State.setWorker] at hne
        · cases hs
  · intro t t' ht ht'
    unfold holdCount at ht ht'
    split at ht
    · split at ht'
      · rename_i h1 h2
        rw [h1] at h2
        exact Option.some.inj h2
      · omega
    · omega

/-- Witness of C14: the small pool after 27 steps of its schedule, where
worker 0 is about to run `head = new_job->link` (line 136). -/
theorem lock_discipline_witness :
    Reachable ex_cfg (ex_at 27) ∧ ((ex_at 27).workers 0).pc = .gAdvance ∧
    ((∀ t, (ex_at 27).accessesShared t = true → 1 ≤ holdCount (ex_at 27) t) ∧
    (∀ a s', step ex_cfg (ex_at 27) a = some s' →
      (s'.sh.head ≠ (ex_at 27).sh.head ∨ s'.sh.tail ≠ (ex_at 27).sh.tail ∨
        s'.sh.num_jobs ≠ (ex_at 27).sh.num_jobs ∨
        s'.sh.finished ≠ (ex_at 27).sh.finished) →
      ∃ t, a.thread = some t ∧ (ex_at 27).accessesShared t = true ∧
        1 ≤ holdCount (ex_at 27) t) ∧
    (∀ t, holdCount (ex_at 27) t = (ex_at 27).depthOf t) ∧
    (∀ t t', 1 ≤ holdCount (ex_at 27) t → 1 ≤ holdCount (ex_at 27) t' → t = t')) :=
  ⟨ex_at_reachable 27 (by decide), by decide,
    lock_discipline ex_cfg (ex_at 27) (ex_at_reachable 27 (by decide))⟩

/-- C16 (no lock held during job execution). In every reachable state: a
worker about to call `thread_work` (line 179) or `free` (line 180) has hold
count 0; every statement of a worker that prints a line or changes the heap
starts with hold count 0; the unlock at line 178 leads from hold count 1 to the
call of `thread_work` with hold count 0, from where the worker goes on to
`free` and to the lock of line 181, which leads to the test of line 175 with
hold count exactly 1; and a worker at the test of line 175 always has hold
count exactly 1. -/
theorem no_lock_during_work (cfg : Config) (s : State) (h : Reachable cfg s) (n : Nat) :
    ((s.workers n).pc = .work ∨ (s.workers n).pc = .free → holdCount s (.worker n) = 0) ∧
    (∀ s', step cfg s (.worker n) = some s' → (s'.out ≠ s.out ∨ s'.sh.mem ≠ s.sh.mem) →
      holdCount s (.worker n) = 0) ∧
    (∀ s', step cfg s (.worker n) = some s' → (s.workers n).pc = .unlock →
      holdCount s (.worker n) = 1 ∧ (s'.workers n).pc = .work ∧ holdCount s' (.worker n) = 0) ∧
    (∀ s', step cfg s (.worker n) = some s' → (s.workers n).pc = .work →
      (s'.workers n).pc = .free ∧ holdCount s' (.worker n) = 0) ∧
    (∀ s', step cfg s (.worker n) = some s' → (s.workers n).pc = .free →
      (s'.workers n).pc = .relock ∧ holdCount s' (.worker n) = 0) ∧
    (∀ s', step cfg s (.worker n) = some s' → (s.workers n).pc = .relock →
      (s'.workers n).pc = .test ∧ holdCount s' (.worker n) = 1) ∧
    ((s.workers n).pc = .test → holdCount s (.worker n) = 1) := by
  have hc := h.holdCount_worker n
  refine ⟨?_, ?_, ?_, ?_, ?_, ?_, ?_⟩
  · rintro (hpc | hpc) <;> rw [hc, hpc] <;> rfl
  · intro s' hs hne
    unfold step at hs
    split at hs
    · cases hs
    · rcases stepWorker_out_mem hs hne with hpc | hpc | hpc <;> rw [hc, hpc] <;> rfl
  · intro s' hs hpc
    have h' := (Reachable.step _ h hs).holdCount_worker n
    have hn := (h.step_worker_pc hs).2.2.1 hpc
    rw [hc, h', hpc, hn]
    exact ⟨rfl, rfl, rfl⟩
  · intro s' hs hpc
    have h' := (Reachable.step _ h hs).holdCount_worker n
    have hn := ((h.step_worker_pc hs).2.2.2.1 hpc).1
    rw [h', hn]
    exact ⟨rfl, rfl⟩
  · intro s' hs hpc
    have h' := (Reachable.step _ h hs).holdCount_worker n
    have hn := (h.step_worker_pc hs).2.2.2.2.1 hpc
    rw [h', hn]
    exact ⟨rfl, rfl⟩
  · intro s' hs hpc
    have h' := (Reachable.step _ h hs).holdCount_worker n
    have hn := (h.step_worker_pc hs).2.2.2.2.2 hpc
    rw [h', hn]
    exact ⟨rfl, rfl⟩
  · intro hpc
    rw [hc, hpc]
    rfl

/-- Witness of C16: the small pool after 35 steps of its schedule, where
worker 0 is about to call `thread_work` on the job with id 0. -/
theorem no_lock_during_work_witness :
    Reachable ex_cfg (ex_at 35) ∧ ((ex_at 35).workers 0).pc = .work ∧
    (((ex_at 35).workers 0).pc = .work ∨ ((ex_at 35).workers 0).pc = .free →
      holdCount (ex_at 35) (.worker 0) = 0) ∧
    (∀ s', step ex_cfg (ex_at 35) (.worker 0) = some s' →
      (s'.out ≠ (ex_at 35).out ∨ s'.sh.mem ≠ (ex_at 35).sh.mem) →
      holdCount (ex_at 35) (.worker 0) = 0) ∧
    (∀ s', step ex_cfg (ex_at 35) (.worker 0) = some s' → ((ex_at 35).workers 0).pc = .unlock →
      holdCount (ex_at 35) (.worker 0) = 1 ∧ (s'.workers 0).pc = .work ∧
        holdCount s' (.worker 0) = 0) ∧
    (∀ s', step ex_cfg (ex_at 35) (.worker 0) = some s' → ((ex_at 35).workers 0).pc = .work →
      (s'.workers 0).pc = .free ∧ holdCount s' (.worker 0) = 0) ∧
    (∀ s', step ex_cfg (ex_at 35) (.worker 0) = some s' → ((ex_at 35).workers 0).pc = .free →
      (s'.workers 0).pc = .relock ∧ holdCount s' (.worker 0) = 0) ∧
    (∀ s', step ex_cfg (ex_at 35) (.worker 0) = some s' → ((ex_at 35).workers 0).pc = .relock →
      (s'.workers 0).pc = .test ∧ holdCount s' (.worker 0) = 1) ∧
    (((ex_at 35).workers 0).pc = .test → holdCount (ex_at 35) (.worker 0) = 1) :=
  ⟨ex_at_reachable 35 (by decide), by decide,
    no_lock_during_work ex_cfg (ex_at 35) (ex_at_reachable 35 (by decide)) 0⟩

/-- C17, counterexample. With the constants of the source, after `main` has
created the workers and enqueued job 0, worker 0 locks the mutex at line 173,
finds `num_jobs > 0` at line 175 and calls `get_job`, whose lock at line 133
is a second acquisition: the state is reachable and the hold count of worker 0
in it is 2. So it is not the case that every hold count is 0 or 1. -/
theorem nested_lock_occurs :
    Reachable Config.source nested_state ∧ (nested_state.workers 0).pc = .gTest ∧
    holdCount nested_state (.worker 0) = 2 ∧
    ¬ (∀ s, Reachable Config.source s → ∀ t, holdCount s t = 0 ∨ holdCount s t = 1) := by
  refine ⟨nested_state_reachable, by decide, by decide, ?_⟩
  intro hall
  have := hall nested_state nested_state_reachable (.worker 0)
  revert this
  decide

/-- C17, amended. In every reachable state the hold count of `main` is 0 or
1 and the hold count of a worker is 0, 1 or 2; it is 2 exactly while the
worker is inside `get_job`, between the lock of line 133 and the unlock of
line 144; and every call of `get_job` by a worker is made with hold count 1
and its lock at line 133 raises the hold count to 2. The mutex has to be
recursive. -/
theorem lock_depth_bound (cfg : Config) (s : State) (h : Reachable cfg s) :
    s.mutex.depth ≤ 2 ∧ holdCount s .main ≤ 1 ∧
    (∀ n, holdCount s (.worker n) ≤ 2 ∧
      (holdCount s (.worker n) = 2 ↔ (s.workers n).pc.inGetJob = true)) ∧
    (∀ n s', step cfg s (.worker n) = some s' → (s.workers n).pc = .gLock →
      holdCount s (.worker n) = 1 ∧ holdCount s' (.worker n) = 2) := by
  have hl := h.inv.lock
  have hm : holdCount s .main ≤ 1 := by
    rw [holdCount_eq_depthOf hl]
    show s.main.pc.depth ≤ 1
    cases s.main.pc <;> decide
  have hw : ∀ n, holdCount s (.worker n) ≤ 2 ∧
      (holdCount s (.worker n) = 2 ↔ (s.workers n).pc.inGetJob = true) := by
    intro n
    rw [h.holdCount_worker n]
    cases (s.workers n).pc <;> decide
  refine ⟨?_, hm, hw, ?_⟩
  · cases ho : s.mutex.owner with
    | none => rw [hl.2.2 ho]; exact Nat.zero_le _
    | some t =>
      cases t with
      | main =>
        have : holdCount s .main = s.mutex.depth := by simp [holdCount, ho]
        omega
      | worker n =>
        have : holdCount s (.worker n) = s.mutex.depth := by simp [holdCount, ho]
        have := (hw n).1
        omega
  · intro n s' hs hpc
    have h' := (Reachable.step _ h hs).holdCount_worker n
    have hn := (h.step_worker_pc hs).1 hpc
    rw [h.holdCount_worker n, h', hpc, hn]
    exact ⟨rfl, rfl⟩

/-- Witness of the amended C17: the state of the counterexample, where worker
0 is inside `get_job`. -/
theorem lock_depth_bound_witness :
    Reachable Config.source nested_state ∧ (nested_state.workers 0).pc.inGetJob = true ∧
    (nested_state.mutex.depth ≤ 2 ∧ holdCount nested_state .main ≤ 1 ∧
    (∀ n, holdCount nested_state (.worker n) ≤ 2 ∧
      (holdCount nested_state (.worker n) = 2 ↔ (nested_state.workers n).pc.inGetJob = true)) ∧
    (∀ n s', step Config.source nested_state (.worker n) = some s' →
      (nested_state.workers n).pc = .gLock →
      holdCount nested_state (.worker n) = 1 ∧ holdCount s' (.worker n) = 2)) :=
  ⟨nested_state_reachable, by decide,
    lock_depth_bound Config.source nested_state nested_state_reachable⟩

/-- C19 (`get_job` never returns `NULL` inside the worker loop). In every
reachable state and for every worker: the branch `new_job = NULL` of `get_job`
(line 142) is never reached, since the test of line 134 is made with
`num_jobs > 0`; the pointer that `get_job` returns (line 145) is not `NULL`;
`new_job` is not `NULL` at the guard of line 177 and at the call of
`thread_work`, so the guard leads to the unlock of line 178 and `thread_work`
prints its line; and a worker arrives at the test of line 175 only from the
lock of line 173, from the lock of line 181 after a job, or from the lock
that ends `pthread_cond_wait`. -/
theorem get_job_not_null (cfg : Config) (s : State) (h : Reachable cfg s) (n : Nat) :
    (s.workers n).pc ≠ .gNull ∧
    ((s.workers n).pc = .gTest → 0 < s.sh.num_jobs) ∧
    ((s.workers n).pc = .gReturn → (s.workers n).g_new_job ≠ none) ∧
    ((s.workers n).pc = .chk ∨ (s.workers n).pc = .work → (s.workers n).new_job ≠ none) ∧
    (∀ s', step cfg s (.worker n) = some s' → (s.workers n).pc = .chk →
      (s'.workers n).pc = .unlock) ∧
    (∀ s', step cfg s (.worker n) = some s' → (s.workers n).pc = .work →
      ∃ x, s'.out = s.out ++ [.handled n x]) ∧
    (∀ s', step cfg s (.worker n) = some s' → (s'.workers n).pc = .test →
      (s.workers n).pc = .lock0 ∨ (s.workers n).pc = .relock ∨ (s.workers n).pc = .woken) := by
  obtain ⟨hl, hc, l, hq⟩ := h.inv
  have hsome := hq.holds_some n
  have hchk : (s.workers n).pc = .chk ∨ (s.workers n).pc = .work →
      (s.workers n).new_job ≠ none := by
    rintro (hpc | hpc) <;> simpa [hpc, WPc.holds, WorkerState.held] using hsome
  refine ⟨hq.not_gNull hl n, ?_, ?_, hchk, ?_, ?_, ?_⟩
  · intro hpc
    obtain ⟨ho, _⟩ := hl.owner_of_pos (t := .worker n) (by simp [State.depthOf, hpc, WPc.depth])
    have hw := (window_worker ho).1 hq.window_ok
    simp only [windowWorker, hpc] at hw
    exact hw.2
  · intro hpc
    simpa [hpc, WPc.holds, WorkerState.held] using hsome
  · intro s' hs hpc
    exact (h.step_worker_pc hs).2.1 hpc
  · intro s' hs hpc
    exact ((h.step_worker_pc hs).2.2.2.1 hpc).2
  · intro s' hs ht
    unfold step at hs
    split at hs
    · cases hs
    · rcases stepWorker_to_test hs ht with h1 | h1 | h1 | ⟨h1, h2⟩
      · exact Or.inl h1
      · exact Or.inr (Or.inl h1)
      · exact Or.inr (Or.inr h1)
      · exact absurd h2 (hchk (Or.inl h1))

/-- Witness of C19: the small pool after 33 steps of its schedule, where
worker 0 is at the guard of line 177 with the job that `get_job` returned. -/
theorem get_job_not_null_witness :
    Reachable ex_cfg (ex_at 33) ∧ ((ex_at 33).workers 0).pc = .chk ∧
    (((ex_at 33).workers 0).pc ≠ .gNull ∧
    (((ex_at 33).workers 0).pc = .gTest → 0 < (ex_at 33).sh.num_jobs) ∧
    (((ex_at 33).workers 0).pc = .gReturn → ((ex_at 33).workers 0).g_new_job ≠ none) ∧
    (((ex_at 33).workers 0).pc = .chk ∨ ((ex_at 33).workers 0).pc = .work →
      ((ex_at 33).workers 0).new_job ≠ none) ∧
    (∀ s', step ex_cfg (ex_at 33) (.worker 0) = some s' → ((ex_at 33).workers 0).pc = .chk →
      (s'.workers 0).pc = .unlock) ∧
    (∀ s', step ex_cfg (ex_at 33) (.worker 0) = some s' → ((ex_at 33).workers 0).pc = .work →
      ∃ x, s'.out = (ex_at 33).out ++ [.handled 0 x]) ∧
    (∀ s', step ex_cfg (ex_at 33) (.worker 0) = some s' → (s'.workers 0).pc = .test →
      ((ex_at 33).workers 0).pc = .lock0 ∨ ((ex_at 33).workers 0).pc = .relock ∨
        ((ex_at 33).workers 0).pc = .woken)) :=
  ⟨ex_at_reachable 33 (by decide), by decide,
    get_job_not_null ex_cfg (ex_at 33) (ex_at_reachable 33 (by decide)) 0⟩

/-- C18 (the queue refines a list). Take the list of `num` fields along the
chain from `head` as the abstract value of a queue state. For every state
reached by `add_job` and `get_job` calls and every finite sequence `cs` mixing
the two calls: the sequence does not stop at a dereference of `NULL` or of an
unallocated address; and when it runs to its end, every `get_job` call in it
has returned what removing the first element of the abstract list returns
(none on the empty list), every `add_job(x)` has appended `x`, and the final
state represents the final abstract list. Hence the ids in the queue before
followed by the ids enqueued are the ids dequeued followed by the ids left in
the queue, and from an empty queue the ids of the non-NULL results of
`get_job` are, in order, a prefix of the ids enqueued. -/
theorem queue_refines_list (cs : List Call) (s : Shared) (h : Reach s) :
    (calls cs s ≠ .error (.fault .nullDeref) ∧ calls cs s ≠ .error (.fault .wildDeref)) ∧
    ∀ rs s', calls cs s = .ok (rs, s') →
      ∃ l l', Rep s l ∧ Rep s' l' ∧ Reach s' ∧
        absCalls cs (nums s.mem l) = (rs, nums s'.mem l') ∧
        nums s.mem l ++ enqueuedOf cs = dequeuedOf rs ++ nums s'.mem l' ∧
        (s.num_jobs = 0 → dequeuedOf rs <+: enqueuedOf cs) := by
  obtain ⟨l, hl⟩ := h.wf
  obtain ⟨h1, h2, h3⟩ := hl.calls_abs h cs
  refine ⟨⟨h2, h3⟩, ?_⟩
  intro rs s' hc
  obtain ⟨k1, l', k2, k3⟩ := h1 rs s' hc
  have hacc := absCalls_account cs (nums s.mem l)
  rw [k3] at hacc
  refine ⟨l, l', hl, k2, k1, k3, hacc, ?_⟩
  intro h0
  have hnil : l = [] := by
    have := hl.2.2
    rw [h0] at this
    exact List.length_eq_zero.1 (by exact_mod_cast this.symm)
  subst hnil
  simp only [nums, List.map_nil, List.nil_append] at hacc
  exact ⟨_, hacc.symm⟩

/-- Witness of C18: a sequence of four `add_job` and four `get_job` calls from
the initial state; the second `get_job` call finds the queue empty. -/
theorem queue_refines_list_witness :
    Reach Shared.init ∧
    (calls ex_calls Shared.init).toOption.map Prod.fst =
      some [some 5, none, some 7, some 9] ∧
    enqueuedOf ex_calls = [5, 7, 9, 11] ∧
    ((calls ex_calls Shared.init ≠ .error (.fault .nullDeref) ∧
      calls ex_calls Shared.init ≠ .error (.fault .wildDeref)) ∧
    ∀ rs s', calls ex_calls Shared.init = .ok (rs, s') →
      ∃ l l', Rep Shared.init l ∧ Rep s' l' ∧ Reach s' ∧
        absCalls ex_calls (nums Shared.init.mem l) = (rs, nums s'.mem l') ∧
        nums Shared.init.mem l ++ enqueuedOf ex_calls = dequeuedOf rs ++ nums s'.mem l' ∧
        (Shared.init.num_jobs = 0 → dequeuedOf rs <+: enqueuedOf ex_calls)) :=
  ⟨Reach.init, by decide, by decide, queue_refines_list ex_calls Shared.init Reach.init⟩

/-- C20 (chain well-formedness). In every state reached by `add_job` and
`get_job` calls with `num_jobs > 0`, the nodes linked from `head` form a
finite list without repetition that ends at `NULL`; it has `num_jobs` nodes,
its last node is `tail`, and the `link` of `tail` is `NULL`; `head` points to
an allocated node. So the read of `head->link` in `get_job` (line 136) is
defined and `get_job` returns the node at `head`, and the write to
`tail->link` in `add_job` (line 115) is defined: for every id and every
address that `malloc` can return, `add_job` returns, unless the increment of
`num_jobs` would pass `INT_MAX`. -/
theorem chain_well_formed (s : Shared) (h : Reach s) (hpos : 0 < s.num_jobs) :
    ∃ (l : List Nat) (t : Nat) (jt : job) (a : Nat) (j : job),
      chain s.mem s.head (l ++ [t]) ∧ (l ++ [t]).Nodup ∧
      s.num_jobs = ((l ++ [t]).length : Int) ∧
      s.tail = some t ∧ s.mem t = some jt ∧ jt.link = none ∧
      s.head = some a ∧ s.mem a = some j ∧
      (∃ s', get_job s = .ok (some a, s') ∧ s'.head = j.link) ∧
      (∀ x b, s.mem b = none →
        (∃ s', add_job x (some b) s = .ok s') ∨ add_job x (some b) s = .error .intOverflow) := by
  obtain ⟨l, hl⟩ := h.wf
  have hne : l ≠ [] := by
    intro e
    have := hl.2.2
    rw [e] at this
    simp at this
    omega
  obtain ⟨l₀, t, rfl⟩ : ∃ l₀ t, l = l₀ ++ [t] := by
    rcases List.eq_nil_or_concat l with e | ⟨l₀, t, e⟩
    · exact absurd e hne
    · exact ⟨l₀, t, by simpa using e⟩
  have ht : s.tail = some t := by simpa using hl.2.1
  obtain ⟨jt, hjt, hlink⟩ := chain_last hl.1
  obtain ⟨a, l₁, hal⟩ : ∃ a l₁, l₀ ++ [t] = a :: l₁ := by
    cases l₀ with
    | nil => exact ⟨t, [], rfl⟩
    | cons a l₁ => exact ⟨a, l₁ ++ [t], rfl⟩
  have hl' : Rep s (a :: l₁) := hal ▸ hl
  obtain ⟨j, g1, g2, g3, _⟩ := hl'.get
  exact ⟨l₀, t, jt, a, j, hl.1, chain_nodup hl.1, hl.2.2, ht, hjt, hlink, g1, g2,
    ⟨_, g3, rfl⟩, fun x b hb => hl.add_total x hb⟩

/-- Witness of C20: the state after two calls of `add_job`. -/
theorem chain_well_formed_witness :
    Reach ex_two ∧ 0 < ex_two.num_jobs ∧
    ∃ (l : List Nat) (t : Nat) (jt : job) (a : Nat) (j : job),
      chain ex_two.mem ex_two.head (l ++ [t]) ∧ (l ++ [t]).Nodup ∧
      ex_two.num_jobs = ((l ++ [t]).length : Int) ∧
      ex_two.tail = some t ∧ ex_two.mem t = some jt ∧ jt.link = none ∧
      ex_two.head = some a ∧ ex_two.mem a = some j ∧
      (∃ s', get_job ex_two = .ok (some a, s') ∧ s'.head = j.link) ∧
      (∀ x b, ex_two.mem b = none →
        (∃ s', add_job x (some b) ex_two = .ok s') ∨
          add_job x (some b) ex_two = .error .intOverflow) :=
  ⟨ex_two_reach, by decide, chain_well_formed ex_two ex_two_reach (by decide)⟩

/-- C13 (allocation failure is fatal). `add_job` does not test the result of
`malloc`: with `NULL` the write `new_job->num = request_num` at line 99 is a
dereference of `NULL`, which ends the process. As a function, `add_job` with
`NULL` from `malloc` returns the fault and no state. In the pool, in every
state without fault where `main` is at the `malloc` of line 98 and `malloc`
answers `NULL`, the statement leaves the shared state and the output as they
are and `main` is at line 99 with `new_job == NULL`. In every such state:
statements of other threads leave `main` there; the only statement `main` can
run is the faulting write; it leaves `head`, `tail`, `num_jobs`, the heap and
the output as they are; and after it no thread takes a step, so `malloc` is not
called again. -/
theorem alloc_failure_fatal (cfg : Config) (s : State) (hf : s.fault = none)
    (hpc : s.main.pc = .aMalloc) :
    (∀ x sh, add_job x none sh = .error .nullDeref) ∧
    (∃ s₁, step cfg s (.main none) = some s₁ ∧ allocFailed s₁ ∧ s₁.fault = none ∧
      s₁.sh = s.sh ∧ s₁.out = s.out) ∧
    ∀ s₁, allocFailed s₁ →
      (∀ a s₂, step cfg s₁ a = some s₂ → (∀ c, a ≠ .main c) → allocFailed s₂) ∧
      (∀ c s₂, step cfg s₁ (.main c) = some s₂ → s₂ = s₁.crash .nullDeref) ∧
      (s₁.fault = none → ∀ c, step cfg s₁ (.main c) = some (s₁.crash .nullDeref)) ∧
      (s₁.crash .nullDeref).fault = some .nullDeref ∧
      (s₁.crash .nullDeref).sh = s₁.sh ∧ (s₁.crash .nullDeref).out = s₁.out ∧
      ∀ a, step cfg (s₁.crash .nullDeref) a = none := by
  refine ⟨fun x sh => rfl, ?_, ?_⟩
  · refine ⟨{ s with main := { s.main with pc := .aNum, new_job := none } }, ?_, ⟨rfl, rfl⟩, hf,
      rfl, rfl⟩
    simp [step, hf, stepMain, hpc]
  · intro s₁ ha
    refine ⟨?_, ?_, ?_, rfl, rfl, rfl, ?_⟩
    · intro a s₂ hs hna
      have hmain : s₂.main = s₁.main := by
        unfold step at hs
        split at hs
        · cases hs
        · cases a with
          | main c => exact absurd rfl (hna c)
          | worker n => exact (stepWorker_finished hs).2
          | spurious n =>
            simp only at hs
            split at hs
            · cases hs
              rfl
            · cases hs
      exact ⟨hmain ▸ ha.1, hmain ▸ ha.2⟩
    · intro c s₂ hs
      unfold step at hs
      split at hs
      · cases hs
      · simp only [stepMain, ha.1, ha.2, Option.some.injEq] at hs
        exact hs.symm
    · intro hf₁ c
      simp [step, hf₁, stepMain, ha.1, ha.2]
    · intro a
      simp [step, State.crash]

/-- Witness of C13: the small pool after 12 steps of its schedule, where
`main` is about to call `malloc` for job 0. -/
theorem alloc_failure_fatal_witness :
    (ex_at 12).fault = none ∧ (ex_at 12).main.pc = .aMalloc ∧
    ((∀ x sh, add_job x none sh = .error .nullDeref) ∧
    (∃ s₁, step ex_cfg (ex_at 12) (.main none) = some s₁ ∧ allocFailed s₁ ∧ s₁.fault = none ∧
      s₁.sh = (ex_at 12).sh ∧ s₁.out = (ex_at 12).out) ∧
    ∀ s₁, allocFailed s₁ →
      (∀ a s₂, step ex_cfg s₁ a = some s₂ → (∀ c, a ≠ .main c) → allocFailed s₂) ∧
      (∀ c s₂, step ex_cfg s₁ (.main c) = some s₂ → s₂ = s₁.crash .nullDeref) ∧
      (s₁.fault = none → ∀ c, step ex_cfg s₁ (.main c) = some (s₁.crash .nullDeref)) ∧
      (s₁.crash .nullDeref).fault = some .nullDeref ∧
      (s₁.crash .nullDeref).sh = s₁.sh ∧ (s₁.crash .nullDeref).out = s₁.out ∧
      ∀ a, step ex_cfg (s₁.crash .nullDeref) a = none) :=
  ⟨by decide, by decide, alloc_failure_fatal ex_cfg (ex_at 12) (by decide) (by decide)⟩

/-- C15 (three-way transition of a worker). In every reachable state without
fault, for a worker at the test of line 175, which it reaches with the mutex
held once, what it does next when it runs is fixed by `num_jobs` and
`finished`. If `num_jobs > 0`: it takes the job at `head` with `get_job`,
releases the mutex, prints the line of that job, frees it, locks the mutex and
is at the test of line 175 again, with `num_jobs` one less. If `num_jobs > 0`
fails and `finished` is not 0: it releases the mutex, prints its exit line
and terminates, with the queue unchanged. If `num_jobs > 0` fails and
`finished` is 0: it releases the mutex and blocks in `pthread_cond_wait`, with
the queue and the output unchanged. A blocked worker can be woken with no
signal; a woken worker that gets the mutex is at the test of line 175 again
with the shared state unchanged, not inside `get_job`; and if it finds
`num_jobs > 0` false and `finished == 0` it blocks again, with the shared
state, the mutex and the output as they were. -/
theorem worker_three_way (cfg : Config) (s : State) (h : Reachable cfg s) (hf : s.fault = none)
    (n : Nat) :
    ((s.workers n).pc = .test →
      holdCount s (.worker n) = 1 ∧
      (0 < s.sh.num_jobs →
        ∃ k s' a j, run cfg (List.replicate k (.worker n)) s = some s' ∧
          s.sh.head = some a ∧ s.sh.mem a = some j ∧
          (s'.workers n).pc = .test ∧ s'.out = s.out ++ [.handled n j.num] ∧
          s'.sh.num_jobs = s.sh.num_jobs - 1 ∧ s'.sh.head = j.link ∧
          s'.sh.mem = s.sh.mem.free a ∧ s'.sh.finished = s.sh.finished ∧
          s'.mutex = s.mutex ∧ s'.main = s.main ∧ s'.fault = none) ∧
      (¬ 0 < s.sh.num_jobs → s.sh.finished ≠ 0 →
        s.sh.num_jobs = 0 ∧
        ∃ s', run cfg (List.replicate 5 (.worker n)) s = some s' ∧
          (s'.workers n).pc = .exited ∧ s'.out = s.out ++ [.exiting n] ∧
          s'.sh = s.sh ∧ s'.mutex.owner = none ∧ s'.main = s.main ∧ s'.fault = none) ∧
      (¬ 0 < s.sh.num_jobs → s.sh.finished = 0 →
        s.sh.num_jobs = 0 ∧
        ∃ s', run cfg (List.replicate 3 (.worker n)) s = some s' ∧
          (s'.workers n).pc = .waiting ∧ s'.out = s.out ∧
          s'.sh = s.sh ∧ s'.mutex.owner = none ∧ s'.main = s.main ∧ s'.fault = none)) ∧
    ((s.workers n).pc = .waiting →
      ∃ s', step cfg s (.spurious n) = some s' ∧ (s'.workers n).pc = .woken ∧
        s'.sh = s.sh ∧ s'.out = s.out ∧ s'.mutex = s.mutex) ∧
    ((s.workers n).pc = .woken →
      (∀ s', step cfg s (.worker n) = some s' →
        (s'.workers n).pc = .test ∧ s'.sh = s.sh ∧ s'.out = s.out ∧
          holdCount s' (.worker n) = 1) ∧
      (s.mutex.owner = none → ∃ s', step cfg s (.worker n) = some s') ∧
      (s.mutex.owner = none → ¬ 0 < s.sh.num_jobs → s.sh.finished = 0 →
        ∃ s', run cfg (List.replicate 4 (.worker n)) s = some s' ∧
          (s'.workers n).pc = .waiting ∧ s'.sh = s.sh ∧ s'.out = s.out ∧
          s'.mutex = s.mutex ∧ s'.main = s.main ∧ s'.fault = none)) := by
  have hinv := h.inv
  obtain ⟨hl, hc, l, hq⟩ := hinv
  refine ⟨?_, ?_, ?_⟩
  · intro hpc
    have hm := mutex_at_depth_one hl (n := n) (by rw [hpc]; rfl)
    have ho : s.mutex.owner = some (.worker n) := by rw [hm]
    have hw := (window_worker ho).1 hq.window_ok
    simp only [windowWorker, hpc] at hw
    have hz : ¬ 0 < s.sh.num_jobs → s.sh.num_jobs = 0 := by
      intro hn
      have := hw.2
      omega
    refine ⟨?_, fun hpos => h.inv.worker_takes_job hf hpc hpos, ?_, ?_⟩
    · rw [h.holdCount_worker n, hpc]; rfl
    · intro hn hfin
      refine ⟨hz hn, ?_⟩
      simp [List.replicate, run, step, stepWorker, hpc, hf, hm, hn, hfin,
        pthread_mutex_lock, pthread_mutex_unlock, State.setWorker]
    · intro hn hfin
      refine ⟨hz hn, ?_⟩
      simp [List.replicate, run, step, stepWorker, hpc, hf, hm, hn, hfin,
        pthread_mutex_lock, pthread_mutex_unlock, State.setWorker]
  · intro hpc
    simp [step, hf, hpc, State.setWorker]
  · intro hpc
    refine ⟨?_, ?_, ?_⟩
    · intro s' hs
      have h' := (Reachable.step _ h hs).holdCount_worker n
      have hpc' : (s'.workers n).pc = .test ∧ s'.sh = s.sh ∧ s'.out = s.out := by
        simp only [step, hf, stepWorker, hpc] at hs
        split at hs
        · cases hs
        · cases hs
          simp [State.setWorker]
      rw [h', hpc'.1]
      exact ⟨rfl, hpc'.2.1, hpc'.2.2, rfl⟩
    · intro ho
      simp [step, hf, stepWorker, hpc, pthread_mutex_lock, ho]
    · intro ho hn hfin
      have hd : s.mutex.depth = 0 := hl.2.2 ho
      have hm : s.mutex = { owner := none, depth := 0 } := by
        cases hmu : s.mutex with
        | mk o d =>
          rw [hmu] at ho hd
          simp only at ho hd
          rw [ho, hd]
      simp [List.replicate, run, step, stepWorker, hpc, hf, hm, hn, hfin,
        pthread_mutex_lock, pthread_mutex_unlock, State.setWorker]


/-- Witness of C15: the small pool after 23 steps of its schedule, where
worker 0, woken by the signal for job 0, is at the test of line 175 with
`num_jobs == 1`. -/
theorem worker_three_way_witness :
    Reachable ex_cfg (ex_at 23) ∧ (ex_at 23).fault = none ∧
    ((ex_at 23).workers 0).pc = .test ∧ 0 < (ex_at 23).sh.num_jobs ∧
    ((((ex_at 23).workers 0).pc = .test →
      holdCount (ex_at 23) (.worker 0) = 1 ∧
      (0 < (ex_at 23).sh.num_jobs →
        ∃ k s' a j, run ex_cfg (List.replicate k (.worker 0)) (ex_at 23) = some s' ∧
          (ex_at 23).sh.head = some a ∧ (ex_at 23).sh.mem a = some j ∧
          (s'.workers 0).pc = .test ∧ s'.out = (ex_at 23).out ++ [.handled 0 j.num] ∧
          s'.sh.num_jobs = (ex_at 23).sh.num_jobs - 1 ∧ s'.sh.head = j.link ∧
          s'.sh.mem = (ex_at 23).sh.mem.free a ∧ s'.sh.finished = (ex_at 23).sh.finished ∧
          s'.mutex = (ex_at 23).mutex ∧ s'.main = (ex_at 23).main ∧ s'.fault = none) ∧
      (¬ 0 < (ex_at 23).sh.num_jobs → (ex_at 23).sh.finished ≠ 0 →
        (ex_at 23).sh.num_jobs = 0 ∧
        ∃ s', run ex_cfg (List.replicate 5 (.worker 0)) (ex_at 23) = some s' ∧
          (s'.workers 0).pc = .exited ∧ s'.out = (ex_at 23).out ++ [.exiting 0] ∧
          s'.sh = (ex_at 23).sh ∧ s'.mutex.owner = none ∧ s'.main = (ex_at 23).main ∧ s'.fault = none) ∧
      (¬ 0 < (ex_at 23).sh.num_jobs → (ex_at 23).sh.finished = 0 →
        (ex_at 23).sh.num_jobs = 0 ∧
        ∃ s', run ex_cfg (List.replicate 3 (.worker 0)) (ex_at 23) = some s' ∧
          (s'.workers 0).pc = .waiting ∧ s'.out = (ex_at 23).out ∧
          s'.sh = (ex_at 23).sh ∧ s'.mutex.owner = none ∧ s'.main = (ex_at 23).main ∧ s'.fault = none)) ∧
    (((ex_at 23).workers 0).pc = .waiting →
      ∃ s', step ex_cfg (ex_at 23) (.spurious 0) = some s' ∧ (s'.workers 0).pc = .woken ∧
        s'.sh = (ex_at 23).sh ∧ s'.out = (ex_at 23).out ∧ s'.mutex = (ex_at 23).mutex) ∧
    (((ex_at 23).workers 0).pc = .woken →
      (∀ s', step ex_cfg (ex_at 23) (.worker 0) = some s' →
        (s'.workers 0).pc = .test ∧ s'.sh = (ex_at 23).sh ∧ s'.out = (ex_at 23).out ∧
          holdCount s' (.worker 0) = 1) ∧
      ((ex_at 23).mutex.owner = none → ∃ s', step ex_cfg (ex_at 23) (.worker 0) = some s') ∧
      ((ex_at 23).mutex.owner = none → ¬ 0 < (ex_at 23).sh.num_jobs → (ex_at 23).sh.finished = 0 →
        ∃ s', run ex_cfg (List.replicate 4 (.worker 0)) (ex_at 23) = some s' ∧
          (s'.workers 0).pc = .waiting ∧ s'.sh = (ex_at 23).sh ∧ s'.out = (ex_at 23).out ∧
          s'.mutex = (ex_at 23).mutex ∧ s'.main = (ex_at 23).main ∧ s'.fault = none))) :=
  ⟨ex_at_reachable 23 (by decide), by decide, by decide, by decide,
    worker_three_way ex_cfg (ex_at 23) (ex_at_reachable 23 (by decide)) (by decide) 0⟩

/-- C11 (event sequence of the reference scenario). With 10 workers and 30
jobs, in every state the program can reach in which `main` has returned: the
ids in the lines "handled job" are the ids 0 to 29, each exactly once; for
each worker id below 10 there is exactly one line "exiting", there is none
for any other id, so there are exactly 10 such lines; the line "Program
exiting" occurs exactly once and is the last line of the output, after the
10 lines "exiting" and the 30 lines "handled job"; and the output has no other
line (41 lines in all). -/
theorem event_sequence (s : State) (h : Reachable Config.source s) (hd : s.main.pc = .done) :
    handledNums s.out = enqueuedIds 30 ∧
    (∀ x : Int, (handledNums s.out).count x = if 0 ≤ x ∧ x < 30 then 1 else 0) ∧
    (∀ n, (exitingIds s.out).count n = if n < 10 then 1 else 0) ∧
    (exitingIds s.out).length = 10 ∧
    s.out.count Event.programExiting = 1 ∧
    s.out.length = 41 ∧
    ∃ o, s.out = o ++ [Event.programExiting] ∧ Event.programExiting ∉ o ∧
      (∀ n < 10, Event.exiting n ∈ o) ∧ handledNums o = enqueuedIds 30 := by
  have hinv := h.inv
  have hout := h.out_inv
  have hall : ∀ n < 10, (s.workers n).pc = .exited := hinv.ctl.all_joined (Or.inr hd)
  have hcr := hinv.ctl.created
  simp only [hd, reduceCtorEq, if_false] at hcr
  have hh : handledNums s.out = enqueuedIds 30 := hinv.handled_all (by decide) hall
  have hex : ∀ n, (exitingIds s.out).count n = if n < 10 then 1 else 0 := by
    intro n
    rw [hout.exiting_count n]
    by_cases hn : n < 10
    · rw [hall n hn, if_pos hn]
      rfl
    · have hnc : (s.workers n).pc = .notCreated := by
        by_contra hne
        exact hn ((hcr n).1 hne)
      rw [hnc, if_neg hn]
      rfl
  obtain ⟨o, ho, hno⟩ := hout.program_last hd
  have hpc : s.out.count Event.programExiting = 1 := by
    rw [ho, List.count_append, List.count_eq_zero_of_not_mem hno]
    rfl
  have hlen := count_range_source _ hex
  refine ⟨hh, ?_, hex, hlen, hpc, ?_, o, ho, hno, ?_, ?_⟩
  · intro x
    rw [hh]
    have := enqueuedIds_count 30 x
    simpa using this
  · rw [out_length, hh, enqueuedIds_card, hlen, hpc]
  · intro n hn
    have hm : n ∈ exitingIds s.out := by
      apply List.count_pos_iff.1
      rw [hex n, if_pos hn]
      exact Nat.one_pos
    have := exitingIds_mem.1 hm
    rw [ho] at this
    simpa using this
  · rw [← hh, ho]
    simp [handledNums, List.filterMap_append]

/-- Witness of C11: the end of a complete run with the constants of the
source, in which worker 0 handles the 30 jobs. -/
theorem event_sequence_witness :
    run Config.source src_schedule State.init = some src_done ∧
    src_done.main.pc = .done ∧
    (handledNums src_done.out = enqueuedIds 30 ∧
    (∀ x : Int, (handledNums src_done.out).count x = if 0 ≤ x ∧ x < 30 then 1 else 0) ∧
    (∀ n, (exitingIds src_done.out).count n = if n < 10 then 1 else 0) ∧
    (exitingIds src_done.out).length = 10 ∧
    src_done.out.count Event.programExiting = 1 ∧
    src_done.out.length = 41 ∧
    ∃ o, src_done.out = o ++ [Event.programExiting] ∧ Event.programExiting ∉ o ∧
      (∀ n < 10, Event.exiting n ∈ o) ∧ handledNums o = enqueuedIds 30) :=
  ⟨src_done_run, src_done_pc, event_sequence src_done src_done_reachable src_done_pc⟩

/-- C12, counterexample. With one worker and no job, `main` creates the
worker at line 55 and sets `finished` only at line 72. In the run where the
worker runs first after its creation, it locks the mutex, finds `num_jobs > 0`
false, is at the test of line 184 while `finished` is still 0, and calls
`pthread_cond_wait`: the run ends with the worker blocked in the wait and
`finished == 0`. So it is not the case that in every run the worker never
enters the wait. -/
theorem solo_worker_waits :
    run solo_cfg solo_wait_schedule State.init = some solo_waiting ∧
    (run solo_cfg (solo_wait_schedule.take 3) State.init).map
      (fun s => ((s.workers 0).pc, s.sh.num_jobs, s.sh.finished)) = some (.fin, 0, 0) ∧
    (solo_waiting.workers 0).pc = .waiting ∧ solo_waiting.sh.finished = 0 ∧
    ¬ (∀ s, Reachable solo_cfg s → (s.workers 0).pc.inWait = false) := by
  refine ⟨solo_waiting_run, by decide, by decide, by decide, ?_⟩
  intro hall
  have := hall solo_waiting solo_waiting_reachable
  revert this
  decide

/-- C12, amended. With one worker and no job, in every reachable state: the
queue is empty, no line "handled job" has been printed and the worker is
never in the branch of lines 176 to 181; at the test of line 175 it goes on to
the test of `finished` (line 184); there it takes the exit branch without
entering the wait if `main` has already set `finished`, and calls
`pthread_cond_wait` if `finished` is still 0; it is about to wait only while
`finished == 0` and blocked in the wait only before the broadcast of `main`;
after the broadcast `finished == 1` and the worker is not blocked; and once
`main` has returned the worker has exited. There is a complete run in which
the worker never enters the wait: the one where `main` sets `finished`,
broadcasts and unlocks before the worker runs. -/
theorem solo_worker_exit (s : State) (h : Reachable solo_cfg s) :
    (s.sh.num_jobs = 0 ∧ s.sh.head = none ∧ handledNums s.out = 0 ∧
      (s.workers 0).pc.idle = true) ∧
    (∀ s', step solo_cfg s (.worker 0) = some s' → (s.workers 0).pc = .test →
      (s'.workers 0).pc = .fin) ∧
    (∀ s', step solo_cfg s (.worker 0) = some s' → (s.workers 0).pc = .fin →
      (s.sh.finished ≠ 0 → (s'.workers 0).pc = .unlockExit) ∧
      (s.sh.finished = 0 → (s'.workers 0).pc = .wait)) ∧
    ((s.workers 0).pc = .wait → s.sh.finished = 0) ∧
    ((s.workers 0).pc = .waiting → s.main.pc.afterBroadcast = false) ∧
    (s.main.pc.afterBroadcast = true →
      s.sh.finished = 1 ∧ (s.workers 0).pc ≠ .wait ∧ (s.workers 0).pc ≠ .waiting) ∧
    (s.main.pc = .done → (s.workers 0).pc = .exited) ∧
    ((run solo_cfg solo_exit_schedule State.init).map (fun s' => s'.main.pc) = some .done ∧
      ∀ k ≤ 16, (run solo_cfg (solo_exit_schedule.take k) State.init).map
        (fun s' => (s'.workers 0).pc.inWait) = some false) := by
  obtain ⟨h0, h1, h2, h3⟩ := h.nojob rfl
  have hc := h.inv.ctl
  have hf1 : s.main.pc.afterBroadcast = true → s.sh.finished = 1 := by
    intro hb
    rw [hc.finished_eq]
    have : s.main.pc.afterFinished = true := by
      revert hb
      cases s.main.pc <;> decide
    rw [this]
    rfl
  refine ⟨⟨h0, h1, h3, h2 0⟩, ?_, ?_, hc.wait_unfinished 0, hc.waiting_pending 0, ?_, ?_,
    by decide, by decide⟩
  · intro s' hs hpc
    have hnp : ¬ s.sh.num_jobs > 0 := by rw [h0]; decide
    unfold step at hs
    split at hs
    · cases hs
    · simp only [stepWorker, hpc, hnp, if_false, Option.some.injEq] at hs
      subst hs
      simp [State.setWorker]
  · intro s' hs hpc
    unfold step at hs
    split at hs
    · cases hs
    · simp only [stepWorker, hpc] at hs
      split at hs
      · rename_i hfin
        cases hs
        exact ⟨fun _ => by simp [State.setWorker], fun e => absurd e hfin⟩
      · rename_i hfin
        cases hs
        exact ⟨fun e => absurd e hfin, fun _ => by simp [State.setWorker]⟩
  · intro hb
    refine ⟨hf1 hb, ?_, ?_⟩
    · intro hw
      have := hc.wait_unfinished 0 hw
      rw [hf1 hb] at this
      exact absurd this (by decide)
    · intro hw
      have := hc.waiting_pending 0 hw
      rw [hb] at this
      cases this
  · intro hd
    exact hc.all_joined (Or.inr hd) 0 (by decide)

/-- Witness of the amended C12: the state of the counterexample, where the
worker is blocked in the wait and the broadcast of `main` is still to come. -/
theorem solo_worker_exit_witness :
    Reachable solo_cfg solo_waiting ∧ (solo_waiting.workers 0).pc = .waiting ∧
    ((solo_waiting.sh.num_jobs = 0 ∧ solo_waiting.sh.head = none ∧
      handledNums solo_waiting.out = 0 ∧ (solo_waiting.workers 0).pc.idle = true) ∧
    (∀ s', step solo_cfg solo_waiting (.worker 0) = some s' →
      (solo_waiting.workers 0).pc = .test → (s'.workers 0).pc = .fin) ∧
    (∀ s', step solo_cfg solo_waiting (.worker 0) = some s' →
      (solo_waiting.workers 0).pc = .fin →
      (solo_waiting.sh.finished ≠ 0 → (s'.workers 0).pc = .unlockExit) ∧
      (solo_waiting.sh.finished = 0 → (s'.workers 0).pc = .wait)) ∧
    ((solo_waiting.workers 0).pc = .wait → solo_waiting.sh.finished = 0) ∧
    ((solo_waiting.workers 0).pc = .waiting → solo_waiting.main.pc.afterBroadcast = false) ∧
    (solo_waiting.main.pc.afterBroadcast = true →
      solo_waiting.sh.finished = 1 ∧ (solo_waiting.workers 0).pc ≠ .wait ∧
        (solo_waiting.workers 0).pc ≠ .waiting) ∧
    (solo_waiting.main.pc = .done → (solo_waiting.workers 0).pc = .exited) ∧
    ((run solo_cfg solo_exit_schedule State.init).map (fun s' => s'.main.pc) = some .done ∧
      ∀ k ≤ 16, (run solo_cfg (solo_exit_schedule.take k) State.init).map
        (fun s' => (s'.workers 0).pc.inWait) = some false)) :=
  ⟨solo_waiting_reachable, by decide, solo_worker_exit solo_waiting solo_waiting_reachable⟩

end Threadpool
